import Mathlib

/-!
# Minimizer index of `index.c`

A shallow embedding of `src/index.c`: the bucketed minimizer index
(`mg_idx_add`, `worker_post`, `mg_idx_get`) and its build driver
(`mg_gfa_overlap`, `mg_index_gfa`).

Conventions of the embedding.

* `uint64_t` values are natural numbers; an operation that can leave the
  64-bit range is reduced `% 2 ^ 64` at the place where the C code wraps.
* A C array together with its length is a `List`; a pointer that may be null
  is an `Option`.
* A run that dereferences a null pointer, indexes outside an array or fails an
  `assert` ends in `Except.error` with the matching `Fault`.
* The `int` counters of `worker_post` (`n`, `n_keys`, `b->n`) are natural
  numbers; the C code is defined for them while a bucket stages fewer than
  `2 ^ 31` entries, and every theorem that states that a run of `worker_post`
  returns carries that bound on the entries.
* `1 << b` on an `int` is defined for `0 ≤ b ≤ 30`; in that range the mask
  `(1 << b) - 1` is the natural number `(1 <<< b) - 1`.
-/

namespace Minigraph

/-- The ways a run of the C code can go wrong. -/
inductive Fault where
  | nullDeref
  | outOfBounds
  | assertFail
deriving DecidableEq, Repr

deriving instance DecidableEq for Except

/-- The type `mg128_t`: a pair of 64-bit words, `x` the minimizer key and `y` the position. -/
structure mg128_t where
  x : Nat
  y : Nat
deriving DecidableEq, Repr

/-! ## The hash table `khash_t(idx)` -/

/-- Modelled from the spec: the table type that `KHASH_INIT(idx, uint64_t, uint64_t, 1, ...)`
of `khash.h` declares. `khash.h` is not part of the sources; the spec calls it "a finalized
hash table mapping identity" to a value. The table is the list of its occupied slots
`(key, value)`, and an iterator is a position in that list. -/
abbrev idxhash_t := List (Nat × Nat)

/-- The macro `idx_hash(a)`: `(a)>>1`. -/
def idx_hash (a : Nat) : Nat := a >>> 1

/-- The macro `idx_eq(a, b)`: `(a)>>1 == (b)>>1`. -/
def idx_eq (a c : Nat) : Bool := a >>> 1 == c >>> 1

/-- Modelled from the spec: `kh_init` of `khash.h`, the empty table. -/
def kh_init : idxhash_t := []

/-- Modelled from the spec: `kh_get` of `khash.h`. The iterator of the slot whose key is
`idx_eq` to `key`, or `none` (the C `kh_end(h)`) when there is no such slot. -/
def kh_get (h : idxhash_t) (key : Nat) : Option Nat :=
  h.findIdx? (fun kv => idx_eq kv.1 key)

/-- Modelled from the spec: `kh_put` of `khash.h`. When a slot with an `idx_eq` key exists its
iterator is returned with `absent = false`; otherwise a new slot holding `key` is made and
returned with `absent = true`. The result is `(table, iterator, absent)`. -/
def kh_put (h : idxhash_t) (key : Nat) : idxhash_t × Nat × Bool :=
  match kh_get h key with
  | some itr => (h, itr, false)
  | none => (h ++ [(key, 0)], h.length, true)

/-- Modelled from the spec: the lvalue `kh_key(h, itr)` of `khash.h`, read. -/
def kh_key (h : idxhash_t) (itr : Nat) : Nat := (h.getD itr (0, 0)).1

/-- Modelled from the spec: the lvalue `kh_val(h, itr)` of `khash.h`, read. -/
def kh_val (h : idxhash_t) (itr : Nat) : Nat := (h.getD itr (0, 0)).2

/-- Modelled from the spec: the lvalue `kh_key(h, itr)` of `khash.h`, assigned. -/
def kh_set_key (h : idxhash_t) (itr : Nat) (key : Nat) : idxhash_t :=
  h.set itr (key, kh_val h itr)

/-- Modelled from the spec: the lvalue `kh_val(h, itr)` of `khash.h`, assigned. -/
def kh_set_val (h : idxhash_t) (itr : Nat) (val : Nat) : idxhash_t :=
  h.set itr (kh_key h itr, val)

/-! ## Sorting -/

/-- Modelled from the spec: `radix_sort_64`, declared by a `KRADIX_SORT_INIT` that is not part
of the sources. The spec has it "re-sort that sub-range by position-code", ascending. -/
def radix_sort_64 (l : List Nat) : List Nat := l.insertionSort (fun u v => u ≤ v)

/-- What the bucket builder needs of `radix_sort_128x`, which is not part of the sources and is
taken as a parameter: it rearranges the staging entries into ascending order of `x`. It need not
be stable. -/
def sorts_by_x (rs : List mg128_t → List mg128_t) : Prop :=
  ∀ l, (rs l).Perm l ∧ (rs l).Pairwise (fun e1 e2 => e1.x ≤ e2.x)

/-! ## Buckets and the index -/

/-- The type `mg_idx_bucket_t`. The vector `a` is the list of its `a.n` elements. -/
structure mg_idx_bucket_t where
  a : List mg128_t
  n : Nat
  p : Option (List Nat)
  h : Option idxhash_t
deriving DecidableEq, Repr

/-- A bucket as `calloc` leaves it: all fields zero. -/
def bucket_zero : mg_idx_bucket_t := { a := [], n := 0, p := none, h := none }

/-- A segment of the graph: its sequence and length. -/
structure gfa_seg_t where
  seq : List Nat
  len : Nat
deriving DecidableEq, Repr

/-- An arc of the graph; only the overlap fields `ov` and `ow` are read here. -/
structure gfa_arc_t where
  ov : Int
  ow : Int
deriving DecidableEq, Repr

/-- The graph `gfa_t`: `seg` holds the `n_seg` segments, `arc` the `n_arc` arcs. -/
structure gfa_t where
  seg : List gfa_seg_t
  arc : List gfa_arc_t
deriving DecidableEq, Repr

/-- The type `mg_idx_t`. `B` is the bucket array, `none` when the pointer is null. -/
structure mg_idx_t where
  b : Nat
  w : Int
  k : Int
  flag : Int
  B : Option (List mg_idx_bucket_t)
  g : gfa_t
deriving DecidableEq, Repr

/-! ## Index access -/

/-- The bucket number `minier&mask` of `mg_idx_get`, with `mask = (1<<b) - 1`. -/
def get_slot (b minier : Nat) : Nat := minier &&& ((1 <<< b) - 1)

/-- The table key `minier>>gi->b<<1` of `mg_idx_get`, a 64-bit shift. -/
def get_key (b minier : Nat) : Nat := (minier >>> b <<< 1) % 2 ^ 64

/-- The function `mg_idx_get`. The result is the returned pointer, as the list of the `*n`
values it points at (`none` for the null pointer), and the count `*n`. -/
def mg_idx_get (gi : mg_idx_t) (minier : Nat) : Except Fault (Option (List Nat) × Nat) :=
  match gi.B with
  | none => .error .nullDeref
  | some B =>
    match B[get_slot gi.b minier]? with
    | none => .error .outOfBounds
    | some b =>
      match b.h with
      | none => .ok (none, 0)
      | some h =>
        match kh_get h (get_key gi.b minier) with
        | none => .ok (none, 0)
        | some k =>
          if kh_key h k &&& 1 ≠ 0 then
            .ok (some [kh_val h k], 1)
          else
            let n := kh_val h k % 2 ^ 32
            .ok (some (((b.p.getD []).drop (kh_val h k >>> 32)).take n), n)

/-! ## Index build -/

/-- The bucket number `a[i].x>>8&mask` of `mg_idx_add`, with `mask = (1<<b) - 1`. -/
def add_slot (b x : Nat) : Nat := (x >>> 8) &&& ((1 <<< b) - 1)

/-- One turn of the loop of `mg_idx_add`: `kv_push` of `e` onto the staging list of its bucket. -/
def mg_idx_add_step (gi : mg_idx_t) (e : mg128_t) : Except Fault mg_idx_t :=
  match gi.B with
  | none => .error .nullDeref
  | some B =>
    match B[add_slot gi.b e.x]? with
    | none => .error .outOfBounds
    | some bk => .ok { gi with B := some (B.set (add_slot gi.b e.x) { bk with a := bk.a ++ [e] }) }

/-- The function `mg_idx_add`; the arguments `n` and `a` are the list `a` of length `n`. -/
def mg_idx_add (gi : mg_idx_t) (a : List mg128_t) : Except Fault mg_idx_t :=
  a.foldlM mg_idx_add_step gi

/-- The table key `p->x>>8>>gi->b<<1` that `worker_post` inserts, a 64-bit shift. -/
def put_key (b x : Nat) : Nat := (x >>> 8 >>> b <<< 1) % 2 ^ 64

/-- The loop condition `j == b->a.n || b->a.a[j].x>>8 != b->a.a[j-1].x>>8` of `worker_post`. -/
def run_ends (a : List mg128_t) (j : Nat) : Bool :=
  j == a.length || (a.getD j ⟨0, 0⟩).x >>> 8 != (a.getD (j - 1) ⟨0, 0⟩).x >>> 8

/-- The variables `n`, `n_keys` and `b->n` of the counting loop of `worker_post`. -/
structure CountSt where
  n : Nat
  n_keys : Nat
  bn : Nat
deriving DecidableEq, Repr

/-- One turn of the counting loop of `worker_post`. -/
def count_step (a : List mg128_t) (s : CountSt) (j : Nat) : CountSt :=
  if run_ends a j then
    { n := 1, n_keys := s.n_keys + 1, bn := if s.n > 1 then s.bn + s.n else s.bn }
  else { s with n := s.n + 1 }

/-- The counting loop of `worker_post`: `j` runs from `1` to `b->a.n`. -/
def count_loop (a : List mg128_t) : CountSt :=
  (List.range' 1 a.length).foldl (count_step a) { n := 1, n_keys := 0, bn := 0 }

/-- The variables `n`, `start_a`, `start_p`, the table `h` and the array `b->p` of the encoding
loop of `worker_post`. -/
structure EncSt where
  n : Nat
  start_a : Nat
  start_p : Nat
  h : idxhash_t
  p : List Nat
deriving DecidableEq, Repr

/-- The inner loop `for (k = 0; k < n; ++k) b->p[start_p + k] = b->a.a[start_a + k].y`. -/
def copy_run (a : List mg128_t) (start_a start_p n : Nat) (p : List Nat) :
    Except Fault (List Nat) :=
  (List.range n).foldlM
    (fun q k =>
      if start_p + k < q.length then .ok (q.set (start_p + k) (a.getD (start_a + k) ⟨0, 0⟩).y)
      else .error .outOfBounds)
    p

/-- The call `radix_sort_64(&b->p[start_p], &b->p[start_p + n])`: the slice is sorted in place. -/
def sort_slice (p : List Nat) (start_p n : Nat) : List Nat :=
  p.take start_p ++ radix_sort_64 ((p.drop start_p).take n) ++ p.drop (start_p + n)

/-- One turn of the encoding loop of `worker_post`. -/
def enc_step (b : Nat) (a : List mg128_t) (s : EncSt) (j : Nat) : Except Fault EncSt :=
  if run_ends a j then
    let pe := a.getD (j - 1) ⟨0, 0⟩
    let (h1, itr, absent) := kh_put s.h (put_key b pe.x)
    if !(absent && j == s.start_a + s.n) then .error .assertFail
    else if s.n == 1 then
      let h2 := kh_set_key h1 itr (kh_key h1 itr ||| 1)
      let h3 := kh_set_val h2 itr pe.y
      .ok { n := 1, start_a := j, start_p := s.start_p, h := h3, p := s.p }
    else do
      let p1 ← copy_run a s.start_a s.start_p s.n s.p
      let p2 := sort_slice p1 s.start_p s.n
      let h2 := kh_set_val h1 itr ((s.start_p <<< 32) % 2 ^ 64 ||| s.n)
      .ok { n := 1, start_a := j, start_p := s.start_p + s.n, h := h2, p := p2 }
  else .ok { s with n := s.n + 1 }

/-- The encoding loop of `worker_post`: `j` runs from `1` to `b->a.n`; `p` is the array that
`calloc` returned. -/
def enc_loop (b : Nat) (a : List mg128_t) (p : List Nat) : Except Fault EncSt :=
  (List.range' 1 a.length).foldlM (enc_step b a)
    { n := 1, start_a := 0, start_p := 0, h := kh_init, p := p }

/-- The body of `worker_post` on the bucket `bk = gi->B[i]`, with `b = gi->b`. The call
`kh_resize(idx, h, n_keys)` only reserves room and leaves the table empty. -/
def worker_post_bucket (rs : List mg128_t → List mg128_t) (b : Nat) (bk : mg_idx_bucket_t) :
    Except Fault mg_idx_bucket_t :=
  if bk.a.length == 0 then .ok bk
  else
    let a := rs bk.a
    let c := count_loop a
    match enc_loop b a (List.replicate c.bn 0) with
    | .error f => .error f
    | .ok s =>
      if c.bn == s.start_p then .ok { a := [], n := c.bn, p := some s.p, h := some s.h }
      else .error .assertFail

/-- The function `worker_post` for work item `i`; `rs` is `radix_sort_128x`. -/
def worker_post (rs : List mg128_t → List mg128_t) (gi : mg_idx_t) (i : Nat) :
    Except Fault mg_idx_t :=
  match gi.B with
  | none => .error .nullDeref
  | some B =>
    match B[i]? with
    | none => .error .outOfBounds
    | some bk =>
      match worker_post_bucket rs gi.b bk with
      | .error f => .error f
      | .ok bk1 => .ok { gi with B := some (B.set i bk1) }

/-- Modelled from the spec: `kt_for` of `kthread.c`, which is not part of the sources. The spec
has the work items "distributed across a fixed-size worker pool" with "no ordering requirement
between them"; `order` is the order in which the pool takes up the items `0 .. n-1`. -/
def kt_for {σ : Type} (order : List Nat) (func : σ → Nat → Except Fault σ) (data : σ) :
    Except Fault σ :=
  order.foldlM func data

/-- The loop of `mg_gfa_overlap` over the arcs, returning at the first arc with an overlap. -/
def mg_gfa_overlap_arcs : List gfa_arc_t → Int
  | [] => 0
  | a :: rest => if a.ov ≠ 0 ∨ a.ow ≠ 0 then 1 else mg_gfa_overlap_arcs rest

/-- The function `mg_gfa_overlap`. -/
def mg_gfa_overlap (g : gfa_t) : Int := mg_gfa_overlap_arcs g.arc

/-- The loop of `mg_index_gfa` over the segments: sketch segment `i` and add its minimizers.
`sk i s` is the list that `mg_sketch` leaves in `a` for segment number `i`. -/
def ingest_segs (sk : Nat → gfa_seg_t → List mg128_t) :
    Nat → List gfa_seg_t → mg_idx_t → Except Fault mg_idx_t
  | _, [], gi => .ok gi
  | i, s :: rest, gi =>
    match mg_idx_add gi (sk i s) with
    | .error f => .error f
    | .ok gi1 => ingest_segs sk (i + 1) rest gi1

/-- The function `mg_index_gfa`. `sketch w k flag i s` is the output of the external
`mg_sketch` on segment `i` (the flag argument is `flag&MG_I_HPC`, the constant `hpc` being
`MG_I_HPC`); `rs` is `radix_sort_128x`; `sched n_threads n` is the order in which `kt_for` with `n_threads` workers runs
its `n` items. The result `none` is the null pointer. -/
def mg_index_gfa (sketch : Int → Int → Int → Nat → gfa_seg_t → List mg128_t) (hpc : Int)
    (rs : List mg128_t → List mg128_t) (sched : Int → Nat → List Nat) (g : gfa_t) (k w : Int) (b : Nat) (flag n_threads : Int) :
    Except Fault (Option mg_idx_t) :=
  if mg_gfa_overlap g ≠ 0 then .ok none
  else
    let gi : mg_idx_t := { b := b, w := w, k := k, flag := flag, B := none, g := g }
    match ingest_segs (sketch w k (Int.land flag hpc)) 0 g.seg gi with
    | .error f => .error f
    | .ok gi1 =>
      match kt_for (sched n_threads (1 <<< gi1.b)) (worker_post rs) gi1 with
      | .error f => .error f
      | .ok gi2 => .ok (some gi2)

/-! ## Specification vocabulary and proof invariants -/

/-- At the head of turn `j` of either loop of `worker_post`: the current run is
`a[st .. j)`, it has `n` entries of one fingerprint, and every earlier entry has a smaller
fingerprint than every entry from `st` on. -/
structure RunInv (a : List mg128_t) (j st n : Nat) : Prop where
  hj : st + n = j
  hn : 1 ≤ n
  run : j ≤ a.length → ∀ k, st ≤ k → k < j →
    (a.getD k ⟨0, 0⟩).x >>> 8 = (a.getD (j - 1) ⟨0, 0⟩).x >>> 8
  sep : ∀ k1 k2, k1 < st → st ≤ k2 → k2 < a.length →
    (a.getD k1 ⟨0, 0⟩).x >>> 8 < (a.getD k2 ⟨0, 0⟩).x >>> 8
  fin : j = a.length + 1 → st = a.length

/-- The positions of the entries of `l` that carry fingerprint `v` (`x>>8`), in list order. -/
def ys_of (l : List mg128_t) (v : Nat) : List Nat :=
  (l.filter (fun e => e.x >>> 8 == v)).map (fun e => e.y)

/-- The number of entries of `l` whose fingerprint is carried by two or more entries of `l`. -/
def multi_total (l : List mg128_t) : Nat :=
  l.countP (fun e => decide (1 < (ys_of l (e.x >>> 8)).length))

/-- The table `h` and position array `p` answer for fingerprint `v` with what the entries `pre`
hold under it: one tagged slot with the position when there is one entry, else an untagged slot
with offset and count of a slice of `p` below `sp` that holds the positions in ascending
order. -/
def slot_ok (b : Nat) (pre : List mg128_t) (h : idxhash_t) (p : List Nat) (sp v : Nat) : Prop :=
  ∃ k, kh_get h (get_key b v) = some k ∧
    ((∃ y, ys_of pre v = [y] ∧ h.getD k (0, 0) = (get_key b v ||| 1, y)) ∨
     (2 ≤ (ys_of pre v).length ∧
        ∃ st, h.getD k (0, 0) = (get_key b v, (st <<< 32) % 2 ^ 64 ||| (ys_of pre v).length) ∧
          st + (ys_of pre v).length ≤ sp ∧
          (p.drop st).take (ys_of pre v).length = radix_sort_64 (ys_of pre v)))

/-- The state of the encoding loop at the head of turn `j`; `P` is the length of `b->p`. -/
structure EncInv (b : Nat) (a : List mg128_t) (P j : Nat) (s : EncSt) : Prop where
  runs : RunInv a j s.start_a s.n
  plen : s.p.length = P
  sp : s.start_p = multi_total (a.take s.start_a)
  keys : ∀ kv ∈ s.h, ∃ e ∈ a.take s.start_a, kv.1 >>> 1 = e.x >>> 8 >>> b
  nodup : (s.h.map (fun kv => kv.1 >>> 1)).Nodup
  look : ∀ e ∈ a.take s.start_a, slot_ok b (a.take s.start_a) s.h s.p s.start_p (e.x >>> 8)

/-- The state of the counting loop at the head of turn `j`: the current run starts at
`j - n`, and `b->n` counts the entries of the completed runs of two or more. -/
structure CountInv (a : List mg128_t) (j : Nat) (s : CountSt) : Prop where
  runs : RunInv a j (j - s.n) s.n
  bn : s.bn = multi_total (a.take (j - s.n))

/-- The table `h` and overflow array `p` of a finalised bucket hold exactly what the staging
list `st` held: `p` has one cell per entry of a shared fingerprint, every key of `h` is the
identity of a staged entry, no identity has two slots, and every staged fingerprint is
answered. -/
structure BucketOK (b : Nat) (st : List mg128_t) (h : idxhash_t) (p : List Nat) : Prop where
  plen : p.length = multi_total st
  keys : ∀ kv ∈ h, ∃ e ∈ st, kv.1 >>> 1 = e.x >>> 8 >>> b
  nodup : (h.map (fun kv => kv.1 >>> 1)).Nodup
  look : ∀ e ∈ st, slot_ok b st h p (multi_total st) (e.x >>> 8)

/-- The entries of `l` that `mg_idx_add` routes to bucket `i`, in input order. -/
def staged (b : Nat) (l : List mg128_t) (i : Nat) : List mg128_t :=
  l.filter (fun e => add_slot b e.x == i)

/-- The build steps of `mg_index_gfa` that follow the allocation of the index: the entries `l`
are ingested by `mg_idx_add`, then `kt_for` runs `worker_post` on the buckets in `order`. -/
def build_index (rs : List mg128_t → List mg128_t) (order : List Nat) (gi0 : mg_idx_t)
    (l : List mg128_t) : Except Fault mg_idx_t :=
  match mg_idx_add gi0 l with
  | .error f => .error f
  | .ok gi => kt_for order (worker_post rs) gi

/-- Bucket `r` is the finalised form of a bucket that staged `st`: untouched when `st` is empty,
else a table and an overflow array that hold `st`. -/
def final_bucket (b : Nat) (st : List mg128_t) (r : Option mg_idx_bucket_t) : Prop :=
  (st = [] ∧ r = some bucket_zero) ∨
  (st ≠ [] ∧ ∃ h p, r = some { a := [], n := multi_total st, p := some p, h := some h } ∧
    BucketOK b st h p)

/-- A stand-in for `radix_sort_128x`: insertion sort on the key `x`. -/
def rs_insertion (l : List mg128_t) : List mg128_t :=
  l.insertionSort (fun e1 e2 => e1.x ≤ e2.x)

/-- An index that holds `2^b` zeroed buckets and an empty graph. -/
def idx_zeroed (b : Nat) : mg_idx_t :=
  { b := b, w := 0, k := 0, flag := 0, B := some (List.replicate (2 ^ b) bucket_zero),
    g := { seg := [], arc := [] } }

/-- Six entries: fingerprint 1 twice, fingerprint 3 three times, fingerprint 7 once. -/
def sample_entries : List mg128_t :=
  [⟨0x100, 7⟩, ⟨0x301, 9⟩, ⟨0x302, 3⟩, ⟨0x105, 2⟩, ⟨0x300, 11⟩, ⟨0x700, 1⟩]

/-- A graph of one segment and no arcs. -/
def sample_graph : gfa_t := { seg := [⟨[0, 1, 2, 3], 4⟩], arc := [] }

/-- The index as `mg_index_gfa` leaves it before ingestion, for `sample_graph`, `k = 15`,
`w = 10`, `b = 2` and `flag = 0`: the parameters and the graph are recorded, `B` is null. -/
def sample_unallocated : mg_idx_t :=
  { b := 2, w := 10, k := 15, flag := 0, B := none, g := sample_graph }

/-- The number of staged entries over all buckets. -/
def staging_total (Bs : List mg_idx_bucket_t) : Nat :=
  (Bs.map (fun bk => bk.a.length)).sum

/-- Bucket 1 of an index with `b = 1`, staged but not finalised. -/
def sample_bucket : mg_idx_bucket_t :=
  { a := [⟨0x100, 7⟩, ⟨0x301, 9⟩, ⟨0x302, 3⟩, ⟨0x105, 2⟩], n := 0, p := none, h := none }

/-- The value `(uint64_t)start_p<<32 | n` that `worker_post` stores for a run of `n` entries
copied to offset `start_p`. -/
def range_desc (start_p n : Nat) : Nat := (start_p <<< 32) % 2 ^ 64 ||| n

/-- The offset `kh_val(h, k)>>32` that `mg_idx_get` reads from a stored value. -/
def range_offset (val : Nat) : Nat := val >>> 32

/-- The count `(uint32_t)kh_val(h, k)` that `mg_idx_get` reads from a stored value. -/
def range_count (val : Nat) : Nat := val % 2 ^ 32

/-- Modelled from the spec: the header of the vector type `mg128_v` that `kvec.h` declares,
which is not part of the sources: `n` entries in use, room for `m`, and the storage `a` (the
entries in use; `none` for the null pointer). The spec calls it "a transient growable list". -/
structure mg128_v where
  n : Nat
  m : Nat
  a : Option (List mg128_t)
deriving DecidableEq, Repr

/-- The vector as `calloc` leaves it: no entry, no room, no storage. -/
def kv_zero : mg128_v := { n := 0, m := 0, a := none }

/-- Modelled from the spec: `kv_push` of `kvec.h`, as `mg_idx_add` calls it: the entry is
appended, and when the vector is full its room grows first (`grow` gives the new room). -/
def kv_push (grow : Nat → Nat) (v : mg128_v) (x : mg128_t) : mg128_v :=
  { n := v.n + 1, m := if v.n == v.m then grow v.m else v.m, a := some (v.a.getD [] ++ [x]) }

/-- The type `mg_idx_bucket_t` with the header of the vector `a` spelled out. -/
structure mg_idx_bucket_v where
  a : mg128_v
  n : Nat
  p : Option (List Nat)
  h : Option idxhash_t
deriving DecidableEq, Repr

/-- The bucket of the list embedding that a bucket with a vector header stands for: its
staging list is the `a.n` entries of the storage `a.a`. -/
def bucket_of_v (bk : mg_idx_bucket_v) : mg_idx_bucket_t :=
  { a := (bk.a.a.getD []).take bk.a.n, n := bk.n, p := bk.p, h := bk.h }

/-- The body of `worker_post` on the bucket `bk = gi->B[i]` with the header of `b->a` spelled
out: the test `b->a.n == 0`, the sort and the two loops on the `b->a.n` entries of `b->a.a`,
then `kfree(0, b->a.a)`, `b->a.n = b->a.m = 0` and `b->a.a = 0`. -/
def worker_post_bucket_v (rs : List mg128_t → List mg128_t) (b : Nat) (bk : mg_idx_bucket_v) :
    Except Fault mg_idx_bucket_v :=
  if bk.a.n == 0 then .ok bk
  else
    let a := rs ((bk.a.a.getD []).take bk.a.n)
    let c := count_loop a
    match enc_loop b a (List.replicate c.bn 0) with
    | .error f => .error f
    | .ok s =>
      if c.bn == s.start_p then
        .ok { a := { n := 0, m := 0, a := none }, n := c.bn, p := some s.p, h := some s.h }
      else .error .assertFail

/-- Bucket `i` of an index of `2^b` zeroed buckets after `mg_idx_add` has ingested `l`, with
the vector header that the `kv_push` calls leave. -/
def staged_v (grow : Nat → Nat) (b : Nat) (l : List mg128_t) (i : Nat) : mg_idx_bucket_v :=
  { a := (staged b l i).foldl (kv_push grow) kv_zero, n := 0, p := none, h := none }
/-- The two-bucket index after `mg_idx_add` of the six sample entries. -/
def sample_staged : mg_idx_t :=
  { idx_zeroed 1 with
    B := some [bucket_zero,
      { a := sample_entries, n := 0, p := none, h := none }] }

/-- The index `sample_staged` after `worker_post` on bucket 1. -/
def sample_posted : mg_idx_t :=
  { idx_zeroed 1 with
    B := some [bucket_zero,
      { a := [], n := 5, p := some [2, 7, 3, 9, 11],
        h := some [(0, 2), (2, 8589934595), (7, 1)] }] }

/-- The number of distinct fingerprints (`x>>8`) carried by the entries of `l`. -/
def n_distinct (l : List mg128_t) : Nat :=
  ((l.map (fun e => e.x >>> 8)).dedup).length

/-- The (offset, count) pairs that `mg_idx_get` decodes from the untagged slots of the table
`h`, in the order of the slots. -/
def range_slots (h : idxhash_t) : List (Nat × Nat) :=
  (h.filter (fun kv => kv.1 &&& 1 == 0)).map (fun kv => (range_offset kv.2, range_count kv.2))

/-- The ranges `rs` tile the cells from `off` up to `stop`: each has two or more cells and
starts where the one before it ended. -/
def laid_out : Nat → List (Nat × Nat) → Nat → Prop
  | off, [], stop => off = stop
  | off, r :: rest, stop => r.1 = off ∧ 2 ≤ r.2 ∧ laid_out (off + r.2) rest stop

/-- What the encoding loop keeps besides `EncInv`: the table has one slot per distinct
fingerprint met so far, and the ranges of its untagged slots tile `b->p` up to `start_p`. -/
structure EncLayout (a : List mg128_t) (s : EncSt) : Prop where
  hlen : s.h.length = n_distinct (a.take s.start_a)
  tiles : laid_out 0 (range_slots s.h) s.start_p

/-- Four entries of bucket 1 of an index with `b = 1`, in ascending order of `x`. -/
def sample_sorted : List mg128_t := [⟨0x100, 7⟩, ⟨0x105, 2⟩, ⟨0x301, 9⟩, ⟨0x302, 3⟩]

/-- Three entries of bucket 1 of an index with `b = 1`, in ascending order of `x`; the first
two have the same key. -/
def sample_tie_a : List mg128_t := [⟨0x100, 7⟩, ⟨0x100, 2⟩, ⟨0x301, 9⟩]

/-- The entries of `sample_tie_a` with the two entries of key `0x100` swapped. -/
def sample_tie_b : List mg128_t := [⟨0x100, 2⟩, ⟨0x100, 7⟩, ⟨0x301, 9⟩]

/-! ## Bit-field arithmetic -/

theorem and_mask (n b : Nat) : n &&& ((1 <<< b) - 1) = n % 2 ^ b := by
  rw [Nat.one_shiftLeft, Nat.and_pow_two_sub_one_eq_mod]

theorem split_fp (u v b : Nat) (h1 : u >>> b = v >>> b)
    (h2 : u &&& ((1 <<< b) - 1) = v &&& ((1 <<< b) - 1)) : u = v := by
  rw [and_mask, and_mask] at h2
  rw [Nat.shiftRight_eq_div_pow, Nat.shiftRight_eq_div_pow] at h1
  rw [← Nat.div_add_mod u (2 ^ b), ← Nat.div_add_mod v (2 ^ b), h1, h2]

theorem shl1_shr1 (n : Nat) (h : n < 2 ^ 63) : ((n <<< 1) % 2 ^ 64) >>> 1 = n := by
  rw [Nat.shiftLeft_eq, Nat.shiftRight_eq_div_pow]
  omega

theorem or1_shr1 (n : Nat) : (n ||| 1) >>> 1 = n >>> 1 := by
  rw [Nat.shiftRight_eq_div_pow, Nat.shiftRight_eq_div_pow, pow_one, Nat.or_div_two]
  simp

theorem shl1_and1 (n : Nat) : ((n <<< 1) % 2 ^ 64) &&& 1 = 0 := by
  rw [Nat.shiftLeft_eq, Nat.and_one_is_mod]
  omega

theorem or1_and1 (n : Nat) : (n ||| 1) &&& 1 = 1 := by
  rw [Nat.and_one_is_mod, Nat.or_mod_two_eq_one]
  exact Or.inr rfl

theorem fp_lt (x : Nat) (h : x < 2 ^ 64) (b : Nat) : x >>> 8 >>> b < 2 ^ 63 := by
  rw [Nat.shiftRight_eq_div_pow, Nat.shiftRight_eq_div_pow]
  have h1 : x / 2 ^ 8 < 2 ^ 56 := by omega
  have h2 : x / 2 ^ 8 / 2 ^ b ≤ x / 2 ^ 8 := Nat.div_le_self _ _
  omega

theorem pack_eq (s n : Nat) (hs : s < 2 ^ 32) (hn : n < 2 ^ 32) :
    ((s <<< 32) % 2 ^ 64 ||| n) = 2 ^ 32 * s + n := by
  have e : (s <<< 32) % 2 ^ 64 = 2 ^ 32 * s := by
    rw [Nat.shiftLeft_eq]; omega
  rw [e, Nat.mul_add_lt_is_or hn]

theorem pack_hi (s n : Nat) (hs : s < 2 ^ 32) (hn : n < 2 ^ 32) :
    ((s <<< 32) % 2 ^ 64 ||| n) >>> 32 = s := by
  rw [pack_eq s n hs hn, Nat.shiftRight_eq_div_pow]
  omega

theorem pack_lo (s n : Nat) (hs : s < 2 ^ 32) (hn : n < 2 ^ 32) :
    ((s <<< 32) % 2 ^ 64 ||| n) % 2 ^ 32 = n := by
  rw [pack_eq s n hs hn]
  omega

/-! ## Loops as folds -/

/-- A loop `for (j = s; j < s + n; ++j)` whose body cannot fail on states satisfying the
invariant runs to the end and keeps the invariant. -/
theorem foldlM_range'_inv {σ : Type} (step : σ → Nat → Except Fault σ) (Inv : Nat → σ → Prop) :
    ∀ (n s : Nat) (s0 : σ), Inv s s0 →
      (∀ j t, s ≤ j → j < s + n → Inv j t → ∃ t', step t j = .ok t' ∧ Inv (j + 1) t') →
      ∃ t, (List.range' s n).foldlM step s0 = .ok t ∧ Inv (s + n) t := by
  intro n
  induction n with
  | zero =>
    intro s s0 h0 _
    exact ⟨s0, rfl, h0⟩
  | succ n ih =>
    intro s s0 h0 hstep
    obtain ⟨t1, e1, h1⟩ := hstep s s0 (Nat.le_refl _) (by omega) h0
    obtain ⟨t, e, h⟩ := ih (s + 1) t1 h1 (fun j t hj1 hj2 hI => hstep j t (by omega) (by omega) hI)
    refine ⟨t, ?_, ?_⟩
    · rw [List.range'_succ, List.foldlM_cons, e1]
      exact e
    · have : s + (n + 1) = s + 1 + n := by omega
      rw [this]
      exact h

/-- The same rule for a loop whose body is a pure function. -/
theorem foldl_range'_inv {σ : Type} (step : σ → Nat → σ) (Inv : Nat → σ → Prop) :
    ∀ (n s : Nat) (s0 : σ), Inv s s0 →
      (∀ j t, s ≤ j → j < s + n → Inv j t → Inv (j + 1) (step t j)) →
      Inv (s + n) ((List.range' s n).foldl step s0) := by
  intro n
  induction n with
  | zero =>
    intro s s0 h0 _
    exact h0
  | succ n ih =>
    intro s s0 h0 hstep
    have h1 := hstep s s0 (Nat.le_refl _) (by omega) h0
    have h := ih (s + 1) (step s0 s) h1 (fun j t hj1 hj2 hI => hstep j t (by omega) (by omega) hI)
    rw [List.range'_succ, List.foldl_cons]
    have e : s + (n + 1) = s + 1 + n := by omega
    rw [e]
    exact h

/-! ## Positions in the staging array -/

theorem getD_mem (a : List mg128_t) (k : Nat) (d : mg128_t) (h : k < a.length) :
    a.getD k d ∈ a := by
  rw [List.getD_eq_getElem a d h]
  exact List.getElem_mem h

theorem mem_take_getD (a : List mg128_t) (m : Nat) (d e : mg128_t) (h : e ∈ a.take m) :
    ∃ k, k < m ∧ k < a.length ∧ e = a.getD k d := by
  rw [List.mem_take_iff_getElem] at h
  obtain ⟨k, hk, he⟩ := h
  have h1 : k < m := by omega
  have h2 : k < a.length := by omega
  exact ⟨k, h1, h2, by rw [List.getD_eq_getElem a d h2]; exact he.symm⟩

theorem getD_mem_take (a : List mg128_t) (m k : Nat) (d : mg128_t) (h1 : k < m)
    (h2 : k < a.length) : a.getD k d ∈ a.take m := by
  rw [List.mem_take_iff_getElem]
  exact ⟨k, by omega, by rw [List.getD_eq_getElem a d h2]⟩

theorem mem_slice_getD (a : List mg128_t) (s n : Nat) (d e : mg128_t)
    (h : e ∈ (a.drop s).take n) :
    ∃ k, s ≤ k ∧ k < s + n ∧ k < a.length ∧ e = a.getD k d := by
  obtain ⟨k, hk1, hk2, he⟩ := mem_take_getD (a.drop s) n d e h
  rw [List.length_drop] at hk2
  refine ⟨s + k, by omega, by omega, by omega, ?_⟩
  rw [he, List.getD_eq_getElem?_getD, List.getD_eq_getElem?_getD, List.getElem?_drop]

theorem slice_one (a : List mg128_t) (k : Nat) (d : mg128_t) (h : k < a.length) :
    (a.drop k).take 1 = [a.getD k d] := by
  rw [List.drop_eq_getElem_cons h, List.getD_eq_getElem a d h]
  rfl

theorem sorted_fp_le (a : List mg128_t) (hs : a.Pairwise (fun e1 e2 => e1.x ≤ e2.x))
    (k1 k2 : Nat) (d : mg128_t) (h1 : k1 ≤ k2) (h2 : k2 < a.length) :
    (a.getD k1 d).x >>> 8 ≤ (a.getD k2 d).x >>> 8 := by
  have hk1 : k1 < a.length := by omega
  rw [List.getD_eq_getElem a d hk1, List.getD_eq_getElem a d h2]
  rcases Nat.eq_or_lt_of_le h1 with h | h
  · subst h
    exact Nat.le_refl _
  · have := (List.pairwise_iff_getElem.mp hs) k1 k2 hk1 h2 h
    rw [Nat.shiftRight_eq_div_pow, Nat.shiftRight_eq_div_pow]
    exact Nat.div_le_div_right this

/-! ## The run invariant shared by both loops of `worker_post` -/

theorem runInv_init (a : List mg128_t) : RunInv a 1 0 1 where
  hj := rfl
  hn := Nat.le_refl _
  run := by
    intro _ k _ hk
    have : k = 0 := by omega
    subst this
    rfl
  sep := by
    intro k1 k2 h
    omega
  fin := by
    intro h
    omega

theorem run_ends_false (a : List mg128_t) (j : Nat) (h : run_ends a j = false) :
    j ≠ a.length ∧ (a.getD j ⟨0, 0⟩).x >>> 8 = (a.getD (j - 1) ⟨0, 0⟩).x >>> 8 := by
  unfold run_ends at h
  simp only [Bool.or_eq_false_iff, beq_eq_false_iff_ne, bne_eq_false_iff_eq] at h
  exact ⟨h.1, h.2⟩

theorem run_ends_true (a : List mg128_t) (j : Nat) (h : run_ends a j = true) (hj : j ≠ a.length) :
    (a.getD j ⟨0, 0⟩).x >>> 8 ≠ (a.getD (j - 1) ⟨0, 0⟩).x >>> 8 := by
  unfold run_ends at h
  simp only [Bool.or_eq_true, beq_iff_eq, bne_iff_ne] at h
  rcases h with h | h
  · exact absurd h hj
  · exact h

theorem runInv_cont (a : List mg128_t) (j st n : Nat) (hjl : j ≤ a.length)
    (he : run_ends a j = false) (I : RunInv a j st n) : RunInv a (j + 1) st (n + 1) where
  hj := by have := I.hj; omega
  hn := by omega
  run := by
    intro _ k hk1 hk2
    have e := (run_ends_false a j he).2
    rw [Nat.add_sub_cancel]
    rcases Nat.eq_or_lt_of_le (Nat.le_of_lt_succ hk2) with h | h
    · rw [h]
    · rw [I.run hjl k hk1 h, e]
  sep := I.sep
  fin := by
    intro h
    have := (run_ends_false a j he).1
    omega

theorem runInv_next (a : List mg128_t) (hs : a.Pairwise (fun e1 e2 => e1.x ≤ e2.x))
    (j st n : Nat) (hj1 : 1 ≤ j) (hjl : j ≤ a.length)
    (he : run_ends a j = true) (_I : RunInv a j st n) : RunInv a (j + 1) j 1 where
  hj := rfl
  hn := Nat.le_refl _
  run := by
    intro _ k hk1 hk2
    have : k = j := by omega
    subst this
    rfl
  sep := by
    intro k1 k2 h1 h2 h3
    have hne := run_ends_true a j he (by omega)
    have l1 := sorted_fp_le a hs k1 (j - 1) ⟨0, 0⟩ (by omega) (by omega)
    have l2 := sorted_fp_le a hs (j - 1) j ⟨0, 0⟩ (by omega) (by omega)
    have l3 := sorted_fp_le a hs j k2 ⟨0, 0⟩ h2 h3
    omega
  fin := by
    intro h
    omega

theorem runInv_take (a : List mg128_t) (j st n : Nat) (I : RunInv a j st n) :
    a.take j = a.take st ++ (a.drop st).take n := by
  rw [← I.hj, List.take_add]

theorem runInv_pre_lt (a : List mg128_t) (j st n : Nat) (hjl : j ≤ a.length)
    (I : RunInv a j st n) :
    ∀ e ∈ a.take st, e.x >>> 8 < (a.getD (j - 1) ⟨0, 0⟩).x >>> 8 := by
  intro e he
  obtain ⟨k, hk1, hk2, rfl⟩ := mem_take_getD a st ⟨0, 0⟩ e he
  have h1 := I.hj
  have h2 := I.hn
  exact I.sep k (j - 1) hk1 (by omega) (by omega)

theorem runInv_run_eq (a : List mg128_t) (j st n : Nat) (hjl : j ≤ a.length)
    (I : RunInv a j st n) :
    ∀ e ∈ (a.drop st).take n, e.x >>> 8 = (a.getD (j - 1) ⟨0, 0⟩).x >>> 8 := by
  intro e he
  obtain ⟨k, hk1, hk2, _, rfl⟩ := mem_slice_getD a st n ⟨0, 0⟩ e he
  have h1 := I.hj
  exact I.run hjl k hk1 (by omega)

theorem runInv_run_length (a : List mg128_t) (j st n : Nat) (hjl : j ≤ a.length)
    (I : RunInv a j st n) : ((a.drop st).take n).length = n := by
  have h1 := I.hj
  rw [List.length_take, List.length_drop]
  omega

/-! ## What was ingested under a fingerprint -/

theorem ys_of_append (l1 l2 : List mg128_t) (v : Nat) :
    ys_of (l1 ++ l2) v = ys_of l1 v ++ ys_of l2 v := by
  unfold ys_of
  rw [List.filter_append, List.map_append]

theorem ys_of_none (l : List mg128_t) (v : Nat) (h : ∀ e ∈ l, e.x >>> 8 ≠ v) :
    ys_of l v = [] := by
  unfold ys_of
  rw [List.map_eq_nil_iff, List.filter_eq_nil_iff]
  intro e he
  simpa using h e he

theorem ys_of_all (l : List mg128_t) (v : Nat) (h : ∀ e ∈ l, e.x >>> 8 = v) :
    ys_of l v = l.map (fun e => e.y) := by
  unfold ys_of
  rw [List.filter_eq_self.mpr]
  intro e he
  simpa using h e he

theorem ys_of_perm (l1 l2 : List mg128_t) (v : Nat) (h : l1.Perm l2) :
    (ys_of l1 v).Perm (ys_of l2 v) :=
  (h.filter _).map _

theorem ys_of_length_pos (l : List mg128_t) (e : mg128_t) (h : e ∈ l) :
    0 < (ys_of l (e.x >>> 8)).length := by
  unfold ys_of
  rw [List.length_map, List.length_pos_iff_exists_mem]
  exact ⟨e, List.mem_filter.mpr ⟨h, by simp⟩⟩

theorem ys_of_eq_nil (l : List mg128_t) (v : Nat) (h : ys_of l v = []) :
    ∀ e ∈ l, e.x >>> 8 ≠ v := by
  intro e he hv
  have := ys_of_length_pos l e he
  rw [hv, h] at this
  exact Nat.lt_irrefl _ this

theorem multi_total_perm (l1 l2 : List mg128_t) (h : l1.Perm l2) :
    multi_total l1 = multi_total l2 := by
  unfold multi_total
  have e : (fun e : mg128_t => decide (1 < (ys_of l1 (e.x >>> 8)).length))
      = (fun e : mg128_t => decide (1 < (ys_of l2 (e.x >>> 8)).length)) := by
    funext e
    rw [(ys_of_perm l1 l2 _ h).length_eq]
  rw [e]
  exact h.countP_eq _

theorem multi_total_le_length (l : List mg128_t) : multi_total l ≤ l.length :=
  List.countP_le_length _

theorem multi_total_le_append (l1 l2 : List mg128_t) :
    multi_total l1 ≤ multi_total (l1 ++ l2) := by
  unfold multi_total
  rw [List.countP_append]
  refine Nat.le_trans (List.countP_mono_left ?_) (Nat.le_add_right _ _)
  intro e _ h
  simp only [decide_eq_true_eq] at h ⊢
  rw [ys_of_append, List.length_append]
  omega

theorem multi_total_take_le (a : List mg128_t) (j : Nat) :
    multi_total (a.take j) ≤ multi_total a := by
  have := multi_total_le_append (a.take j) (a.drop j)
  rwa [List.take_append_drop] at this

/-- Appending a complete run: a block of entries of one fingerprint that the earlier entries do
not carry. -/
theorem multi_total_append_run (pre run : List mg128_t) (v0 : Nat)
    (h1 : ∀ e ∈ pre, e.x >>> 8 ≠ v0) (h2 : ∀ e ∈ run, e.x >>> 8 = v0) :
    multi_total (pre ++ run)
      = multi_total pre + (if 1 < run.length then run.length else 0) := by
  unfold multi_total
  rw [List.countP_append]
  congr 1
  · apply List.countP_congr
    intro e he
    have : ys_of run (e.x >>> 8) = [] := by
      apply ys_of_none
      intro e' he'
      rw [h2 e' he']
      exact fun h => h1 e he h.symm
    rw [ys_of_append, this, List.append_nil]
  · have hc : ∀ e ∈ run, (decide (1 < (ys_of (pre ++ run) (e.x >>> 8)).length) = true
        ↔ (decide (1 < run.length)) = true) := by
      intro e he
      rw [ys_of_append, h2 e he, ys_of_none pre v0 h1, ys_of_all run v0 h2]
      simp
    rw [List.countP_congr hc]
    by_cases h : 1 < run.length
    · rw [if_pos h]
      simp [h]
    · rw [if_neg h]
      simp [h]

/-! ## The table operations -/

theorem kh_get_none_iff (h : idxhash_t) (key : Nat) :
    kh_get h key = none ↔ ∀ kv ∈ h, kv.1 >>> 1 ≠ key >>> 1 := by
  unfold kh_get idx_eq
  rw [List.findIdx?_eq_none_iff]
  constructor
  · intro H kv hkv
    simpa using H kv hkv
  · intro H kv hkv
    simpa using H kv hkv

theorem kh_get_lt (h : idxhash_t) (key k : Nat) (e : kh_get h key = some k) : k < h.length := by
  unfold kh_get at e
  rw [List.findIdx?_eq_some_iff_getElem] at e
  exact e.1

theorem kh_put_absent (h : idxhash_t) (key : Nat) (e : kh_get h key = none) :
    kh_put h key = (h ++ [(key, 0)], h.length, true) := by
  unfold kh_put
  rw [e]

theorem kh_get_append_old (h : idxhash_t) (kv : Nat × Nat) (key k : Nat)
    (e : kh_get h key = some k) : kh_get (h ++ [kv]) key = some k := by
  unfold kh_get at e ⊢
  rw [List.findIdx?_append, e]
  rfl

theorem kh_get_append_new (h : idxhash_t) (kv : Nat × Nat) (key : Nat)
    (e : kh_get h key = none) (hk : kv.1 >>> 1 = key >>> 1) :
    kh_get (h ++ [kv]) key = some h.length := by
  unfold kh_get at e ⊢
  rw [List.findIdx?_append, e]
  simp [idx_eq, hk]

theorem getD_append_old (h : idxhash_t) (kv : Nat × Nat) (k : Nat) (hk : k < h.length) :
    (h ++ [kv]).getD k (0, 0) = h.getD k (0, 0) := by
  rw [List.getD_eq_getElem?_getD, List.getD_eq_getElem?_getD, List.getElem?_append_left hk]

theorem getD_append_new (h : idxhash_t) (kv : Nat × Nat) :
    (h ++ [kv]).getD h.length (0, 0) = kv := by
  rw [List.getD_eq_getElem?_getD, List.getElem?_append_right (Nat.le_refl _)]
  simp

theorem set_append_new (h : idxhash_t) (kv kv1 : Nat × Nat) :
    (h ++ [kv]).set h.length kv1 = h ++ [kv1] := by
  rw [List.set_append_right _ _ (Nat.le_refl _)]
  simp

/-- Writing the value of the slot that `kh_put` has just made. -/
theorem kh_set_val_new (h : idxhash_t) (key v0 val : Nat) :
    kh_set_val (h ++ [(key, v0)]) h.length val = h ++ [(key, val)] := by
  unfold kh_set_val kh_key
  rw [getD_append_new, set_append_new]

/-- Tagging the key of the slot that `kh_put` has just made. -/
theorem kh_set_key_new (h : idxhash_t) (key v0 key1 : Nat) :
    kh_set_key (h ++ [(key, v0)]) h.length key1 = h ++ [(key1, v0)] := by
  unfold kh_set_key kh_val
  rw [getD_append_new, set_append_new]

theorem kh_key_new (h : idxhash_t) (kv : Nat × Nat) : kh_key (h ++ [kv]) h.length = kv.1 := by
  unfold kh_key
  rw [getD_append_new]

/-! ## Filling and sorting a slice of the position array -/

theorem ok_bind {α β : Type} (x : α) (f : α → Except Fault β) :
    (Except.ok x >>= f) = f x := rfl

theorem bind_ok {α : Type} (x : Except Fault α) : (x >>= fun t => Except.ok t) = x := by
  cases x <;> rfl

theorem set_middle {α : Type} (l1 l2 : List α) (u v : α) (k : Nat) (hk : k = l1.length) :
    (l1 ++ u :: l2).set k v = l1 ++ v :: l2 := by
  subst hk
  rw [List.set_append_right _ _ (Nat.le_refl _)]
  simp

/-- The copy loop writes the positions of `a[start_a .. start_a+n)` over
`p[start_p .. start_p+n)` and cannot fail when both slices exist. -/
theorem copy_run_ok (a : List mg128_t) (start_a start_p : Nat) (p : List Nat) :
    ∀ n, start_p + n ≤ p.length → start_a + n ≤ a.length →
      copy_run a start_a start_p n p
        = .ok (p.take start_p ++ ((a.drop start_a).take n).map (fun e => e.y)
            ++ p.drop (start_p + n)) := by
  intro n
  induction n with
  | zero =>
    intro _ _
    simp only [copy_run, List.range_zero, List.foldlM_nil, Nat.add_zero, List.take_zero,
      List.map_nil, List.append_nil, List.take_append_drop]
    rfl
  | succ n ih =>
    intro h1 h2
    have ih1 := ih (by omega) (by omega)
    unfold copy_run at ih1 ⊢
    rw [List.range_succ, List.foldlM_append, ih1]
    have hlen : (p.take start_p ++ ((a.drop start_a).take n).map (fun e => e.y)
        ++ p.drop (start_p + n)).length = p.length := by
      simp only [List.length_append, List.length_take, List.length_map, List.length_drop]
      omega
    have hk : start_a + n < a.length := by omega
    have hq : start_p + n < p.length := by omega
    simp only [ok_bind, List.foldlM_cons, List.foldlM_nil]
    rw [if_pos (by rw [hlen]; exact hq)]
    show Except.ok _ = Except.ok _
    congr 1
    rw [List.drop_eq_getElem_cons hq, List.append_assoc,
      List.append_assoc, ← List.append_assoc (p.take start_p),
      set_middle _ _ _ _ _ (by
        simp only [List.length_append, List.length_take, List.length_map, List.length_drop]
        omega)]
    have e1 : (a.drop start_a).take (n + 1)
        = (a.drop start_a).take n ++ [a.getD (start_a + n) ⟨0, 0⟩] := by
      rw [List.take_succ, List.getElem?_drop, List.getD_eq_getElem a _ hk,
        List.getElem?_eq_getElem hk]
      rfl
    rw [e1, List.map_append]
    simp [List.append_assoc, Nat.add_assoc]

theorem sort_slice_eq (p : List Nat) (start_p n : Nat) (ys : List Nat) (hn : ys.length = n)
    (hp : start_p + n ≤ p.length) :
    sort_slice (p.take start_p ++ ys ++ p.drop (start_p + n)) start_p n
      = p.take start_p ++ radix_sort_64 ys ++ p.drop (start_p + n) := by
  have hl : (p.take start_p).length = start_p := by
    rw [List.length_take]; omega
  unfold sort_slice
  have e1 : (p.take start_p ++ ys ++ p.drop (start_p + n)).take start_p = p.take start_p := by
    rw [List.append_assoc, List.take_left' hl]
  have e2 : (p.take start_p ++ ys ++ p.drop (start_p + n)).drop start_p
      = ys ++ p.drop (start_p + n) := by
    rw [List.append_assoc, List.drop_left' hl]
  have e3 : (p.take start_p ++ ys ++ p.drop (start_p + n)).drop (start_p + n)
      = p.drop (start_p + n) := by
    rw [List.drop_left']
    rw [List.length_append, hl, hn]
  rw [e1, e2, e3, List.take_left' hn]

theorem radix_sort_64_length (l : List Nat) : (radix_sort_64 l).length = l.length :=
  List.length_insertionSort _ l

theorem radix_sort_64_perm (l : List Nat) : (radix_sort_64 l).Perm l :=
  List.perm_insertionSort _ l

theorem radix_sort_64_sorted (l : List Nat) : (radix_sort_64 l).Sorted (fun u v => u ≤ v) :=
  List.sorted_insertionSort _ l

/-- A slice that lies within a common prefix of two arrays is the same in both. -/
theorem slice_in_shared_head (p q : List Nat) (m st c : Nat) (h : p.take m = q.take m)
    (hc : st + c ≤ m) : (p.drop st).take c = (q.drop st).take c := by
  have e : ∀ l : List Nat, (l.drop st).take c = ((l.take m).drop st).take c := by
    intro l
    rw [List.drop_take, List.take_take]
    congr 1
    omega
  rw [e p, e q, h]

theorem slice_written (p : List Nat) (start_p : Nat) (ys : List Nat)
    (hp : start_p + ys.length ≤ p.length) :
    ((p.take start_p ++ ys ++ p.drop (start_p + ys.length)).drop start_p).take ys.length
      = ys := by
  have hl : (p.take start_p).length = start_p := by
    rw [List.length_take]; omega
  rw [List.append_assoc, List.drop_left' hl, List.take_left' rfl]

theorem head_kept (p : List Nat) (start_p n : Nat) (ys : List Nat)
    (hp : start_p + n ≤ p.length) :
    (p.take start_p ++ ys ++ p.drop (start_p + n)).take start_p = p.take start_p := by
  have hl : (p.take start_p).length = start_p := by
    rw [List.length_take]; omega
  rw [List.append_assoc, List.take_left' hl]

/-! ## The encoding loop -/

theorem put_key_eq (b x : Nat) : put_key b x = get_key b (x >>> 8) := rfl

theorem put_key_shr (b x : Nat) (hx : x < 2 ^ 64) : put_key b x >>> 1 = x >>> 8 >>> b := by
  unfold put_key
  exact shl1_shr1 _ (fp_lt x hx b)

theorem slot_ok_old (b : Nat) (pre run : List mg128_t) (h : idxhash_t) (p q : List Nat)
    (sp sq v : Nat) (kv : Nat × Nat) (hrun : ∀ e ∈ run, e.x >>> 8 ≠ v)
    (hpq : q.take sp = p.take sp) (hsq : sp ≤ sq) (H : slot_ok b pre h p sp v) :
    slot_ok b (pre ++ run) (h ++ [kv]) q sq v := by
  obtain ⟨k, hk, hc⟩ := H
  have hy : ys_of (pre ++ run) v = ys_of pre v := by
    rw [ys_of_append, ys_of_none run v hrun, List.append_nil]
  refine ⟨k, kh_get_append_old h kv _ k hk, ?_⟩
  rw [hy, getD_append_old h kv k (kh_get_lt h _ k hk)]
  rcases hc with hc | ⟨h2, st, e1, e2, e3⟩
  · exact Or.inl hc
  · refine Or.inr ⟨h2, st, e1, by omega, ?_⟩
    rw [slice_in_shared_head q p sp st _ hpq e2]
    exact e3

/-- One turn of the encoding loop keeps the invariant and fails no assertion. -/
theorem enc_step_inv (b : Nat) (a : List mg128_t) (P : Nat)
    (hs : a.Pairwise (fun e1 e2 => e1.x ≤ e2.x))
    (hx : ∀ e ∈ a, e.x < 2 ^ 64)
    (hinj : ∀ e1 ∈ a, ∀ e2 ∈ a, e1.x >>> 8 >>> b = e2.x >>> 8 >>> b → e1.x >>> 8 = e2.x >>> 8)
    (hP : multi_total a = P)
    (j : Nat) (s : EncSt) (hj1 : 1 ≤ j) (hjl : j ≤ a.length) (I : EncInv b a P j s) :
    ∃ s', enc_step b a s j = .ok s' ∧ EncInv b a P (j + 1) s' := by
  unfold enc_step
  cases he : run_ends a j with
  | false =>
    refine ⟨{ s with n := s.n + 1 }, by simp, ?_⟩
    exact { runs := runInv_cont a j s.start_a s.n hjl he I.runs, plen := I.plen, sp := I.sp,
            keys := I.keys, nodup := I.nodup, look := I.look }
  | true =>
    have R := I.runs
    have hjn := R.hj
    have hn1 := R.hn
    have hpe : a.getD (j - 1) ⟨0, 0⟩ ∈ a := getD_mem a (j - 1) _ (by omega)
    have hpeT : a.getD (j - 1) ⟨0, 0⟩ ∈ a.take j :=
      getD_mem_take a j (j - 1) _ (by omega) (by omega)
    have F1 := runInv_run_eq a j s.start_a s.n hjl R
    have F2 := runInv_pre_lt a j s.start_a s.n hjl R
    have F3 := runInv_run_length a j s.start_a s.n hjl R
    have hT := runInv_take a j s.start_a s.n R
    have hmemT : ∀ e ∈ a.take s.start_a, e ∈ a := fun e he => List.mem_of_mem_take he
    have hkey : put_key b (a.getD (j - 1) ⟨0, 0⟩).x >>> 1
        = (a.getD (j - 1) ⟨0, 0⟩).x >>> 8 >>> b := put_key_shr b _ (hx _ hpe)
    -- the key of the run is not in the table yet
    have hnew : ∀ kv ∈ s.h, kv.1 >>> 1 ≠ put_key b (a.getD (j - 1) ⟨0, 0⟩).x >>> 1 := by
      intro kv hkv hc
      obtain ⟨e, he1, he2⟩ := I.keys kv hkv
      have := hinj e (hmemT e he1) _ hpe (by rw [← he2, hc, hkey])
      have := F2 e he1
      omega
    have F4 : kh_get s.h (put_key b (a.getD (j - 1) ⟨0, 0⟩).x) = none :=
      (kh_get_none_iff _ _).mpr hnew
    have hmt : multi_total (a.take j)
        = s.start_p + (if 1 < s.n then s.n else 0) := by
      rw [hT, multi_total_append_run _ _ _ (fun e he => Nat.ne_of_lt (F2 e he)) F1, F3, I.sp]
    have hmle := multi_total_take_le a j
    have hkeys : ∀ (val : Nat), ∀ kv ∈ s.h ++ [(put_key b (a.getD (j - 1) ⟨0, 0⟩).x, val)],
        ∃ e ∈ a.take j, kv.1 >>> 1 = e.x >>> 8 >>> b := by
      intro val kv hkv
      rcases List.mem_append.mp hkv with h | h
      · obtain ⟨e, he1, he2⟩ := I.keys kv h
        exact ⟨e, by rw [hT]; exact List.mem_append_left _ he1, he2⟩
      · rw [List.mem_singleton] at h
        subst h
        exact ⟨_, hpeT, hkey⟩
    have hnd : ∀ (kv : Nat × Nat), kv.1 >>> 1 = put_key b (a.getD (j - 1) ⟨0, 0⟩).x >>> 1 →
        ((s.h ++ [kv]).map (fun kv => kv.1 >>> 1)).Nodup := by
      intro kv hkv
      rw [List.map_append, List.nodup_append]
      refine ⟨I.nodup, by simp, ?_⟩
      intro u hu1 hu2
      rw [List.map_singleton, List.mem_singleton] at hu2
      obtain ⟨kv', hkv', rfl⟩ := List.mem_map.mp hu1
      exact hnew kv' hkv' (by rw [hu2, hkv])
    have hasrt : (!(true && j == s.start_a + s.n)) = false := by
      simp [hjn]
    simp only [if_true, kh_put_absent _ _ F4, hasrt, Bool.false_eq_true, if_false]
    by_cases h1 : s.n = 1
    · -- a run of one entry
      have hbeq : (s.n == 1) = true := by simp [h1]
      rw [if_pos hbeq, kh_key_new, kh_set_key_new, kh_set_val_new]
      refine ⟨_, rfl, ?_⟩
      have hrun1 : (a.drop s.start_a).take s.n = [a.getD (j - 1) ⟨0, 0⟩] := by
        have : s.start_a = j - 1 := by omega
        rw [h1, this]
        exact slice_one a (j - 1) _ (by omega)
      refine { runs := runInv_next a hs j s.start_a s.n hj1 hjl he R, plen := I.plen, sp := ?_,
               keys := ?_, nodup := ?_, look := ?_ }
      · show s.start_p = multi_total (a.take j)
        rw [hmt, h1]
        simp
      · intro kv hkv
        rcases List.mem_append.mp hkv with h | h
        · exact hkeys 0 kv (List.mem_append_left _ h)
        · rw [List.mem_singleton] at h
          subst h
          exact ⟨_, hpeT, by rw [or1_shr1]; exact hkey⟩
      · exact hnd _ (or1_shr1 _)
      · intro e he
        show slot_ok b (a.take j) _ s.p s.start_p (e.x >>> 8)
        rw [hT] at he ⊢
        rcases List.mem_append.mp he with h | h
        · exact slot_ok_old b _ _ s.h s.p s.p s.start_p s.start_p _ _
            (fun e' he' => by rw [F1 e' he']; exact Nat.ne_of_gt (F2 e h))
            rfl (Nat.le_refl _) (I.look e h)
        · have hv := F1 e h
          rw [hv]
          refine ⟨s.h.length, kh_get_append_new _ _ _ F4 (or1_shr1 _),
            Or.inl ⟨(a.getD (j - 1) ⟨0, 0⟩).y, ?_, ?_⟩⟩
          · rw [ys_of_append, ys_of_none _ _ (fun e' he' => Nat.ne_of_lt (F2 e' he')),
              ys_of_all _ _ F1, hrun1]
            rfl
          · rw [getD_append_new]
            rfl
    · -- a run of two or more entries
      have hbeq : (s.n == 1) = false := by simp [h1]
      have hn2 : 1 < s.n := by omega
      rw [if_pos hn2] at hmt
      have hb1 : s.start_p + s.n ≤ s.p.length := by rw [I.plen, ← hP]; omega
      simp only [hbeq, Bool.false_eq_true, if_false]
      rw [copy_run_ok a s.start_a s.start_p s.p s.n hb1 (by omega), ok_bind,
        sort_slice_eq s.p s.start_p s.n _ (by rw [List.length_map, F3]) hb1, kh_set_val_new]
      refine ⟨_, rfl, ?_⟩
      have hylen : (radix_sort_64 (((a.drop s.start_a).take s.n).map (fun e => e.y))).length
          = s.n := by
        rw [radix_sort_64_length, List.length_map, F3]
      refine { runs := runInv_next a hs j s.start_a s.n hj1 hjl he R, plen := ?_, sp := ?_,
               keys := hkeys _, nodup := hnd _ rfl, look := ?_ }
      · show List.length (_ ++ _ ++ _) = P
        rw [List.length_append, List.length_append, hylen, List.length_take, List.length_drop,
          ← I.plen]
        omega
      · show s.start_p + s.n = multi_total (a.take j)
        rw [hmt]
      · intro e he
        show slot_ok b (a.take j) _ _ (s.start_p + s.n) (e.x >>> 8)
        rw [hT] at he ⊢
        rcases List.mem_append.mp he with h | h
        · exact slot_ok_old b _ _ s.h s.p _ s.start_p _ _ _
            (fun e' he' => by rw [F1 e' he']; exact Nat.ne_of_gt (F2 e h))
            (head_kept s.p s.start_p s.n _ hb1) (Nat.le_add_right _ _) (I.look e h)
        · have hv := F1 e h
          rw [hv]
          have hy : ys_of (a.take s.start_a ++ (a.drop s.start_a).take s.n)
              ((a.getD (j - 1) ⟨0, 0⟩).x >>> 8)
              = ((a.drop s.start_a).take s.n).map (fun e => e.y) := by
            rw [ys_of_append, ys_of_none _ _ (fun e' he' => Nat.ne_of_lt (F2 e' he')),
              ys_of_all _ _ F1]
            rfl
          have hyl : (((a.drop s.start_a).take s.n).map (fun e => e.y)).length = s.n := by
            rw [List.length_map, F3]
          refine ⟨s.h.length, kh_get_append_new _ _ _ F4 rfl, Or.inr ?_⟩
          rw [hy, hyl]
          refine ⟨hn2, s.start_p, ?_, Nat.le_refl _, ?_⟩
          · rw [getD_append_new]
            rfl
          · have := slice_written s.p s.start_p
              (radix_sort_64 (((a.drop s.start_a).take s.n).map (fun e => e.y)))
              (by rw [hylen]; exact hb1)
            rw [hylen] at this
            exact this

theorem encInv_init (b : Nat) (a : List mg128_t) (P : Nat) :
    EncInv b a P 1 { n := 1, start_a := 0, start_p := 0, h := kh_init, p := List.replicate P 0 }
    where
  runs := runInv_init a
  plen := List.length_replicate _ _
  sp := rfl
  keys := by
    intro kv hkv
    cases hkv
  nodup := List.nodup_nil
  look := by
    intro e he
    cases he

/-- The encoding loop of `worker_post` runs to the end on a sorted staging array whose entries
have distinct identities for distinct fingerprints, and leaves a table that answers for every
entry. -/
theorem enc_loop_ok (b : Nat) (a : List mg128_t)
    (hs : a.Pairwise (fun e1 e2 => e1.x ≤ e2.x))
    (hx : ∀ e ∈ a, e.x < 2 ^ 64)
    (hinj : ∀ e1 ∈ a, ∀ e2 ∈ a, e1.x >>> 8 >>> b = e2.x >>> 8 >>> b → e1.x >>> 8 = e2.x >>> 8) :
    ∃ s, enc_loop b a (List.replicate (multi_total a) 0) = .ok s ∧
      s.start_a = a.length ∧ EncInv b a (multi_total a) (a.length + 1) s := by
  obtain ⟨s, e, I⟩ := foldlM_range'_inv (enc_step b a) (EncInv b a (multi_total a)) a.length 1 _
    (encInv_init b a (multi_total a))
    (fun j t h1 h2 hI => enc_step_inv b a _ hs hx hinj rfl j t h1 (by omega) hI)
  rw [Nat.add_comm 1 a.length] at I
  exact ⟨s, e, I.runs.fin rfl, I⟩

/-! ## The counting loop -/

theorem count_step_inv (a : List mg128_t) (hs : a.Pairwise (fun e1 e2 => e1.x ≤ e2.x))
    (j : Nat) (s : CountSt) (hj1 : 1 ≤ j) (hjl : j ≤ a.length) (I : CountInv a j s) :
    CountInv a (j + 1) (count_step a s j) := by
  unfold count_step
  have R := I.runs
  have hjn := R.hj
  cases he : run_ends a j with
  | false =>
    simp only [Bool.false_eq_true, if_false]
    have e1 : j + 1 - (s.n + 1) = j - s.n := by omega
    refine { runs := ?_, bn := ?_ }
    · show RunInv a (j + 1) (j + 1 - (s.n + 1)) (s.n + 1)
      rw [e1]
      exact runInv_cont a j _ _ hjl he R
    · show s.bn = multi_total (a.take (j + 1 - (s.n + 1)))
      rw [e1]
      exact I.bn
  | true =>
    simp only [if_true]
    have e1 : j + 1 - 1 = j := by omega
    refine { runs := ?_, bn := ?_ }
    · show RunInv a (j + 1) (j + 1 - 1) 1
      rw [e1]
      exact runInv_next a hs j _ _ hj1 hjl he R
    · show (if s.n > 1 then s.bn + s.n else s.bn) = multi_total (a.take (j + 1 - 1))
      rw [e1, runInv_take a j _ _ R,
        multi_total_append_run _ _ _
          (fun e he => Nat.ne_of_lt (runInv_pre_lt a j _ _ hjl R e he))
          (runInv_run_eq a j _ _ hjl R),
        runInv_run_length a j _ _ hjl R, ← I.bn]
      by_cases h : s.n > 1
      · rw [if_pos h, if_pos h]
      · rw [if_neg h, if_neg h]
        rfl

/-- The counting loop of `worker_post` leaves in `b->n` the number of entries whose fingerprint
occurs twice or more. -/
theorem count_loop_bn (a : List mg128_t) (hs : a.Pairwise (fun e1 e2 => e1.x ≤ e2.x)) :
    (count_loop a).bn = multi_total a := by
  have I := foldl_range'_inv (count_step a) (CountInv a) a.length 1
    { n := 1, n_keys := 0, bn := 0 }
    { runs := runInv_init a, bn := rfl }
    (fun j t h1 h2 hI => count_step_inv a hs j t h1 (by omega) hI)
  rw [Nat.add_comm 1 a.length] at I
  have h1 := I.runs.fin rfl
  have h2 := I.bn
  rw [h1, List.take_length] at h2
  exact h2

/-! ## A finalised bucket -/

theorem radix_sort_64_congr (l1 l2 : List Nat) (h : l1.Perm l2) :
    radix_sort_64 l1 = radix_sort_64 l2 :=
  List.eq_of_perm_of_sorted
    (((radix_sort_64_perm l1).trans h).trans (radix_sort_64_perm l2).symm)
    (radix_sort_64_sorted l1) (radix_sort_64_sorted l2)

theorem slot_ok_perm (b : Nat) (l1 l2 : List mg128_t) (h : idxhash_t) (p : List Nat)
    (sp v : Nat) (hp : l1.Perm l2) (H : slot_ok b l1 h p sp v) : slot_ok b l2 h p sp v := by
  obtain ⟨k, hk, hc⟩ := H
  have hy := ys_of_perm l1 l2 v hp
  refine ⟨k, hk, ?_⟩
  rcases hc with ⟨y, e1, e2⟩ | ⟨h2, st, e1, e2, e3⟩
  · refine Or.inl ⟨y, ?_, e2⟩
    rw [e1] at hy
    exact List.perm_singleton.mp hy.symm
  · rw [hy.length_eq] at h2 e1 e2 e3
    rw [radix_sort_64_congr _ _ hy] at e3
    exact Or.inr ⟨h2, st, e1, e2, e3⟩

theorem same_slot_inj (b i : Nat) (a : List mg128_t) (hsel : ∀ e ∈ a, add_slot b e.x = i) :
    ∀ e1 ∈ a, ∀ e2 ∈ a, e1.x >>> 8 >>> b = e2.x >>> 8 >>> b → e1.x >>> 8 = e2.x >>> 8 := by
  intro e1 h1 e2 h2 h
  apply split_fp _ _ b h
  have u1 := hsel e1 h1
  have u2 := hsel e2 h2
  unfold add_slot at u1 u2
  rw [u1, u2]

/-- The body of `worker_post` on a bucket that `mg_idx_add` filled: no assertion fails, the
staging list is released, and the table and overflow array hold what was staged. -/
theorem worker_post_bucket_ok (rs : List mg128_t → List mg128_t) (hrs : sorts_by_x rs)
    (b i : Nat) (bk : mg_idx_bucket_t) (hne : bk.a ≠ [])
    (hsel : ∀ e ∈ bk.a, add_slot b e.x = i) (hx : ∀ e ∈ bk.a, e.x < 2 ^ 64) :
    ∃ h p, worker_post_bucket rs b bk
        = .ok { a := [], n := multi_total bk.a, p := some p, h := some h } ∧
      BucketOK b bk.a h p := by
  obtain ⟨hperm, hsorted⟩ := hrs bk.a
  have hmem : ∀ e, e ∈ rs bk.a ↔ e ∈ bk.a := fun e => hperm.mem_iff
  have hx' : ∀ e ∈ rs bk.a, e.x < 2 ^ 64 := fun e he => hx e ((hmem e).mp he)
  have hinj := same_slot_inj b i (rs bk.a) (fun e he => hsel e ((hmem e).mp he))
  obtain ⟨s, es, hsa, I⟩ := enc_loop_ok b (rs bk.a) hsorted hx' hinj
  have hmt := multi_total_perm _ _ hperm
  have hbn := count_loop_bn (rs bk.a) hsorted
  have hsp : s.start_p = multi_total bk.a := by
    rw [I.sp, hsa, List.take_length, hmt]
  have hlen : (bk.a.length == 0) = false := by
    cases hb : bk.a with
    | nil => exact absurd hb hne
    | cons _ _ => rfl
  refine ⟨s.h, s.p, ?_, ?_⟩
  · unfold worker_post_bucket
    rw [hmt] at hbn es
    simp only [hlen, Bool.false_eq_true, if_false, hbn, es, hsp, beq_self_eq_true, if_true]
  · have hk := I.keys
    have hl := I.look
    rw [hsa, List.take_length] at hk hl
    refine { plen := by rw [I.plen, hmt], keys := ?_, nodup := I.nodup, look := ?_ }
    · intro kv hkv
      obtain ⟨e, he1, he2⟩ := hk kv hkv
      exact ⟨e, (hmem e).mp he1, he2⟩
    · intro e he
      have := hl e ((hmem e).mpr he)
      rw [hsp] at this
      exact slot_ok_perm b _ _ _ _ _ _ hperm this

/-! ## Ingestion: `mg_idx_add` -/

theorem add_slot_lt (b x : Nat) : add_slot b x < 2 ^ b := by
  unfold add_slot
  rw [and_mask]
  exact Nat.mod_lt _ (Nat.two_pow_pos b)

theorem get_slot_lt (b m : Nat) : get_slot b m < 2 ^ b := by
  unfold get_slot
  rw [and_mask]
  exact Nat.mod_lt _ (Nat.two_pow_pos b)

theorem staged_cons_self (b : Nat) (e : mg128_t) (l : List mg128_t) :
    staged b (e :: l) (add_slot b e.x) = e :: staged b l (add_slot b e.x) := by
  unfold staged
  rw [List.filter_cons_of_pos (by simp)]

theorem staged_cons_other (b : Nat) (e : mg128_t) (l : List mg128_t) (i : Nat)
    (h : add_slot b e.x ≠ i) : staged b (e :: l) i = staged b l i := by
  unfold staged
  rw [List.filter_cons_of_neg (by simpa using h)]

theorem mg_idx_add_step_ok (gi : mg_idx_t) (Bs : List mg_idx_bucket_t) (e : mg128_t)
    (bk : mg_idx_bucket_t) (hB : gi.B = some Bs) (hbk : Bs[add_slot gi.b e.x]? = some bk) :
    mg_idx_add_step gi e
      = .ok { gi with B := some (Bs.set (add_slot gi.b e.x) { bk with a := bk.a ++ [e] }) } := by
  unfold mg_idx_add_step
  rw [hB]
  simp only [hbk]

/-- The function `mg_idx_add` on an index with `2^b` buckets cannot fail; it appends to every
bucket the entries routed to it, in input order, and changes nothing else. -/
theorem mg_idx_add_ok (l : List mg128_t) :
    ∀ (gi : mg_idx_t) (Bs : List mg_idx_bucket_t), gi.B = some Bs → Bs.length = 2 ^ gi.b →
      ∃ Bs', mg_idx_add gi l = .ok { gi with B := some Bs' } ∧ Bs'.length = Bs.length ∧
        ∀ (i : Nat) (bk : mg_idx_bucket_t), Bs[i]? = some bk →
          Bs'[i]? = some { bk with a := bk.a ++ staged gi.b l i } := by
  induction l with
  | nil =>
    intro gi Bs hB _
    refine ⟨Bs, ?_, rfl, ?_⟩
    · unfold mg_idx_add
      rw [List.foldlM_nil, ← hB]
      rfl
    · intro i bk hbk
      rw [hbk]
      simp [staged]
  | cons e l ih =>
    intro gi Bs hB hlen
    have hlt : add_slot gi.b e.x < Bs.length := by
      rw [hlen]; exact add_slot_lt _ _
    have hbk0 : Bs[add_slot gi.b e.x]? = some Bs[add_slot gi.b e.x] :=
      List.getElem?_eq_getElem hlt
    have hstep := mg_idx_add_step_ok gi Bs e _ hB hbk0
    obtain ⟨Bs', e1, e2, e3⟩ := ih
      { gi with B := some (Bs.set (add_slot gi.b e.x)
          { Bs[add_slot gi.b e.x] with a := Bs[add_slot gi.b e.x].a ++ [e] }) }
      _ rfl (by rw [List.length_set]; exact hlen)
    refine ⟨Bs', ?_, by rw [e2, List.length_set], ?_⟩
    · unfold mg_idx_add at e1 ⊢
      rw [List.foldlM_cons, hstep, ok_bind, e1]
    · intro i bk hbk
      by_cases hi : add_slot gi.b e.x = i
      · subst hi
        rw [hbk0] at hbk
        have hb := Option.some.inj hbk
        have := e3 (add_slot gi.b e.x) _ (List.getElem?_set_self hlt)
        rw [this, staged_cons_self, ← hb]
        simp
      · have := e3 i bk (by rw [List.getElem?_set_ne hi]; exact hbk)
        rw [this, staged_cons_other _ _ _ _ hi]

/-! ## Finalisation: `worker_post` on every bucket -/

theorem worker_post_ok (rs : List mg128_t → List mg128_t) (gi : mg_idx_t)
    (Bs : List mg_idx_bucket_t) (i : Nat) (bk bk1 : mg_idx_bucket_t) (hB : gi.B = some Bs)
    (hbk : Bs[i]? = some bk) (h1 : worker_post_bucket rs gi.b bk = .ok bk1) :
    worker_post rs gi i = .ok { gi with B := some (Bs.set i bk1) } := by
  unfold worker_post
  rw [hB]
  simp only [hbk, h1]

/-- Running `worker_post` once on each bucket of `order`, in that order, replaces each of those
buckets by its own finalised form and leaves the others alone. -/
theorem kt_for_worker_post (rs : List mg128_t → List mg128_t) (F : Nat → mg_idx_bucket_t)
    (order : List Nat) :
    ∀ (gi : mg_idx_t) (Bs : List mg_idx_bucket_t), gi.B = some Bs → order.Nodup →
      (∀ i ∈ order, i < Bs.length) →
      (∀ i ∈ order, ∀ bk : mg_idx_bucket_t, Bs[i]? = some bk →
        worker_post_bucket rs gi.b bk = .ok (F i)) →
      ∃ Bs', kt_for order (worker_post rs) gi = .ok { gi with B := some Bs' } ∧
        Bs'.length = Bs.length ∧
        ∀ i : Nat, Bs'[i]? = if i ∈ order ∧ i < Bs.length then some (F i) else Bs[i]? := by
  induction order with
  | nil =>
    intro gi Bs hB _ _ _
    refine ⟨Bs, ?_, rfl, ?_⟩
    · unfold kt_for
      rw [List.foldlM_nil, ← hB]
      rfl
    · intro i
      simp
  | cons i0 order ih =>
    intro gi Bs hB hnd hlt hF
    have hi0 : i0 < Bs.length := hlt i0 (List.mem_cons_self _ _)
    have hbk0 : Bs[i0]? = some Bs[i0] := List.getElem?_eq_getElem hi0
    have hstep := worker_post_ok rs gi Bs i0 _ _ hB hbk0 (hF i0 (List.mem_cons_self _ _) _ hbk0)
    have hnd' := List.nodup_cons.mp hnd
    obtain ⟨Bs', e1, e2, e3⟩ := ih { gi with B := some (Bs.set i0 (F i0)) } _ rfl hnd'.2
      (fun i hi => by rw [List.length_set]; exact hlt i (List.mem_cons_of_mem _ hi))
      (fun i hi bk hbk => by
        have hne : i0 ≠ i := fun h => hnd'.1 (h ▸ hi)
        rw [List.getElem?_set_ne hne] at hbk
        exact hF i (List.mem_cons_of_mem _ hi) bk hbk)
    refine ⟨Bs', ?_, by rw [e2, List.length_set], ?_⟩
    · unfold kt_for at e1 ⊢
      rw [List.foldlM_cons, hstep, ok_bind, e1]
    · intro i
      rw [e3 i, List.length_set]
      by_cases hi : i0 = i
      · subst hi
        have : i0 ∉ order := hnd'.1
        simp [this, hi0, List.getElem?_set_self hi0]
      · rw [List.getElem?_set_ne hi]
        have : (i ∈ i0 :: order) ↔ i ∈ order := by
          rw [List.mem_cons]
          constructor
          · rintro (h | h)
            · exact absurd h.symm hi
            · exact h
          · exact Or.inr
        simp only [this]

/-! ## Lookup in a finalised bucket -/

theorem mg_idx_get_empty (gi : mg_idx_t) (Bs : List mg_idx_bucket_t) (m : Nat)
    (bk : mg_idx_bucket_t) (hB : gi.B = some Bs) (hbk : Bs[get_slot gi.b m]? = some bk)
    (hh : bk.h = none) : mg_idx_get gi m = .ok (none, 0) := by
  unfold mg_idx_get
  rw [hB]
  simp only [hbk, hh]

theorem mg_idx_get_absent (gi : mg_idx_t) (Bs : List mg_idx_bucket_t) (m : Nat)
    (bk : mg_idx_bucket_t) (h : idxhash_t) (hB : gi.B = some Bs)
    (hbk : Bs[get_slot gi.b m]? = some bk) (hh : bk.h = some h)
    (hk : kh_get h (get_key gi.b m) = none) : mg_idx_get gi m = .ok (none, 0) := by
  unfold mg_idx_get
  rw [hB]
  simp only [hbk, hh, hk]

/-- A slot that is right for fingerprint `m` makes `mg_idx_get` return the positions staged
under `m`, in ascending order, and their number. -/
theorem mg_idx_get_slot (gi : mg_idx_t) (Bs : List mg_idx_bucket_t) (m : Nat)
    (bk : mg_idx_bucket_t) (h : idxhash_t) (p : List Nat) (st : List mg128_t) (sp : Nat)
    (hB : gi.B = some Bs) (hbk : Bs[get_slot gi.b m]? = some bk) (hh : bk.h = some h)
    (hp : bk.p = some p) (hsp : sp < 2 ^ 32) (H : slot_ok gi.b st h p sp m) :
    mg_idx_get gi m = .ok (some (radix_sort_64 (ys_of st m)), (ys_of st m).length) := by
  obtain ⟨k, hk, hc⟩ := H
  unfold mg_idx_get
  rw [hB]
  simp only [hbk, hh, hk, hp]
  rcases hc with ⟨y, e1, e2⟩ | ⟨h2, s0, e1, e2, e3⟩
  · have hkey : kh_key h k = get_key gi.b m ||| 1 := by
      unfold kh_key; rw [e2]
    have hval : kh_val h k = y := by
      unfold kh_val; rw [e2]
    rw [hkey, hval, or1_and1, e1]
    rfl
  · have hkey : kh_key h k = get_key gi.b m := by
      unfold kh_key; rw [e1]
    have hval : kh_val h k = (s0 <<< 32) % 2 ^ 64 ||| (ys_of st m).length := by
      unfold kh_val; rw [e1]
    have hz : get_key gi.b m &&& 1 = 0 := shl1_and1 _
    rw [hkey, hval, hz]
    simp only [ne_eq, not_true_eq_false, if_false, Option.getD_some]
    rw [pack_lo s0 _ (by omega) (by omega), pack_hi s0 _ (by omega) (by omega), e3]

/-! ## The whole build: ingestion, then `worker_post` on every bucket -/

theorem staged_slot (b : Nat) (l : List mg128_t) (i : Nat) :
    ∀ e ∈ staged b l i, add_slot b e.x = i := by
  intro e he
  unfold staged at he
  simpa using (List.mem_filter.mp he).2

theorem staged_sub (b : Nat) (l : List mg128_t) (i : Nat) : ∀ e ∈ staged b l i, e ∈ l :=
  fun _ he => (List.mem_filter.mp he).1

theorem worker_post_bucket_final (rs : List mg128_t → List mg128_t) (hrs : sorts_by_x rs)
    (b i : Nat) (l : List mg128_t) (hx : ∀ e ∈ l, e.x < 2 ^ 64) :
    ∃ r, worker_post_bucket rs b { a := staged b l i, n := 0, p := none, h := none } = .ok r ∧
      final_bucket b (staged b l i) (some r) := by
  by_cases hst : staged b l i = []
  · refine ⟨bucket_zero, ?_, Or.inl ⟨hst, rfl⟩⟩
    unfold worker_post_bucket
    rw [hst]
    rfl
  · obtain ⟨h, p, e, ok⟩ := worker_post_bucket_ok rs hrs b i
      { a := staged b l i, n := 0, p := none, h := none } hst (staged_slot b l i)
      (fun e he => hx e (staged_sub b l i e he))
    exact ⟨_, e, Or.inr ⟨hst, h, p, rfl, ok⟩⟩

/-- The build cannot fail on an index that starts with `2^b` zeroed buckets: whatever the order
in which the buckets are finalised, bucket `i` ends as the finalised form of the entries routed
to it, and the other fields of the index are unchanged. -/
theorem build_index_ok (rs : List mg128_t → List mg128_t) (hrs : sorts_by_x rs)
    (gi0 : mg_idx_t) (hB : gi0.B = some (List.replicate (2 ^ gi0.b) bucket_zero))
    (order : List Nat) (hord : order.Perm (List.range (2 ^ gi0.b)))
    (l : List mg128_t) (hx : ∀ e ∈ l, e.x < 2 ^ 64) :
    ∃ Bs, build_index rs order gi0 l = .ok { gi0 with B := some Bs } ∧
      Bs.length = 2 ^ gi0.b ∧
      (∀ i, i < 2 ^ gi0.b →
        Bs[i]? = (worker_post_bucket rs gi0.b
          { a := staged gi0.b l i, n := 0, p := none, h := none }).toOption) ∧
      ∀ i, i < 2 ^ gi0.b → final_bucket gi0.b (staged gi0.b l i) Bs[i]? := by
  obtain ⟨Bs1, e1, l1, g1⟩ := mg_idx_add_ok l gi0 _ hB (List.length_replicate _ _)
  rw [List.length_replicate] at l1
  have hst : ∀ i, i < 2 ^ gi0.b →
      Bs1[i]? = some { a := staged gi0.b l i, n := 0, p := none, h := none } := by
    intro i hi
    have := g1 i bucket_zero (by
      rw [List.getElem?_eq_getElem (by rw [List.length_replicate]; exact hi),
        List.getElem_replicate])
    rw [this]
    rfl
  have hmem : ∀ i, i ∈ order ↔ i < 2 ^ gi0.b := fun i => by
    rw [hord.mem_iff, List.mem_range]
  obtain ⟨Bs2, e2, l2, g2⟩ := kt_for_worker_post rs
    (fun i => match worker_post_bucket rs gi0.b
        { a := staged gi0.b l i, n := 0, p := none, h := none } with
      | .ok r => r
      | .error _ => bucket_zero)
    order { gi0 with B := some Bs1 } Bs1 rfl
    (hord.nodup_iff.mpr (List.nodup_range _))
    (fun i hi => by rw [l1]; exact (hmem i).mp hi)
    (fun i hi bk hbk => by
      rw [hst i ((hmem i).mp hi)] at hbk
      rw [← Option.some.inj hbk]
      obtain ⟨r, er, _⟩ := worker_post_bucket_final rs hrs gi0.b i l hx
      show _ = Except.ok (match worker_post_bucket rs gi0.b _ with
        | .ok r => r
        | .error _ => bucket_zero)
      rw [er])
  have hget : ∀ i, i < 2 ^ gi0.b → ∃ r,
      worker_post_bucket rs gi0.b { a := staged gi0.b l i, n := 0, p := none, h := none }
        = .ok r ∧ final_bucket gi0.b (staged gi0.b l i) (some r) ∧ Bs2[i]? = some r := by
    intro i hi
    obtain ⟨r, er, fr⟩ := worker_post_bucket_final rs hrs gi0.b i l hx
    refine ⟨r, er, fr, ?_⟩
    rw [g2 i, if_pos ⟨(hmem i).mpr hi, by rw [l1]; exact hi⟩]
    simp only [er]
  refine ⟨Bs2, ?_, by rw [l2, l1], ?_, ?_⟩
  · unfold build_index
    rw [e1]
    exact e2
  · intro i hi
    obtain ⟨r, er, _, gr⟩ := hget i hi
    rw [gr, er]
    rfl
  · intro i hi
    obtain ⟨r, _, fr, gr⟩ := hget i hi
    rw [gr]
    exact fr

/-! ## Lookup in a finalised index -/

theorem add_slot_eq_get_slot (b x : Nat) : add_slot b x = get_slot b (x >>> 8) := rfl

/-- The entries under fingerprint `m` all lie in the bucket that `mg_idx_get` opens for `m`. -/
theorem ys_of_staged (b : Nat) (l : List mg128_t) (m : Nat) :
    ys_of (staged b l (get_slot b m)) m = ys_of l m := by
  unfold ys_of staged
  rw [List.filter_filter]
  congr 1
  apply List.filter_congr
  intro e _
  by_cases h : e.x >>> 8 = m
  · simp [h, add_slot_eq_get_slot]
  · simp [h]

theorem ys_of_ne_nil (l : List mg128_t) (m : Nat) (h : ys_of l m ≠ []) :
    ∃ e ∈ l, e.x >>> 8 = m := by
  by_contra hc
  push_neg at hc
  exact h (ys_of_none l m hc)

theorem staged_length_le (b : Nat) (l : List mg128_t) (i : Nat) :
    (staged b l i).length ≤ l.length :=
  List.length_filter_le _ _

/-- A fingerprint that was ingested: `mg_idx_get` returns the positions ingested under it, in
ascending order, and their number. -/
theorem mg_idx_get_hit (gi : mg_idx_t) (Bs : List mg_idx_bucket_t) (hB : gi.B = some Bs)
    (l : List mg128_t) (hlen : l.length < 2 ^ 31)
    (hfin : ∀ i, i < 2 ^ gi.b → final_bucket gi.b (staged gi.b l i) Bs[i]?)
    (m : Nat) (hm : ys_of l m ≠ []) :
    mg_idx_get gi m = .ok (some (radix_sort_64 (ys_of l m)), (ys_of l m).length) := by
  obtain ⟨e, he, hem⟩ := ys_of_ne_nil l m hm
  have hes : e ∈ staged gi.b l (get_slot gi.b m) := by
    unfold staged
    rw [List.mem_filter]
    exact ⟨he, by simp [add_slot_eq_get_slot, hem]⟩
  rcases hfin _ (get_slot_lt gi.b m) with ⟨h0, _⟩ | ⟨_, h, p, hr, ok⟩
  · rw [h0] at hes
    cases hes
  · have hs := ok.look e hes
    rw [hem] at hs
    have hsp : multi_total (staged gi.b l (get_slot gi.b m)) < 2 ^ 32 := by
      have h1 := multi_total_le_length (staged gi.b l (get_slot gi.b m))
      have h2 := staged_length_le gi.b l (get_slot gi.b m)
      omega
    have := mg_idx_get_slot gi Bs m _ h p _ _ hB hr rfl rfl hsp hs
    rw [ys_of_staged] at this
    exact this

/-- A lookup value whose identity fits in 63 bits and that no ingested entry carries:
`mg_idx_get` returns the null pointer and the count 0. -/
theorem mg_idx_get_miss (gi : mg_idx_t) (Bs : List mg_idx_bucket_t) (hB : gi.B = some Bs)
    (l : List mg128_t)
    (hfin : ∀ i, i < 2 ^ gi.b → final_bucket gi.b (staged gi.b l i) Bs[i]?)
    (m : Nat) (hm : ∀ e ∈ l, e.x >>> 8 ≠ m) (h63 : m >>> gi.b < 2 ^ 63) :
    mg_idx_get gi m = .ok (none, 0) := by
  rcases hfin _ (get_slot_lt gi.b m) with ⟨_, hr⟩ | ⟨_, h, p, hr, ok⟩
  · exact mg_idx_get_empty gi Bs m _ hB hr rfl
  · apply mg_idx_get_absent gi Bs m _ h hB hr rfl
    rw [kh_get_none_iff]
    intro kv hkv hc
    obtain ⟨e, he1, he2⟩ := ok.keys kv hkv
    have hk : get_key gi.b m >>> 1 = m >>> gi.b := shl1_shr1 _ h63
    have h1 : e.x >>> 8 >>> gi.b = m >>> gi.b := by rw [← he2, hc, hk]
    have h2 := staged_slot gi.b l _ e he1
    rw [add_slot_eq_get_slot] at h2
    exact hm e (staged_sub gi.b l _ e he1) (split_fp _ _ gi.b h1 h2)

/-! ## The sizes of a finalised index -/

theorem final_bucket_small (b : Nat) (st : List mg128_t) (r : mg_idx_bucket_t)
    (h : final_bucket b st (some r)) (hl : st.length < 2 ^ 31) :
    r.a = [] ∧ r.n < 2 ^ 31 := by
  rcases h with ⟨_, hr⟩ | ⟨_, h, p, hr, _⟩
  · rw [Option.some.inj hr]
    exact ⟨rfl, by decide⟩
  · rw [Option.some.inj hr]
    have := multi_total_le_length st
    exact ⟨rfl, by show multi_total st < 2 ^ 31; omega⟩

/-- The build of `build_index_ok` on fewer than `2^31` entries: besides what is said there,
every bucket ends with an empty staging list and a size `b->n` within the range of `int32_t`,
so no counter of `worker_post` leaves the range of `int`. -/
theorem build_index_bounded (rs : List mg128_t → List mg128_t) (hrs : sorts_by_x rs)
    (gi0 : mg_idx_t) (hB : gi0.B = some (List.replicate (2 ^ gi0.b) bucket_zero))
    (order : List Nat) (hord : order.Perm (List.range (2 ^ gi0.b)))
    (l : List mg128_t) (hx : ∀ e ∈ l, e.x < 2 ^ 64) (hlen : l.length < 2 ^ 31) :
    ∃ Bs, build_index rs order gi0 l = .ok { gi0 with B := some Bs } ∧
      Bs.length = 2 ^ gi0.b ∧
      (∀ i, i < 2 ^ gi0.b →
        Bs[i]? = (worker_post_bucket rs gi0.b
          { a := staged gi0.b l i, n := 0, p := none, h := none }).toOption) ∧
      (∀ i, i < 2 ^ gi0.b → final_bucket gi0.b (staged gi0.b l i) Bs[i]?) ∧
      ∀ bk ∈ Bs, bk.a = [] ∧ bk.n < 2 ^ 31 := by
  obtain ⟨Bs, e, hl, hopt, hfin⟩ := build_index_ok rs hrs gi0 hB order hord l hx
  refine ⟨Bs, e, hl, hopt, hfin, ?_⟩
  intro bk hbk
  obtain ⟨i, hi⟩ := List.mem_iff_getElem?.mp hbk
  have hlt : i < 2 ^ gi0.b := by
    rw [← hl]
    exact (List.getElem?_eq_some.mp hi).1
  have hf := hfin i hlt
  rw [hi] at hf
  have := staged_length_le gi0.b l i
  exact final_bucket_small gi0.b _ bk hf (by omega)

/-! ## Concrete inputs -/

theorem rs_insertion_sorts : sorts_by_x rs_insertion := by
  intro l
  haveI : IsTotal mg128_t (fun e1 e2 => e1.x ≤ e2.x) := ⟨fun u v => Nat.le_total u.x v.x⟩
  haveI : IsTrans mg128_t (fun e1 e2 => e1.x ≤ e2.x) := ⟨fun _ _ _ h1 h2 => Nat.le_trans h1 h2⟩
  exact ⟨List.perm_insertionSort _ l, List.sorted_insertionSort _ l⟩

/-! ## The lookup contract -/

/-- C1: after the entries `l` are ingested by `mg_idx_add` into `2^b` zeroed buckets and
`worker_post` has run on every bucket (in any order), a fingerprint `m` carried by `c > 1`
ingested entries is answered by `mg_idx_get` with `n = c` and with `c` values that are the
positions of those entries as a multiset, in ascending order. -/
theorem multi_lookup_sorted (rs : List mg128_t → List mg128_t) (hrs : sorts_by_x rs)
    (gi0 : mg_idx_t) (hB : gi0.B = some (List.replicate (2 ^ gi0.b) bucket_zero))
    (order : List Nat) (hord : order.Perm (List.range (2 ^ gi0.b)))
    (l : List mg128_t) (hx : ∀ e ∈ l, e.x < 2 ^ 64) (hlen : l.length < 2 ^ 31)
    (m : Nat) (hc : 1 < (ys_of l m).length) :
    ∃ gi view, build_index rs order gi0 l = .ok gi ∧
      mg_idx_get gi m = .ok (some view, (ys_of l m).length) ∧
      view.length = (ys_of l m).length ∧
      view.Perm (ys_of l m) ∧ view.Sorted (fun u v => u ≤ v) := by
  obtain ⟨Bs, e, _, _, hfin⟩ := build_index_ok rs hrs gi0 hB order hord l hx
  have hne : ys_of l m ≠ [] := by
    intro h
    rw [h] at hc
    exact absurd hc (by decide)
  exact ⟨_, _, e, mg_idx_get_hit { gi0 with B := some Bs } Bs rfl l hlen hfin m hne,
    radix_sort_64_length _, radix_sort_64_perm _, radix_sort_64_sorted _⟩

/-- C1 at a concrete input: six entries, `b = 1`, buckets finalised in the order 1, 0, lookup of
fingerprint 3. -/
theorem multi_lookup_sorted_witness :
    ∃ gi view, build_index rs_insertion [1, 0] (idx_zeroed 1) sample_entries = .ok gi ∧
      mg_idx_get gi 3 = .ok (some view, (ys_of sample_entries 3).length) ∧
      view.length = (ys_of sample_entries 3).length ∧
      view.Perm (ys_of sample_entries 3) ∧ view.Sorted (fun u v => u ≤ v) :=
  multi_lookup_sorted rs_insertion rs_insertion_sorts (idx_zeroed 1) rfl [1, 0] (by decide)
    sample_entries (by decide) (by decide) 3 (by decide)

/-- C2, as stated, fails: two ingested entries with the same fingerprint and the same position
make `mg_idx_get` return that position twice. -/
theorem roundtrip_once_counterexample :
    (build_index rs_insertion [0] (idx_zeroed 0) [⟨0, 5⟩, ⟨0, 5⟩]).bind
        (fun gi => mg_idx_get gi 0) = .ok (some [5, 5], 2) ∧
      ([5, 5] : List Nat).count 5 = 2 := by
  decide

/-- C2, amended: for every ingested entry `e`, `mg_idx_get` called with its fingerprint returns
a result that holds the position `e.y` as many times as there are ingested entries with that
fingerprint and that position; that is at least once, and exactly once when `e` is the only
such entry. -/
theorem roundtrip_count (rs : List mg128_t → List mg128_t) (hrs : sorts_by_x rs)
    (gi0 : mg_idx_t) (hB : gi0.B = some (List.replicate (2 ^ gi0.b) bucket_zero))
    (order : List Nat) (hord : order.Perm (List.range (2 ^ gi0.b)))
    (l : List mg128_t) (hx : ∀ e ∈ l, e.x < 2 ^ 64) (hlen : l.length < 2 ^ 31)
    (e : mg128_t) (he : e ∈ l) :
    ∃ gi view n, build_index rs order gi0 l = .ok gi ∧
      mg_idx_get gi (e.x >>> 8) = .ok (some view, n) ∧
      view.count e.y
        = (l.filter (fun e' => e'.x >>> 8 == e.x >>> 8 && e'.y == e.y)).length ∧
      1 ≤ view.count e.y := by
  obtain ⟨Bs, eb, _, _, hfin⟩ := build_index_ok rs hrs gi0 hB order hord l hx
  have hpos := ys_of_length_pos l e he
  have hne : ys_of l (e.x >>> 8) ≠ [] := by
    intro h
    rw [h] at hpos
    exact absurd hpos (by decide)
  have hcnt : (radix_sort_64 (ys_of l (e.x >>> 8))).count e.y
      = (l.filter (fun e' => e'.x >>> 8 == e.x >>> 8 && e'.y == e.y)).length := by
    rw [(radix_sort_64_perm _).count_eq]
    unfold ys_of
    rw [List.count, List.countP_map, List.countP_eq_length_filter, List.filter_filter]
    congr 1
    apply List.filter_congr
    intro e' _
    simp [Bool.and_comm]
  refine ⟨_, _, _, eb, mg_idx_get_hit { gi0 with B := some Bs } Bs rfl l hlen hfin _ hne,
    hcnt, ?_⟩
  rw [hcnt]
  exact List.length_pos_iff_exists_mem.mpr ⟨e, List.mem_filter.mpr ⟨he, by simp⟩⟩

/-- C2, amended, at a concrete input: the entry `(0x302, 3)` of the six sample entries. -/
theorem roundtrip_count_witness :
    ∃ gi view n, build_index rs_insertion [0, 1] (idx_zeroed 1) sample_entries = .ok gi ∧
      mg_idx_get gi ((⟨0x302, 3⟩ : mg128_t).x >>> 8) = .ok (some view, n) ∧
      view.count (⟨0x302, 3⟩ : mg128_t).y
        = (sample_entries.filter (fun e' => e'.x >>> 8 == (⟨0x302, 3⟩ : mg128_t).x >>> 8
            && e'.y == (⟨0x302, 3⟩ : mg128_t).y)).length ∧
      1 ≤ view.count (⟨0x302, 3⟩ : mg128_t).y :=
  roundtrip_count rs_insertion rs_insertion_sorts (idx_zeroed 1) rfl [0, 1] (by decide)
    sample_entries (by decide) (by decide) ⟨0x302, 3⟩ (by decide)

/-- C3: when exactly one ingested entry `e` has fingerprint `m`, `mg_idx_get` reports `n = 1`
and returns the single value `e.y`; the value is read from the tagged slot of the table, and the
overflow array of the bucket has one cell per staged entry of a shared fingerprint and none for
`e`. -/
theorem singleton_lookup (rs : List mg128_t → List mg128_t) (hrs : sorts_by_x rs)
    (gi0 : mg_idx_t) (hB : gi0.B = some (List.replicate (2 ^ gi0.b) bucket_zero))
    (order : List Nat) (hord : order.Perm (List.range (2 ^ gi0.b)))
    (l : List mg128_t) (hx : ∀ e ∈ l, e.x < 2 ^ 64) (hlen : l.length < 2 ^ 31)
    (m : Nat) (e : mg128_t) (h1 : l.filter (fun e' => e'.x >>> 8 == m) = [e]) :
    ∃ gi Bs bk h p k, build_index rs order gi0 l = .ok gi ∧
      mg_idx_get gi m = .ok (some [e.y], 1) ∧
      gi.B = some Bs ∧ Bs[get_slot gi0.b m]? = some bk ∧ bk.h = some h ∧ bk.p = some p ∧
      kh_get h (get_key gi0.b m) = some k ∧ kh_key h k &&& 1 = 1 ∧ kh_val h k = e.y ∧
      p.length = multi_total (staged gi0.b l (get_slot gi0.b m)) := by
  obtain ⟨Bs, eb, _, _, hfin⟩ := build_index_ok rs hrs gi0 hB order hord l hx
  have hy : ys_of l m = [e.y] := by
    unfold ys_of
    rw [h1]
    rfl
  have hne : ys_of l m ≠ [] := by
    rw [hy]
    exact List.cons_ne_nil _ _
  have hget := mg_idx_get_hit { gi0 with B := some Bs } Bs rfl l hlen hfin m hne
  rw [hy] at hget
  have hel : e ∈ l.filter (fun e' => e'.x >>> 8 == m) := by
    rw [h1]
    exact List.mem_singleton_self e
  have hem : e.x >>> 8 = m := by simpa using (List.mem_filter.mp hel).2
  have hes : e ∈ staged gi0.b l (get_slot gi0.b m) := by
    unfold staged
    rw [List.mem_filter]
    exact ⟨(List.mem_filter.mp hel).1, by simp [add_slot_eq_get_slot, hem]⟩
  rcases hfin _ (get_slot_lt gi0.b m) with ⟨h0, _⟩ | ⟨_, h, p, hr, ok⟩
  · rw [h0] at hes
    cases hes
  · have hs := ok.look e hes
    rw [hem] at hs
    obtain ⟨k, hk, hc⟩ := hs
    rw [ys_of_staged, hy] at hc
    rcases hc with ⟨y, e1, e2⟩ | ⟨h2, _⟩
    · have hyy : e.y = y := by
        have := List.cons.inj e1
        exact this.1
      refine ⟨_, Bs, _, h, p, k, eb, hget, rfl, hr, rfl, rfl, hk, ?_, ?_, ok.plen⟩
      · unfold kh_key
        rw [e2]
        exact or1_and1 _
      · unfold kh_val
        rw [e2, hyy]
    · exact absurd h2 (Nat.not_succ_le_self 1)

/-- C3 at a concrete input: fingerprint 7 of the six sample entries, carried by `(0x700, 1)`
alone. -/
theorem singleton_lookup_witness :
    ∃ gi Bs bk h p k, build_index rs_insertion [0, 1] (idx_zeroed 1) sample_entries = .ok gi ∧
      mg_idx_get gi 7 = .ok (some [(⟨0x700, 1⟩ : mg128_t).y], 1) ∧
      gi.B = some Bs ∧ Bs[get_slot (idx_zeroed 1).b 7]? = some bk ∧ bk.h = some h ∧
      bk.p = some p ∧
      kh_get h (get_key (idx_zeroed 1).b 7) = some k ∧ kh_key h k &&& 1 = 1 ∧
      kh_val h k = (⟨0x700, 1⟩ : mg128_t).y ∧
      p.length = multi_total (staged (idx_zeroed 1).b sample_entries
        (get_slot (idx_zeroed 1).b 7)) :=
  singleton_lookup rs_insertion rs_insertion_sorts (idx_zeroed 1) rfl [0, 1] (by decide)
    sample_entries (by decide) (by decide) 7 ⟨0x700, 1⟩ (by decide)

/-- C4, as stated, fails: with `b = 0` the 64-bit lookup value `2^63 + 1` is carried by no
ingested entry, yet `mg_idx_get` answers it with the position ingested under fingerprint `1`,
because the shift `minier>>b<<1` drops bit 63. -/
theorem unknown_key_counterexample :
    (∀ e ∈ [(⟨0x100, 7⟩ : mg128_t)], e.x >>> 8 ≠ 2 ^ 63 + 1) ∧ 2 ^ 63 + 1 < 2 ^ 64 ∧
      (build_index rs_insertion [0] (idx_zeroed 0) [⟨0x100, 7⟩]).bind
        (fun gi => mg_idx_get gi (2 ^ 63 + 1)) = .ok (some [7], 1) := by
  decide

/-- C4, amended: for every lookup value `m` whose identity `m>>b` is below `2^63` (every
64-bit `m` when `b ≥ 1`, every `m < 2^63` when `b = 0`) and that no ingested entry carries as
its fingerprint, `mg_idx_get` reports `n = 0` and returns the null pointer. The build is that
of fewer than `2^31` entries with 64-bit keys, within the range of the `int` counters of
`worker_post`. -/
theorem unknown_key_empty (rs : List mg128_t → List mg128_t) (hrs : sorts_by_x rs)
    (gi0 : mg_idx_t) (hB : gi0.B = some (List.replicate (2 ^ gi0.b) bucket_zero))
    (order : List Nat) (hord : order.Perm (List.range (2 ^ gi0.b)))
    (l : List mg128_t) (hx : ∀ e ∈ l, e.x < 2 ^ 64) (hlen : l.length < 2 ^ 31)
    (m : Nat) (hm : ∀ e ∈ l, e.x >>> 8 ≠ m) (h63 : m >>> gi0.b < 2 ^ 63) :
    ∃ gi, build_index rs order gi0 l = .ok gi ∧ mg_idx_get gi m = .ok (none, 0) := by
  obtain ⟨Bs, eb, _, _, hfin, _⟩ := build_index_bounded rs hrs gi0 hB order hord l hx hlen
  exact ⟨_, eb, mg_idx_get_miss { gi0 with B := some Bs } Bs rfl l hfin m hm h63⟩

/-- C4, amended, at a concrete input: fingerprint 5, which none of the six sample entries carries.
-/
theorem unknown_key_empty_witness :
    ∃ gi, build_index rs_insertion [1, 0] (idx_zeroed 1) sample_entries = .ok gi ∧
      mg_idx_get gi 5 = .ok (none, 0) :=
  unknown_key_empty rs_insertion rs_insertion_sorts (idx_zeroed 1) rfl [1, 0] (by decide)
    sample_entries (by decide) (by decide) 5 (by decide) (by decide)

/-- For a 64-bit lookup value and `b ≥ 1` the identity `m>>b` is always below `2^63`. -/
theorem identity_lt_of_pos (b m : Nat) (hb : 1 ≤ b) (hm : m < 2 ^ 64) : m >>> b < 2 ^ 63 := by
  rw [Nat.shiftRight_eq_div_pow]
  have h1 : m / 2 ^ b ≤ m / 2 ^ 1 :=
    Nat.div_le_div_left (Nat.pow_le_pow_right (by decide) hb) (by decide)
  omega

/-! ## Validation and the build driver -/

theorem mg_gfa_overlap_arcs_eq_one (arcs : List gfa_arc_t) :
    mg_gfa_overlap_arcs arcs = 1 ↔ ∃ a ∈ arcs, a.ov ≠ 0 ∨ a.ow ≠ 0 := by
  induction arcs with
  | nil => simp [mg_gfa_overlap_arcs]
  | cons a rest ih =>
    unfold mg_gfa_overlap_arcs
    by_cases h : a.ov ≠ 0 ∨ a.ow ≠ 0
    · rw [if_pos h]
      exact ⟨fun _ => ⟨a, List.mem_cons_self _ _, h⟩, fun _ => rfl⟩
    · rw [if_neg h, ih]
      constructor
      · rintro ⟨a', h1, h2⟩
        exact ⟨a', List.mem_cons_of_mem _ h1, h2⟩
      · rintro ⟨a', h1, h2⟩
        rcases List.mem_cons.mp h1 with h3 | h3
        · exact absurd (h3 ▸ h2) h
        · exact ⟨a', h3, h2⟩

theorem mg_gfa_overlap_arcs_range (arcs : List gfa_arc_t) :
    mg_gfa_overlap_arcs arcs = 0 ∨ mg_gfa_overlap_arcs arcs = 1 := by
  induction arcs with
  | nil => exact Or.inl rfl
  | cons a rest ih =>
    unfold mg_gfa_overlap_arcs
    by_cases h : a.ov ≠ 0 ∨ a.ow ≠ 0
    · rw [if_pos h]
      exact Or.inr rfl
    · rw [if_neg h]
      exact ih

/-- The function `mg_gfa_overlap` returns 1 exactly when some arc has `ov != 0` or `ow != 0`,
and 0 otherwise. -/
theorem mg_gfa_overlap_iff (g : gfa_t) :
    (mg_gfa_overlap g = 1 ↔ ∃ a ∈ g.arc, a.ov ≠ 0 ∨ a.ow ≠ 0) ∧
      (mg_gfa_overlap g = 0 ↔ ∀ a ∈ g.arc, a.ov = 0 ∧ a.ow = 0) := by
  unfold mg_gfa_overlap
  refine ⟨mg_gfa_overlap_arcs_eq_one g.arc, ?_⟩
  constructor
  · intro h a ha
    by_contra hc
    have h1 : mg_gfa_overlap_arcs g.arc = 1 :=
      (mg_gfa_overlap_arcs_eq_one g.arc).mpr ⟨a, ha, by
        by_contra hn
        push_neg at hn
        exact hc hn⟩
    rw [h] at h1
    exact absurd h1 (by decide)
  · intro h
    rcases mg_gfa_overlap_arcs_range g.arc with h0 | h1
    · exact h0
    · obtain ⟨a, ha, hov⟩ := (mg_gfa_overlap_arcs_eq_one g.arc).mp h1
      have := h a ha
      rcases hov with hov | hov
      · exact absurd this.1 hov
      · exact absurd this.2 hov

theorem error_bind {α β : Type} (f : Fault) (k : α → Except Fault β) :
    ((Except.error f : Except Fault α) >>= k) = Except.error f := rfl

theorem foldlM_error {α σ : Type} (step : σ → α → Except Fault σ) (f : Fault) (l : List α) :
    ∀ s, (∀ t a, step t a = .error f) → l ≠ [] → l.foldlM step s = .error f := by
  intro s h hl
  cases l with
  | nil => exact absurd rfl hl
  | cons a rest => rw [List.foldlM_cons, h s a, error_bind]

theorem mg_idx_add_null (gi : mg_idx_t) (hB : gi.B = none) (l : List mg128_t) :
    mg_idx_add gi l = (if l = [] then .ok gi else .error .nullDeref) := by
  cases l with
  | nil => rfl
  | cons e rest =>
    unfold mg_idx_add
    rw [List.foldlM_cons]
    have : mg_idx_add_step gi e = .error .nullDeref := by
      unfold mg_idx_add_step
      rw [hB]
    rw [this, error_bind]
    rfl

theorem ingest_segs_null (sk : Nat → gfa_seg_t → List mg128_t) (segs : List gfa_seg_t) :
    ∀ (i : Nat) (gi : mg_idx_t), gi.B = none →
      ingest_segs sk i segs gi = .ok gi ∨ ingest_segs sk i segs gi = .error .nullDeref := by
  induction segs with
  | nil =>
    intro i gi _
    exact Or.inl rfl
  | cons s rest ih =>
    intro i gi hB
    unfold ingest_segs
    rw [mg_idx_add_null gi hB]
    by_cases h : sk i s = []
    · rw [if_pos h]
      exact ih (i + 1) gi hB
    · rw [if_neg h]
      exact Or.inr rfl

theorem kt_for_null (rs : List mg128_t → List mg128_t) (gi : mg_idx_t) (hB : gi.B = none)
    (order : List Nat) (hne : order ≠ []) :
    kt_for order (worker_post rs) gi = .error .nullDeref := by
  cases order with
  | nil => exact absurd rfl hne
  | cons i rest =>
    unfold kt_for
    rw [List.foldlM_cons]
    have : worker_post rs gi i = .error .nullDeref := by
      unfold worker_post
      rw [hB]
    rw [this, error_bind]

/-- C5: the first two parts hold (`mg_gfa_overlap_iff`, and `mg_index_gfa` returns the null
pointer when an arc has an overlap), the third does not: for every graph whose arcs all have
`ov = 0` and `ow = 0`, and every `k`, `w`, `b`, `flag` and `n_threads`, `mg_index_gfa` does not
return an index. The index it allocates has no bucket array, and the first access to
`gi->B`, in `mg_idx_add` or else in `worker_post`, dereferences the null pointer. -/
theorem mg_index_gfa_valid_graph_faults
    (sketch : Int → Int → Int → Nat → gfa_seg_t → List mg128_t) (hpc : Int)
    (rs : List mg128_t → List mg128_t) (sched : Int → Nat → List Nat)
    (hsched : ∀ t n, (sched t n).Perm (List.range n))
    (g : gfa_t) (k w : Int) (b : Nat) (flag n_threads : Int)
    (hg : ∀ a ∈ g.arc, a.ov = 0 ∧ a.ow = 0) :
    mg_index_gfa sketch hpc rs sched g k w b flag n_threads = .error .nullDeref := by
  have h0 : mg_gfa_overlap g = 0 := (mg_gfa_overlap_iff g).2.mpr hg
  have hne : sched n_threads (1 <<< b) ≠ [] := by
    intro h
    have hp := (hsched n_threads (1 <<< b)).length_eq
    rw [h, List.length_range, Nat.one_shiftLeft] at hp
    have := Nat.two_pow_pos b
    simp at hp
    omega
  unfold mg_index_gfa
  rw [h0]
  simp only [ne_eq, not_true_eq_false, if_false]
  rcases ingest_segs_null (sketch w k (Int.land flag hpc)) g.seg 0
      { b := b, w := w, k := k, flag := flag, B := none, g := g } rfl with h | h
  · rw [h]
    simp only
    rw [kt_for_null rs _ rfl _ hne]
  · rw [h]

/-- C5 at a concrete input: a graph of no segments and one arc without overlap, `b = 0`. -/
theorem mg_index_gfa_valid_graph_faults_witness :
    (∀ a ∈ ({ seg := [], arc := [⟨0, 0⟩] } : gfa_t).arc, a.ov = 0 ∧ a.ow = 0) ∧
      mg_index_gfa (fun _ _ _ _ _ => []) 1 rs_insertion (fun _ n => List.range n)
        { seg := [], arc := [⟨0, 0⟩] } 15 10 0 0 1 = .error .nullDeref :=
  ⟨by decide,
   mg_index_gfa_valid_graph_faults (fun _ _ _ _ _ => []) 1 rs_insertion
    (fun _ n => List.range n) (fun _ n => List.Perm.refl _)
    { seg := [], arc := [⟨0, 0⟩] } 15 10 0 0 1 (by decide)⟩

/-- The function `mg_index_gfa` returns the null pointer for every graph with an arc that has
`ov != 0` or `ow != 0`. -/
theorem mg_index_gfa_rejects
    (sketch : Int → Int → Int → Nat → gfa_seg_t → List mg128_t) (hpc : Int)
    (rs : List mg128_t → List mg128_t) (sched : Int → Nat → List Nat)
    (g : gfa_t) (k w : Int) (b : Nat) (flag n_threads : Int)
    (hg : ∃ a ∈ g.arc, a.ov ≠ 0 ∨ a.ow ≠ 0) :
    mg_index_gfa sketch hpc rs sched g k w b flag n_threads = .ok none := by
  have h1 : mg_gfa_overlap g = 1 := (mg_gfa_overlap_iff g).1.mpr hg
  unfold mg_index_gfa
  rw [h1]
  rfl

/-- C6: the claim is about an allocation that `mg_index_gfa` does not make. On a graph with one
segment and no arcs, with `b = 2`, the index handed to `mg_idx_add` has `B` null: ingesting
the first sketched entry faults, `worker_post` on bucket 0 of that index faults, and so does
the whole build. -/
theorem mg_index_gfa_no_bucket_array :
    mg_idx_add sample_unallocated [⟨0x100, 7⟩] = .error .nullDeref ∧
      worker_post rs_insertion sample_unallocated 0 = .error .nullDeref ∧
      mg_index_gfa (fun _ _ _ _ _ => [⟨0x100, 7⟩]) 1 rs_insertion (fun _ n => List.range n)
        sample_graph 15 10 2 0 1 = .error .nullDeref := by
  decide

/-! ## Partitioning -/

theorem staging_total_set (Bs : List mg_idx_bucket_t) :
    ∀ (i : Nat) (bk bk1 : mg_idx_bucket_t), Bs[i]? = some bk →
      bk1.a.length = bk.a.length + 1 →
      staging_total (Bs.set i bk1) = staging_total Bs + 1 := by
  induction Bs with
  | nil =>
    intro i bk bk1 h _
    simp at h
  | cons c rest ih =>
    intro i bk bk1 h h1
    cases i with
    | zero =>
      simp only [List.getElem?_cons_zero, Option.some.injEq] at h
      subst h
      simp only [staging_total, List.set_cons_zero, List.map_cons, List.sum_cons, h1]
      omega
    | succ i =>
      simp only [List.getElem?_cons_succ] at h
      have := ih i bk bk1 h h1
      simp only [staging_total, List.set_cons_succ, List.map_cons, List.sum_cons] at this ⊢
      omega

theorem mg_idx_add_total (l : List mg128_t) :
    ∀ (gi : mg_idx_t) (Bs : List mg_idx_bucket_t), gi.B = some Bs → Bs.length = 2 ^ gi.b →
      ∀ Bs', mg_idx_add gi l = .ok { gi with B := some Bs' } →
        staging_total Bs' = staging_total Bs + l.length := by
  induction l with
  | nil =>
    intro gi Bs hB _ Bs' h
    have h1 : gi.B = some Bs' :=
      congrArg (fun r : Except Fault mg_idx_t => match r with
        | .ok g => g.B
        | .error _ => none) h
    rw [hB] at h1
    rw [Option.some.inj h1]
    rfl
  | cons e l ih =>
    intro gi Bs hB hlen Bs' h
    have hlt : add_slot gi.b e.x < Bs.length := by
      rw [hlen]; exact add_slot_lt _ _
    have hbk0 : Bs[add_slot gi.b e.x]? = some Bs[add_slot gi.b e.x] :=
      List.getElem?_eq_getElem hlt
    have hstep := mg_idx_add_step_ok gi Bs e _ hB hbk0
    unfold mg_idx_add at h
    rw [List.foldlM_cons, hstep, ok_bind] at h
    have := ih
      { gi with B := some (Bs.set (add_slot gi.b e.x)
          { Bs[add_slot gi.b e.x] with a := Bs[add_slot gi.b e.x].a ++ [e] }) }
      _ rfl (by rw [List.length_set]; exact hlen) Bs' h
    rw [this, staging_total_set Bs _ _ _ hbk0 (by simp), List.length_cons]
    omega

/-- C7: on an index with `2^b` buckets `mg_idx_add` cannot fail; afterwards the staging list of
every bucket `i` is its previous list followed by exactly the entries of `a` whose selector
`(x>>8) & (2^b - 1)` is `i`, unchanged, in input order and with duplicates kept; the other
fields of the buckets and of the index are untouched, and the staging lengths grow by the
length of `a` in total. -/
theorem mg_idx_add_partitions (gi : mg_idx_t) (Bs : List mg_idx_bucket_t)
    (hB : gi.B = some Bs) (hlen : Bs.length = 2 ^ gi.b) (a : List mg128_t) :
    ∃ Bs', mg_idx_add gi a = .ok { gi with B := some Bs' } ∧ Bs'.length = 2 ^ gi.b ∧
      (∀ i, i < 2 ^ gi.b → ∃ bk bk', Bs[i]? = some bk ∧ Bs'[i]? = some bk' ∧
        bk'.a = bk.a ++ a.filter (fun e => (e.x >>> 8) &&& (2 ^ gi.b - 1) == i) ∧
        bk'.n = bk.n ∧ bk'.p = bk.p ∧ bk'.h = bk.h) ∧
      (∀ e ∈ a, (e.x >>> 8) &&& (2 ^ gi.b - 1) < 2 ^ gi.b) ∧
      staging_total Bs' = staging_total Bs + a.length := by
  obtain ⟨Bs', e1, e2, e3⟩ := mg_idx_add_ok a gi Bs hB hlen
  have hsel : ∀ x, (x >>> 8) &&& (2 ^ gi.b - 1) = add_slot gi.b x := by
    intro x
    unfold add_slot
    rw [Nat.one_shiftLeft]
  refine ⟨Bs', e1, by rw [e2, hlen], ?_, ?_, mg_idx_add_total a gi Bs hB hlen Bs' e1⟩
  · intro i hi
    have hbk : Bs[i]? = some Bs[i] := List.getElem?_eq_getElem (by rw [hlen]; exact hi)
    refine ⟨Bs[i], _, hbk, e3 i _ hbk, ?_, rfl, rfl, rfl⟩
    show Bs[i].a ++ staged gi.b a i = _
    unfold staged
    simp only [hsel]
  · intro e _
    rw [hsel]
    exact add_slot_lt _ _

/-- C7 at a concrete input: the six sample entries added to two zeroed buckets. -/
theorem mg_idx_add_partitions_witness :
    ∃ Bs', mg_idx_add (idx_zeroed 1) sample_entries
        = .ok { idx_zeroed 1 with B := some Bs' } ∧ Bs'.length = 2 ^ (idx_zeroed 1).b ∧
      (∀ i, i < 2 ^ (idx_zeroed 1).b → ∃ bk bk',
        (List.replicate (2 ^ 1) bucket_zero)[i]? = some bk ∧ Bs'[i]? = some bk' ∧
        bk'.a = bk.a ++ sample_entries.filter
          (fun e => (e.x >>> 8) &&& (2 ^ (idx_zeroed 1).b - 1) == i) ∧
        bk'.n = bk.n ∧ bk'.p = bk.p ∧ bk'.h = bk.h) ∧
      (∀ e ∈ sample_entries, (e.x >>> 8) &&& (2 ^ (idx_zeroed 1).b - 1)
        < 2 ^ (idx_zeroed 1).b) ∧
      staging_total Bs' = staging_total (List.replicate (2 ^ 1) bucket_zero)
        + sample_entries.length :=
  mg_idx_add_partitions (idx_zeroed 1) (List.replicate (2 ^ 1) bucket_zero) rfl (by decide)
    sample_entries

/-! ## Key layout -/

/-- C8, as stated, fails: given the fingerprint code `x = 256` itself, with `b = 1`,
`mg_idx_get` opens bucket `x & 1 = 0` while `mg_idx_add` routed `x` to bucket
`(x>>8) & 1 = 1`; the lookup misses the entry, which is found under `x>>8 = 1`. -/
theorem key_layout_counterexample :
    get_slot 1 256 = 0 ∧ add_slot 1 256 = 1 ∧
      (build_index rs_insertion [0, 1] (idx_zeroed 1) [⟨256, 7⟩]).bind
        (fun gi => mg_idx_get gi 256) = .ok (none, 0) ∧
      (build_index rs_insertion [0, 1] (idx_zeroed 1) [⟨256, 7⟩]).bind
        (fun gi => mg_idx_get gi (256 >>> 8)) = .ok (some [7], 1) := by
  decide

/-- C8, amended: for every `b` and every 64-bit fingerprint code `x`, `mg_idx_get` given `x>>8`
(the code with its low 8 bits shifted off) opens the bucket that `mg_idx_add` routed `x` to,
which is numbered by the `b` bits of `x` just above the low 8, and probes the table with the key
that `worker_post` inserted for `x`, whose hash is the bits of `x` above the selector. -/
theorem key_layout_agrees (b x : Nat) (hx : x < 2 ^ 64) :
    get_slot b (x >>> 8) = add_slot b x ∧ add_slot b x = x / 2 ^ 8 % 2 ^ b ∧
      get_key b (x >>> 8) = put_key b x ∧ idx_hash (put_key b x) = x / 2 ^ (8 + b) ∧
      idx_eq (get_key b (x >>> 8)) (put_key b x ||| 1) = true := by
  refine ⟨rfl, ?_, rfl, ?_, ?_⟩
  · unfold add_slot
    rw [and_mask, Nat.shiftRight_eq_div_pow]
  · unfold idx_hash
    rw [put_key_shr b x hx, Nat.shiftRight_eq_div_pow, Nat.shiftRight_eq_div_pow,
      Nat.div_div_eq_div_mul, ← Nat.pow_add]
  · unfold idx_eq
    rw [or1_shr1]
    exact beq_self_eq_true _

/-- C8, amended, at a concrete input: the code `0x301` with `b = 1`. -/
theorem key_layout_agrees_witness :
    get_slot 1 (0x301 >>> 8) = add_slot 1 0x301 ∧ add_slot 1 0x301 = 0x301 / 2 ^ 8 % 2 ^ 1 ∧
      get_key 1 (0x301 >>> 8) = put_key 1 0x301 ∧
      idx_hash (put_key 1 0x301) = 0x301 / 2 ^ (8 + 1) ∧
      idx_eq (get_key 1 (0x301 >>> 8)) (put_key 1 0x301 ||| 1) = true :=
  key_layout_agrees 1 0x301 (by decide)

/-! ## Determinism of the build -/

/-- C9: for a fixed list of fewer than `2^31` entries and fixed `b`, the build returns and
the finalised index is the same whatever the worker counts `t1`, `t2` and whatever the orders
`sched1 t1 n`, `sched2 t2 n` in which the pool runs the `n = 1<<b` calls of `worker_post`;
hence `mg_idx_get` returns, for every lookup value, the same count and the same values in the
same order. -/
theorem build_order_independent (rs : List mg128_t → List mg128_t) (hrs : sorts_by_x rs)
    (gi0 : mg_idx_t) (hB : gi0.B = some (List.replicate (2 ^ gi0.b) bucket_zero))
    (l : List mg128_t) (hx : ∀ e ∈ l, e.x < 2 ^ 64) (hlen : l.length < 2 ^ 31)
    (sched1 sched2 : Int → Nat → List Nat) (t1 t2 : Int)
    (h1 : (sched1 t1 (1 <<< gi0.b)).Perm (List.range (1 <<< gi0.b)))
    (h2 : (sched2 t2 (1 <<< gi0.b)).Perm (List.range (1 <<< gi0.b))) :
    ∃ gi, build_index rs (sched1 t1 (1 <<< gi0.b)) gi0 l = .ok gi ∧
      build_index rs (sched2 t2 (1 <<< gi0.b)) gi0 l = .ok gi ∧
      ∀ m, (build_index rs (sched1 t1 (1 <<< gi0.b)) gi0 l).bind (fun g => mg_idx_get g m)
        = (build_index rs (sched2 t2 (1 <<< gi0.b)) gi0 l).bind (fun g => mg_idx_get g m) := by
  rw [Nat.one_shiftLeft] at h1 h2 ⊢
  obtain ⟨Bs1, e1, l1, g1, _, _⟩ := build_index_bounded rs hrs gi0 hB _ h1 l hx hlen
  obtain ⟨Bs2, e2, l2, g2, _, _⟩ := build_index_bounded rs hrs gi0 hB _ h2 l hx hlen
  have hEq : Bs1 = Bs2 := by
    apply List.ext_getElem?
    intro i
    by_cases hi : i < 2 ^ gi0.b
    · rw [g1 i hi, g2 i hi]
    · rw [List.getElem?_eq_none (by omega), List.getElem?_eq_none (by omega)]
  subst hEq
  refine ⟨_, e1, e2, ?_⟩
  intro m
  rw [e1, e2]

/-- C9 at a concrete input: one worker taking the buckets in ascending order against eight workers
taking them in descending order. -/
theorem build_order_independent_witness :
    ∃ gi, build_index rs_insertion ((fun (_ : Int) n => List.range n) 1 (1 <<< (idx_zeroed 1).b))
        (idx_zeroed 1) sample_entries = .ok gi ∧
      build_index rs_insertion
        ((fun (_ : Int) n => (List.range n).reverse) 8 (1 <<< (idx_zeroed 1).b))
        (idx_zeroed 1) sample_entries = .ok gi ∧
      ∀ m, (build_index rs_insertion
          ((fun (_ : Int) n => List.range n) 1 (1 <<< (idx_zeroed 1).b))
          (idx_zeroed 1) sample_entries).bind (fun g => mg_idx_get g m)
        = (build_index rs_insertion
          ((fun (_ : Int) n => (List.range n).reverse) 8 (1 <<< (idx_zeroed 1).b))
          (idx_zeroed 1) sample_entries).bind (fun g => mg_idx_get g m) :=
  build_order_independent rs_insertion rs_insertion_sorts (idx_zeroed 1) rfl sample_entries
    (by decide) (by decide) (fun _ n => List.range n) (fun _ n => (List.range n).reverse) 1 8
    (List.Perm.refl _) (List.reverse_perm _)

/-! ## The consistency assertions -/

/-- C10: on a bucket that has not been finalised and whose staging list holds fewer than
`2^31` entries, all routed to it by `mg_idx_add` (selector `(x>>8) & (2^b - 1) = i`),
`worker_post` fails no assertion: every `kh_put` finds its key absent, `j == start_a + n`
holds at every run boundary and `b->n == start_p` holds at the end, with `start_p` within the
range of `int32_t`. In the table it leaves, no two slots have the same identity
`idx_hash(key)`. -/
theorem worker_post_asserts_hold (rs : List mg128_t → List mg128_t) (hrs : sorts_by_x rs)
    (b i : Nat) (bk : mg_idx_bucket_t) (hh : bk.h = none)
    (hsel : ∀ e ∈ bk.a, (e.x >>> 8) &&& (2 ^ b - 1) = i) (hx : ∀ e ∈ bk.a, e.x < 2 ^ 64)
    (hlen : bk.a.length < 2 ^ 31) :
    ∃ r, worker_post_bucket rs b bk = .ok r ∧
      (bk.a ≠ [] → ∃ s, enc_loop b (rs bk.a) (List.replicate (count_loop (rs bk.a)).bn 0)
        = .ok s ∧ r.h = some s.h ∧ (count_loop (rs bk.a)).bn = s.start_p ∧
        s.start_p < 2 ^ 31) ∧
      ∀ h, r.h = some h → (h.map (fun kv => idx_hash kv.1)).Nodup := by
  by_cases hst : bk.a = []
  · refine ⟨bk, ?_, fun h => absurd hst h, ?_⟩
    · unfold worker_post_bucket
      rw [hst]
      rfl
    · intro h e
      rw [hh] at e
      cases e
  · have hsel' : ∀ e ∈ bk.a, add_slot b e.x = i := by
      intro e he
      unfold add_slot
      rw [Nat.one_shiftLeft]
      exact hsel e he
    obtain ⟨h, p, e, ok⟩ := worker_post_bucket_ok rs hrs b i bk hst hsel' hx
    refine ⟨_, e, fun _ => ?_, ?_⟩
    · unfold worker_post_bucket at e
      have hlen : (bk.a.length == 0) = false := by
        cases hb : bk.a with
        | nil => exact absurd hb hst
        | cons _ _ => rfl
      simp only [hlen, Bool.false_eq_true, if_false] at e
      cases hs : enc_loop b (rs bk.a) (List.replicate (count_loop (rs bk.a)).bn 0) with
      | error f =>
        rw [hs] at e
        cases e
      | ok s =>
        rw [hs] at e
        simp only at e
        by_cases hc : ((count_loop (rs bk.a)).bn == s.start_p) = true
        · rw [if_pos hc] at e
          have e' := Except.ok.inj e
          have hbn : (count_loop (rs bk.a)).bn = s.start_p := by simpa using hc
          have hsmall : s.start_p < 2 ^ 31 := by
            have h1 := count_loop_bn (rs bk.a) (hrs bk.a).2
            have h2 := multi_total_le_length (rs bk.a)
            have h3 := (hrs bk.a).1.length_eq
            omega
          refine ⟨s, rfl, ?_, hbn, hsmall⟩
          have := congrArg mg_idx_bucket_t.h e'
          exact this.symm
        · rw [if_neg hc] at e
          cases e
    · intro h' e'
      have : h = h' := Option.some.inj e'
      subst this
      exact ok.nodup

/-- C10 at a concrete input: bucket 1 of an index with `b = 1` holding four entries. -/
theorem worker_post_asserts_hold_witness :
    ∃ r, worker_post_bucket rs_insertion 1 sample_bucket = .ok r ∧
      (sample_bucket.a ≠ [] →
        ∃ s, enc_loop 1 (rs_insertion sample_bucket.a)
          (List.replicate (count_loop (rs_insertion sample_bucket.a)).bn 0) = .ok s ∧
          r.h = some s.h ∧ (count_loop (rs_insertion sample_bucket.a)).bn = s.start_p ∧
          s.start_p < 2 ^ 31) ∧
      ∀ h, r.h = some h → (h.map (fun kv => idx_hash kv.1)).Nodup :=
  worker_post_asserts_hold rs_insertion rs_insertion_sorts 1 1 sample_bucket
    rfl (by decide) (by decide) (by decide)

/-! ## The three cases of a turn of the encoding loop -/

theorem enc_step_cont (b : Nat) (a : List mg128_t) (s : EncSt) (j : Nat)
    (he : run_ends a j = false) : enc_step b a s j = .ok { s with n := s.n + 1 } := by
  unfold enc_step
  simp [he]

/-- At the end of a run the key of the run is not in the table yet. -/
theorem enc_absent (b : Nat) (a : List mg128_t) (P : Nat)
    (hx : ∀ e ∈ a, e.x < 2 ^ 64)
    (hinj : ∀ e1 ∈ a, ∀ e2 ∈ a, e1.x >>> 8 >>> b = e2.x >>> 8 >>> b → e1.x >>> 8 = e2.x >>> 8)
    (j : Nat) (s : EncSt) (hj1 : 1 ≤ j) (hjl : j ≤ a.length) (I : EncInv b a P j s) :
    kh_get s.h (put_key b (a.getD (j - 1) ⟨0, 0⟩).x) = none := by
  have hpe : a.getD (j - 1) ⟨0, 0⟩ ∈ a := getD_mem a (j - 1) _ (by omega)
  have F2 := runInv_pre_lt a j s.start_a s.n hjl I.runs
  rw [kh_get_none_iff]
  intro kv hkv hc
  obtain ⟨e, he1, he2⟩ := I.keys kv hkv
  have := hinj e (List.mem_of_mem_take he1) _ hpe
    (by rw [← he2, hc, put_key_shr b _ (hx _ hpe)])
  have := F2 e he1
  omega

/-- At the end of a run of two or more entries the overflow array has room for the run. -/
theorem enc_room (b : Nat) (a : List mg128_t) (P : Nat) (hP : multi_total a = P)
    (j : Nat) (s : EncSt) (hjl : j ≤ a.length) (hn : 1 < s.n) (I : EncInv b a P j s) :
    s.start_p + s.n ≤ s.p.length ∧ s.start_p + s.n = multi_total (a.take j) := by
  have R := I.runs
  have hmt : multi_total (a.take j) = s.start_p + (if 1 < s.n then s.n else 0) := by
    rw [runInv_take a j _ _ R,
      multi_total_append_run _ _ _
        (fun e he => Nat.ne_of_lt (runInv_pre_lt a j _ _ hjl R e he))
        (runInv_run_eq a j _ _ hjl R),
      runInv_run_length a j _ _ hjl R, I.sp]
  rw [if_pos hn] at hmt
  have hmle := multi_total_take_le a j
  rw [I.plen, ← hP]
  omega

theorem enc_step_single (b : Nat) (a : List mg128_t) (P : Nat)
    (hx : ∀ e ∈ a, e.x < 2 ^ 64)
    (hinj : ∀ e1 ∈ a, ∀ e2 ∈ a, e1.x >>> 8 >>> b = e2.x >>> 8 >>> b → e1.x >>> 8 = e2.x >>> 8)
    (j : Nat) (s : EncSt) (hj1 : 1 ≤ j) (hjl : j ≤ a.length) (I : EncInv b a P j s)
    (he : run_ends a j = true) (h1 : s.n = 1) :
    enc_step b a s j = .ok
      { n := 1, start_a := j, start_p := s.start_p,
        h := s.h ++ [(put_key b (a.getD (j - 1) ⟨0, 0⟩).x ||| 1, (a.getD (j - 1) ⟨0, 0⟩).y)],
        p := s.p } := by
  have F4 := enc_absent b a P hx hinj j s hj1 hjl I
  have hjn := I.runs.hj
  have hasrt : (!(true && j == s.start_a + s.n)) = false := by
    simp [hjn]
  have hbeq : (s.n == 1) = true := by simp [h1]
  unfold enc_step
  simp only [he, if_true, kh_put_absent _ _ F4, hasrt, Bool.false_eq_true, if_false]
  rw [if_pos hbeq, kh_key_new, kh_set_key_new, kh_set_val_new]

theorem enc_step_multi (b : Nat) (a : List mg128_t) (P : Nat)
    (hx : ∀ e ∈ a, e.x < 2 ^ 64)
    (hinj : ∀ e1 ∈ a, ∀ e2 ∈ a, e1.x >>> 8 >>> b = e2.x >>> 8 >>> b → e1.x >>> 8 = e2.x >>> 8)
    (hP : multi_total a = P)
    (j : Nat) (s : EncSt) (hj1 : 1 ≤ j) (hjl : j ≤ a.length) (I : EncInv b a P j s)
    (he : run_ends a j = true) (h1 : s.n ≠ 1) :
    enc_step b a s j = .ok
      { n := 1, start_a := j, start_p := s.start_p + s.n,
        h := s.h ++ [(put_key b (a.getD (j - 1) ⟨0, 0⟩).x,
                      (s.start_p <<< 32) % 2 ^ 64 ||| s.n)],
        p := s.p.take s.start_p
          ++ radix_sort_64 (((a.drop s.start_a).take s.n).map (fun e => e.y))
          ++ s.p.drop (s.start_p + s.n) } := by
  have F4 := enc_absent b a P hx hinj j s hj1 hjl I
  have hjn := I.runs.hj
  have hn1 := I.runs.hn
  have F3 := runInv_run_length a j s.start_a s.n hjl I.runs
  have hb1 := (enc_room b a P hP j s hjl (by omega) I).1
  have hasrt : (!(true && j == s.start_a + s.n)) = false := by
    simp [hjn]
  have hbeq : (s.n == 1) = false := by simp [h1]
  unfold enc_step
  simp only [he, if_true, kh_put_absent _ _ F4, hasrt, Bool.false_eq_true, if_false, hbeq]
  rw [copy_run_ok a s.start_a s.start_p s.p s.n hb1 (by omega), ok_bind,
    sort_slice_eq s.p s.start_p s.n _ (by rw [List.length_map, F3]) hb1, kh_set_val_new]

/-- A loop invariant may be strengthened by a property that every turn keeps on states that
satisfy the invariant. -/
theorem foldlM_range'_inv2 {σ : Type} (step : σ → Nat → Except Fault σ)
    (Inv J : Nat → σ → Prop) (n s : Nat) (s0 : σ) (h0 : Inv s s0) (j0 : J s s0)
    (hstep : ∀ j t, s ≤ j → j < s + n → Inv j t → ∃ t', step t j = .ok t' ∧ Inv (j + 1) t')
    (jstep : ∀ j t t', s ≤ j → j < s + n → Inv j t → J j t → step t j = .ok t' →
      J (j + 1) t') :
    ∃ t, (List.range' s n).foldlM step s0 = .ok t ∧ Inv (s + n) t ∧ J (s + n) t := by
  obtain ⟨t, e, h⟩ := foldlM_range'_inv step (fun j t => Inv j t ∧ J j t) n s s0 ⟨h0, j0⟩
    (fun j t h1 h2 hI => by
      obtain ⟨t', e', h'⟩ := hstep j t h1 h2 hI.1
      exact ⟨t', e', h', jstep j t t' h1 h2 hI.1 hI.2 e'⟩)
  exact ⟨t, e, h.1, h.2⟩

/-! ## Bucket numbers, packed ranges and the tag bit -/

/-- C17: for `0 ≤ b ≤ 30` the `int` value `1<<b` does not overflow, and for every value `v`
the bucket numbers `(v>>8) & ((1<<b) - 1)` of `mg_idx_add` and `v & ((1<<b) - 1)` of
`mg_idx_get` are below `2^b`, so both index an existing bucket of an array of `2^b` buckets;
for `b = 0` both are 0. -/
theorem bucket_number_in_range (b v : Nat) (hb : b ≤ 30) :
    1 <<< b < 2 ^ 31 ∧ add_slot b v < 2 ^ b ∧ get_slot b v < 2 ^ b ∧
      (∀ Bs : List mg_idx_bucket_t, Bs.length = 2 ^ b →
        (∃ bk, Bs[add_slot b v]? = some bk) ∧ ∃ bk, Bs[get_slot b v]? = some bk) ∧
      add_slot 0 v = 0 ∧ get_slot 0 v = 0 := by
  refine ⟨?_, add_slot_lt b v, get_slot_lt b v, ?_, ?_, ?_⟩
  · rw [Nat.one_shiftLeft]
    calc 2 ^ b ≤ 2 ^ 30 := Nat.pow_le_pow_right (by decide) hb
      _ < 2 ^ 31 := by decide
  · intro Bs hl
    exact ⟨⟨_, List.getElem?_eq_getElem (by rw [hl]; exact add_slot_lt b v)⟩,
      ⟨_, List.getElem?_eq_getElem (by rw [hl]; exact get_slot_lt b v)⟩⟩
  · have := add_slot_lt 0 v
    omega
  · have := get_slot_lt 0 v
    omega

/-- C17 at a concrete input: `b = 30` and the largest 64-bit value. -/
theorem bucket_number_in_range_witness :
    1 <<< 30 < 2 ^ 31 ∧ add_slot 30 (2 ^ 64 - 1) < 2 ^ 30 ∧ get_slot 30 (2 ^ 64 - 1) < 2 ^ 30 ∧
      (∀ Bs : List mg_idx_bucket_t, Bs.length = 2 ^ 30 →
        (∃ bk, Bs[add_slot 30 (2 ^ 64 - 1)]? = some bk) ∧
          ∃ bk, Bs[get_slot 30 (2 ^ 64 - 1)]? = some bk) ∧
      add_slot 0 (2 ^ 64 - 1) = 0 ∧ get_slot 0 (2 ^ 64 - 1) = 0 :=
  bucket_number_in_range 30 (2 ^ 64 - 1) (by decide)

theorem range_desc_eq (s n : Nat) (hs : s < 2 ^ 32) (hn : n < 2 ^ 32) :
    range_desc s n = 2 ^ 32 * s + n :=
  pack_eq s n hs hn

/-- C18: for an offset `start_p < 2^32` and a count `0 < n < 2^31` the value
`(start_p << 32) | n` fits in 64 bits, `mg_idx_get` decodes it to the same pair (`value >> 32`
is `start_p`, the low 32 bits are `n`), and two different pairs of that domain never pack to the
same value. -/
theorem range_desc_roundtrip (start_p n : Nat) (hs : start_p < 2 ^ 32) (h0 : 0 < n)
    (hn : n < 2 ^ 31) :
    range_desc start_p n < 2 ^ 64 ∧ range_offset (range_desc start_p n) = start_p ∧
      range_count (range_desc start_p n) = n ∧
      ∀ s' n', s' < 2 ^ 32 → 0 < n' → n' < 2 ^ 31 →
        range_desc start_p n = range_desc s' n' → start_p = s' ∧ n = n' := by
  have hn' : n < 2 ^ 32 := by omega
  refine ⟨?_, pack_hi start_p n hs hn', pack_lo start_p n hs hn', ?_⟩
  · rw [range_desc_eq start_p n hs hn']
    omega
  · intro s' n' hs' _ hn2 he
    have hn2' : n' < 2 ^ 32 := by omega
    have e1 := pack_hi start_p n hs hn'
    have e2 := pack_lo start_p n hs hn'
    have e3 := pack_hi s' n' hs' hn2'
    have e4 := pack_lo s' n' hs' hn2'
    unfold range_desc at he
    rw [he] at e1 e2
    exact ⟨by rw [← e1, e3], by rw [← e2, e4]⟩

/-- C18 at a concrete input: the largest offset and the largest count of the domain. -/
theorem range_desc_roundtrip_witness :
    range_desc (2 ^ 32 - 1) (2 ^ 31 - 1) < 2 ^ 64 ∧
      range_offset (range_desc (2 ^ 32 - 1) (2 ^ 31 - 1)) = 2 ^ 32 - 1 ∧
      range_count (range_desc (2 ^ 32 - 1) (2 ^ 31 - 1)) = 2 ^ 31 - 1 ∧
      ∀ s' n', s' < 2 ^ 32 → 0 < n' → n' < 2 ^ 31 →
        range_desc (2 ^ 32 - 1) (2 ^ 31 - 1) = range_desc s' n' →
          2 ^ 32 - 1 = s' ∧ 2 ^ 31 - 1 = n' :=
  range_desc_roundtrip (2 ^ 32 - 1) (2 ^ 31 - 1) (by decide) (by decide) (by decide)

/-- The encoding loop stores `range_desc`, and `mg_idx_get` reads it with `range_offset` and
`range_count`. -/
theorem range_desc_is_stored (b : Nat) (a : List mg128_t) (P : Nat)
    (hx : ∀ e ∈ a, e.x < 2 ^ 64)
    (hinj : ∀ e1 ∈ a, ∀ e2 ∈ a, e1.x >>> 8 >>> b = e2.x >>> 8 >>> b → e1.x >>> 8 = e2.x >>> 8)
    (hP : multi_total a = P)
    (j : Nat) (s : EncSt) (hj1 : 1 ≤ j) (hjl : j ≤ a.length) (I : EncInv b a P j s)
    (he : run_ends a j = true) (h1 : s.n ≠ 1) :
    ∃ s', enc_step b a s j = .ok s' ∧
      s'.h = s.h ++ [(put_key b (a.getD (j - 1) ⟨0, 0⟩).x, range_desc s.start_p s.n)] :=
  ⟨_, enc_step_multi b a P hx hinj hP j s hj1 hjl I he h1, rfl⟩

theorem findIdx?_set_same {α : Type} (q : α → Bool) (l : List α) :
    ∀ (i s : Nat) (x : α), (∀ y, l[i]? = some y → q x = q y) →
      (l.set i x).findIdx? q s = l.findIdx? q s := by
  induction l with
  | nil =>
    intro i s x _
    rfl
  | cons c rest ih =>
    intro i s x h
    cases i with
    | zero =>
      have := h c (by simp)
      simp only [List.set_cons_zero, List.findIdx?_cons, this]
    | succ i =>
      simp only [List.set_cons_succ, List.findIdx?_cons]
      rw [ih i (s + 1) x (fun y hy => h y (by simpa using hy))]

/-- Tagging the key of a slot does not change what `kh_get` finds. -/
theorem kh_get_tagged (h : idxhash_t) (itr key : Nat) :
    kh_get (kh_set_key h itr (kh_key h itr ||| 1)) key = kh_get h key := by
  unfold kh_get kh_set_key kh_key kh_val
  apply findIdx?_set_same
  intro y hy
  rw [List.getD_eq_getElem?_getD, hy]
  simp only [Option.getD_some, idx_eq, or1_shr1]

/-- C19: the tag bit is invisible to the hash function and to the comparison of `khash`, so
tagging the key of a stored slot leaves it where `kh_get` finds it under the untagged probe
key; and two probe keys `minier>>b<<1` with identities below `2^63` are `idx_eq` exactly when
the identities are equal. -/
theorem tag_bit_invisible (a c : Nat) :
    idx_hash (a ||| 1) = idx_hash a ∧ idx_eq (a ||| 1) c = idx_eq a c ∧
      (∀ (h : idxhash_t) (itr key : Nat),
        kh_get (kh_set_key h itr (kh_key h itr ||| 1)) key = kh_get h key) ∧
      (∀ h : idxhash_t, kh_get h a = none →
        kh_get (kh_set_key (kh_put h a).1 (kh_put h a).2.1
          (kh_key (kh_put h a).1 (kh_put h a).2.1 ||| 1)) a = some h.length) ∧
      ∀ b m1 m2 : Nat, m1 >>> b < 2 ^ 63 → m2 >>> b < 2 ^ 63 →
        (idx_eq (get_key b m1) (get_key b m2) = true ↔ m1 >>> b = m2 >>> b) := by
  refine ⟨?_, ?_, kh_get_tagged, ?_, ?_⟩
  · unfold idx_hash
    exact or1_shr1 a
  · unfold idx_eq
    rw [or1_shr1]
  · intro h hn
    rw [kh_get_tagged, kh_put_absent h a hn]
    exact kh_get_append_new h (a, 0) a hn rfl
  · intro b m1 m2 h1 h2
    unfold idx_eq get_key
    rw [shl1_shr1 _ h1, shl1_shr1 _ h2]
    exact beq_iff_eq

/-- C19 at a concrete input: the keys 6 and 9. -/
theorem tag_bit_invisible_witness :
    idx_hash (6 ||| 1) = idx_hash 6 ∧ idx_eq (6 ||| 1) 9 = idx_eq 6 9 ∧
      (∀ (h : idxhash_t) (itr key : Nat),
        kh_get (kh_set_key h itr (kh_key h itr ||| 1)) key = kh_get h key) ∧
      (∀ h : idxhash_t, kh_get h 6 = none →
        kh_get (kh_set_key (kh_put h 6).1 (kh_put h 6).2.1
          (kh_key (kh_put h 6).1 (kh_put h 6).2.1 ||| 1)) 6 = some h.length) ∧
      ∀ b m1 m2 : Nat, m1 >>> b < 2 ^ 63 → m2 >>> b < 2 ^ 63 →
        (idx_eq (get_key b m1) (get_key b m2) = true ↔ m1 >>> b = m2 >>> b) :=
  tag_bit_invisible 6 9

/-! ## Frame properties of `worker_post` -/

theorem set_same {α : Type} (l : List α) (i : Nat) (x : α) (h : l[i]? = some x) :
    l.set i x = l := by
  apply List.ext_getElem?
  intro j
  by_cases hj : i = j
  · subst hj
    rw [h, List.getElem?_set_self (by
      obtain ⟨hl, _⟩ := List.getElem?_eq_some.mp h
      exact hl)]
  · rw [List.getElem?_set_ne hj]

theorem worker_post_bucket_nil (rs : List mg128_t → List mg128_t) (b : Nat)
    (bk : mg_idx_bucket_t) (ha : bk.a = []) : worker_post_bucket rs b bk = .ok bk := by
  unfold worker_post_bucket
  rw [ha]
  rfl

theorem worker_post_bucket_released (rs : List mg128_t → List mg128_t) (b : Nat)
    (bk r : mg_idx_bucket_t) (h : worker_post_bucket rs b bk = .ok r) : r.a = [] := by
  by_cases ha : bk.a = []
  · rw [worker_post_bucket_nil rs b bk ha] at h
    rw [← Except.ok.inj h]
    exact ha
  · unfold worker_post_bucket at h
    have hlen : (bk.a.length == 0) = false := by
      cases hb : bk.a with
      | nil => exact absurd hb ha
      | cons _ _ => rfl
    simp only [hlen, Bool.false_eq_true, if_false] at h
    cases hs : enc_loop b (rs bk.a) (List.replicate (count_loop (rs bk.a)).bn 0) with
    | error f =>
      rw [hs] at h
      cases h
    | ok s =>
      rw [hs] at h
      simp only at h
      by_cases hc : ((count_loop (rs bk.a)).bn == s.start_p) = true
      · rw [if_pos hc] at h
        rw [← Except.ok.inj h]
      · rw [if_neg hc] at h
        cases h

/-- C13: a call of `worker_post` on bucket `i` that returns leaves `k`, `w`, `b`, `flag`, the
graph and every bucket `j ≠ i` as they were; and it reads only `gi->b` and bucket `i`: on any
other index with the same `b` and the same bucket `i` it returns too, with the same bucket
`i`. -/
theorem worker_post_isolated (rs : List mg128_t → List mg128_t) (gi gi1 : mg_idx_t) (i : Nat)
    (h : worker_post rs gi i = .ok gi1) :
    gi1.b = gi.b ∧ gi1.w = gi.w ∧ gi1.k = gi.k ∧ gi1.flag = gi.flag ∧ gi1.g = gi.g ∧
      ∃ Bs Bs1, gi.B = some Bs ∧ gi1.B = some Bs1 ∧ Bs1.length = Bs.length ∧
        (∀ j, j ≠ i → Bs1[j]? = Bs[j]?) ∧
        ∀ (gi2 : mg_idx_t) (Bs2 : List mg_idx_bucket_t), gi2.b = gi.b → gi2.B = some Bs2 →
          Bs2[i]? = Bs[i]? →
          ∃ gi3 Bs3, worker_post rs gi2 i = .ok gi3 ∧ gi3.B = some Bs3 ∧
            Bs3[i]? = Bs1[i]? ∧ ∀ j, j ≠ i → Bs3[j]? = Bs2[j]? := by
  unfold worker_post at h
  cases hB : gi.B with
  | none =>
    rw [hB] at h
    cases h
  | some Bs =>
    rw [hB] at h
    simp only at h
    cases hbk : Bs[i]? with
    | none =>
      rw [hbk] at h
      cases h
    | some bk =>
      rw [hbk] at h
      simp only at h
      cases hw : worker_post_bucket rs gi.b bk with
      | error f =>
        rw [hw] at h
        cases h
      | ok bk1 =>
        rw [hw] at h
        have e := Except.ok.inj h
        have hi : i < Bs.length := (List.getElem?_eq_some.mp hbk).1
        rw [← e]
        refine ⟨rfl, rfl, rfl, rfl, rfl, Bs, Bs.set i bk1, rfl, rfl, List.length_set _ _ _,
          fun j hj => List.getElem?_set_ne (Ne.symm hj), ?_⟩
        intro gi2 Bs2 hb2 hB2 hbk2
        rw [hbk] at hbk2
        have hi2 : i < Bs2.length := (List.getElem?_eq_some.mp hbk2).1
        refine ⟨_, Bs2.set i bk1,
          worker_post_ok rs gi2 Bs2 i bk bk1 hB2 hbk2 (by rw [hb2]; exact hw), rfl, ?_,
          fun j hj => List.getElem?_set_ne (Ne.symm hj)⟩
        rw [List.getElem?_set_self hi2, List.getElem?_set_self hi]

/-- C13 at a concrete input: bucket 1 of the two-bucket index that holds the six sample
entries. -/
theorem worker_post_isolated_witness :
    sample_posted.b = sample_staged.b ∧ sample_posted.w = sample_staged.w ∧
      sample_posted.k = sample_staged.k ∧ sample_posted.flag = sample_staged.flag ∧
      sample_posted.g = sample_staged.g ∧
      ∃ Bs Bs1, sample_staged.B = some Bs ∧ sample_posted.B = some Bs1 ∧
        Bs1.length = Bs.length ∧ (∀ j, j ≠ 1 → Bs1[j]? = Bs[j]?) ∧
        ∀ (gi2 : mg_idx_t) (Bs2 : List mg_idx_bucket_t), gi2.b = sample_staged.b →
          gi2.B = some Bs2 → Bs2[1]? = Bs[1]? →
          ∃ gi3 Bs3, worker_post rs_insertion gi2 1 = .ok gi3 ∧ gi3.B = some Bs3 ∧
            Bs3[1]? = Bs1[1]? ∧ ∀ j, j ≠ 1 → Bs3[j]? = Bs2[j]? :=
  worker_post_isolated rs_insertion sample_staged sample_posted 1 (by decide)

/-! ## Empty buckets and the release of the staging list -/

/-- C16: `worker_post` on a bucket whose staging list is empty returns the index as it was
(so a bucket that `calloc` zeroed keeps no table, no overflow array and size 0), and when
such a bucket has no table `mg_idx_get` reports `n = 0` and returns the null pointer for
every lookup value routed to it. -/
theorem empty_bucket_noop (rs : List mg128_t → List mg128_t) (gi : mg_idx_t)
    (Bs : List mg_idx_bucket_t) (i : Nat) (bk : mg_idx_bucket_t) (hB : gi.B = some Bs)
    (hbk : Bs[i]? = some bk) (ha : bk.a = []) :
    worker_post rs gi i = .ok gi ∧
      (bk = bucket_zero → ∃ Bs1, worker_post rs gi i = .ok { gi with B := some Bs1 } ∧
        Bs1[i]? = some { a := [], n := 0, p := none, h := none } ∧ Bs1 = Bs) ∧
      (bk.h = none → ∀ m, get_slot gi.b m = i → mg_idx_get gi m = .ok (none, 0)) := by
  have hw := worker_post_ok rs gi Bs i bk bk hB hbk (worker_post_bucket_nil rs gi.b bk ha)
  rw [set_same Bs i bk hbk] at hw
  have hgi : ({ gi with B := some Bs } : mg_idx_t) = gi := by
    cases gi
    simp only at hB
    subst hB
    rfl
  refine ⟨by rw [hw, hgi], ?_, ?_⟩
  · intro hz
    refine ⟨Bs, hw, ?_, rfl⟩
    rw [hbk, hz]
    rfl
  · intro hh m hm
    exact mg_idx_get_empty gi Bs m bk hB (by rw [hm]; exact hbk) hh

/-- C16 at a concrete input: bucket 0 of the two-bucket index that holds the six sample
entries in bucket 1. -/
theorem empty_bucket_noop_witness :
    worker_post rs_insertion sample_staged 0 = .ok sample_staged ∧
      (bucket_zero = bucket_zero →
        ∃ Bs1, worker_post rs_insertion sample_staged 0
            = .ok { sample_staged with B := some Bs1 } ∧
          Bs1[0]? = some { a := [], n := 0, p := none, h := none } ∧
          Bs1 = [bucket_zero, { a := sample_entries, n := 0, p := none, h := none }]) ∧
      (bucket_zero.h = none →
        ∀ m, get_slot sample_staged.b m = 0 → mg_idx_get sample_staged m = .ok (none, 0)) :=
  empty_bucket_noop rs_insertion sample_staged
    [bucket_zero, { a := sample_entries, n := 0, p := none, h := none }] 0 bucket_zero
    rfl rfl rfl

theorem kv_push_n (grow : Nat → Nat) (es : List mg128_t) :
    ∀ v : mg128_v, (es.foldl (kv_push grow) v).n = v.n + es.length := by
  induction es with
  | nil =>
    intro v
    rfl
  | cons e rest ih =>
    intro v
    rw [List.foldl_cons, ih, List.length_cons]
    show v.n + 1 + rest.length = _
    omega

theorem kv_push_a (grow : Nat → Nat) (es : List mg128_t) :
    ∀ v : mg128_v, ((es.foldl (kv_push grow) v).a).getD [] = v.a.getD [] ++ es := by
  induction es with
  | nil =>
    intro v
    simp
  | cons e rest ih =>
    intro v
    rw [List.foldl_cons, ih]
    show v.a.getD [] ++ [e] ++ rest = _
    simp

theorem kv_push_wf (grow : Nat → Nat) (es : List mg128_t) :
    (((es.foldl (kv_push grow) kv_zero).a).getD []).length
      = (es.foldl (kv_push grow) kv_zero).n := by
  rw [kv_push_a, kv_push_n]
  show ([] ++ es).length = 0 + es.length
  simp

theorem bucket_of_staged_v (grow : Nat → Nat) (b : Nat) (l : List mg128_t) (i : Nat) :
    bucket_of_v (staged_v grow b l i)
      = { a := staged b l i, n := 0, p := none, h := none } := by
  unfold bucket_of_v staged_v
  simp only [kv_push_a, kv_push_n]
  show ({ a := ([] ++ staged b l i).take (0 + (staged b l i).length), n := 0, p := none,
          h := none } : mg_idx_bucket_t) = _
  simp

/-- On a bucket whose header counts the entries of its storage, `worker_post` with the header
spelled out does what `worker_post_bucket` does on the staging list. -/
theorem worker_post_bucket_v_refines (rs : List mg128_t → List mg128_t) (b : Nat)
    (bk : mg_idx_bucket_v) (hwf : (bk.a.a.getD []).length = bk.a.n) :
    (worker_post_bucket_v rs b bk).map bucket_of_v
      = worker_post_bucket rs b (bucket_of_v bk) := by
  have htake : (bk.a.a.getD []).take bk.a.n = bk.a.a.getD [] :=
    List.take_of_length_le (Nat.le_of_eq hwf)
  by_cases h0 : bk.a.n = 0
  · have hnil : (bucket_of_v bk).a = [] := by
      show (bk.a.a.getD []).take bk.a.n = []
      rw [h0]
      rfl
    rw [worker_post_bucket_nil rs b _ hnil]
    unfold worker_post_bucket_v
    rw [if_pos (by simp [h0])]
    rfl
  · have hb1 : (bk.a.n == 0) = false := by simp [h0]
    have hb2 : (((bucket_of_v bk).a).length == 0) = false := by
      show (((bk.a.a.getD []).take bk.a.n).length == 0) = false
      rw [htake, hwf]
      exact hb1
    unfold worker_post_bucket_v worker_post_bucket
    simp only [hb1, hb2, Bool.false_eq_true, if_false]
    show Except.map bucket_of_v
        (match enc_loop b (rs ((bk.a.a.getD []).take bk.a.n))
            (List.replicate (count_loop (rs ((bk.a.a.getD []).take bk.a.n))).bn 0) with
          | .error f => .error f
          | .ok s =>
            if (count_loop (rs ((bk.a.a.getD []).take bk.a.n))).bn == s.start_p then
              .ok { a := { n := 0, m := 0, a := none },
                    n := (count_loop (rs ((bk.a.a.getD []).take bk.a.n))).bn,
                    p := some s.p, h := some s.h }
            else .error .assertFail)
      = (match enc_loop b (rs ((bk.a.a.getD []).take bk.a.n))
            (List.replicate (count_loop (rs ((bk.a.a.getD []).take bk.a.n))).bn 0) with
          | .error f => .error f
          | .ok s =>
            if (count_loop (rs ((bk.a.a.getD []).take bk.a.n))).bn == s.start_p then
              .ok { a := [], n := (count_loop (rs ((bk.a.a.getD []).take bk.a.n))).bn,
                    p := some s.p, h := some s.h }
            else .error .assertFail)
    cases enc_loop b (rs ((bk.a.a.getD []).take bk.a.n))
        (List.replicate (count_loop (rs ((bk.a.a.getD []).take bk.a.n))).bn 0) with
    | error f => rfl
    | ok s =>
      by_cases hc : ((count_loop (rs ((bk.a.a.getD []).take bk.a.n))).bn == s.start_p) = true
      · simp only [hc, if_true]
        rfl
      · simp only [hc, if_false]
        rfl

/-- A returning `worker_post` leaves the header of `b->a` zeroed, provided a header without
entries was zeroed before. -/
theorem worker_post_bucket_v_header (rs : List mg128_t → List mg128_t) (b : Nat)
    (bk r : mg_idx_bucket_v) (h : worker_post_bucket_v rs b bk = .ok r)
    (hz : bk.a.n = 0 → bk.a = kv_zero) : r.a = { n := 0, m := 0, a := none } := by
  unfold worker_post_bucket_v at h
  by_cases h0 : bk.a.n = 0
  · rw [if_pos (by simp [h0])] at h
    rw [← Except.ok.inj h]
    exact hz h0
  · rw [if_neg (by simp [h0])] at h
    simp only at h
    cases hs : enc_loop b (rs ((bk.a.a.getD []).take bk.a.n))
        (List.replicate (count_loop (rs ((bk.a.a.getD []).take bk.a.n))).bn 0) with
    | error f =>
      rw [hs] at h
      cases h
    | ok s =>
      rw [hs] at h
      simp only at h
      by_cases hc : ((count_loop (rs ((bk.a.a.getD []).take bk.a.n))).bn == s.start_p) = true
      · rw [if_pos hc] at h
        rw [← Except.ok.inj h]
      · rw [if_neg hc] at h
        cases h

theorem staged_v_zero (grow : Nat → Nat) (b : Nat) (l : List mg128_t) (i : Nat)
    (h : (staged_v grow b l i).a.n = 0) : (staged_v grow b l i).a = kv_zero := by
  unfold staged_v at h ⊢
  simp only [kv_push_n] at h
  have hl : (staged b l i).length = 0 := by
    have : kv_zero.n = 0 := rfl
    omega
  rw [List.length_eq_zero.mp hl]
  rfl

/-- C12: a call of `worker_post` that returns leaves the staging list of its bucket empty,
whether or not the bucket had received entries. With the header of the vector spelled out:
on every bucket that `mg_idx_add` filled from the zeroed state by `kv_push`, `worker_post`
returns, does on the staging list what `worker_post_bucket` does, and leaves the header with
length 0, capacity 0 and null storage. After the build of fewer than `2^31` entries no bucket
of the index holds a staging entry. -/
theorem staging_released (rs : List mg128_t → List mg128_t) (hrs : sorts_by_x rs)
    (gi0 : mg_idx_t) (hB : gi0.B = some (List.replicate (2 ^ gi0.b) bucket_zero))
    (order : List Nat) (hord : order.Perm (List.range (2 ^ gi0.b)))
    (l : List mg128_t) (hx : ∀ e ∈ l, e.x < 2 ^ 64) (hlen : l.length < 2 ^ 31) :
    (∀ (b : Nat) (bk r : mg_idx_bucket_t), worker_post_bucket rs b bk = .ok r →
      r.a = [] ∧ r.a.length = 0) ∧
    (∀ (grow : Nat → Nat) (i : Nat), i < 2 ^ gi0.b →
      bucket_of_v (staged_v grow gi0.b l i)
        = { a := staged gi0.b l i, n := 0, p := none, h := none } ∧
      ∃ r, worker_post_bucket_v rs gi0.b (staged_v grow gi0.b l i) = .ok r ∧
        r.a = { n := 0, m := 0, a := none } ∧
        worker_post_bucket rs gi0.b { a := staged gi0.b l i, n := 0, p := none, h := none }
          = .ok (bucket_of_v r) ∧
        (bucket_of_v r).a = []) ∧
    ∃ gi Bs, build_index rs order gi0 l = .ok gi ∧ gi.B = some Bs ∧
      Bs.length = 2 ^ gi0.b ∧ ∀ bk ∈ Bs, bk.a = [] ∧ bk.n < 2 ^ 31 := by
  refine ⟨?_, ?_, ?_⟩
  · intro b bk r h
    have := worker_post_bucket_released rs b bk r h
    exact ⟨this, by rw [this]; rfl⟩
  · intro grow i _
    have hb := bucket_of_staged_v grow gi0.b l i
    refine ⟨hb, ?_⟩
    obtain ⟨r0, er0, _⟩ := worker_post_bucket_final rs hrs gi0.b i l hx
    have href := worker_post_bucket_v_refines rs gi0.b (staged_v grow gi0.b l i)
      (kv_push_wf grow (staged gi0.b l i))
    rw [hb, er0] at href
    cases hv : worker_post_bucket_v rs gi0.b (staged_v grow gi0.b l i) with
    | error f =>
      rw [hv] at href
      cases href
    | ok r =>
      rw [hv] at href
      have hr0 : bucket_of_v r = r0 := Except.ok.inj href
      refine ⟨r, rfl, worker_post_bucket_v_header rs gi0.b _ r hv
        (staged_v_zero grow gi0.b l i), by rw [er0, hr0], ?_⟩
      rw [hr0]
      exact worker_post_bucket_released rs gi0.b _ r0 er0
  · obtain ⟨Bs, e, hl, _, _, hsmall⟩ :=
      build_index_bounded rs hrs gi0 hB order hord l hx hlen
    exact ⟨_, Bs, e, rfl, hl, hsmall⟩

/-- C12 at a concrete input: the six sample entries in two buckets, finalised in the order
1, 0. -/
theorem staging_released_witness :
    (∀ (b : Nat) (bk r : mg_idx_bucket_t), worker_post_bucket rs_insertion b bk = .ok r →
      r.a = [] ∧ r.a.length = 0) ∧
    (∀ (grow : Nat → Nat) (i : Nat), i < 2 ^ (idx_zeroed 1).b →
      bucket_of_v (staged_v grow (idx_zeroed 1).b sample_entries i)
        = { a := staged (idx_zeroed 1).b sample_entries i, n := 0, p := none, h := none } ∧
      ∃ r, worker_post_bucket_v rs_insertion (idx_zeroed 1).b
          (staged_v grow (idx_zeroed 1).b sample_entries i) = .ok r ∧
        r.a = { n := 0, m := 0, a := none } ∧
        worker_post_bucket rs_insertion (idx_zeroed 1).b
            { a := staged (idx_zeroed 1).b sample_entries i, n := 0, p := none, h := none }
          = .ok (bucket_of_v r) ∧
        (bucket_of_v r).a = []) ∧
    ∃ gi Bs, build_index rs_insertion [1, 0] (idx_zeroed 1) sample_entries = .ok gi ∧
      gi.B = some Bs ∧ Bs.length = 2 ^ (idx_zeroed 1).b ∧
      ∀ bk ∈ Bs, bk.a = [] ∧ bk.n < 2 ^ 31 :=
  staging_released rs_insertion rs_insertion_sorts (idx_zeroed 1) rfl [1, 0] (by decide)
    sample_entries (by decide) (by decide)

/-! ## Distinct fingerprints and the size of the table -/

theorem dedup_const_length (L : List Nat) (v : Nat) (hne : L ≠ []) (h : ∀ u ∈ L, u = v) :
    L.dedup.length = 1 := by
  induction L with
  | nil => exact absurd rfl hne
  | cons c rest ih =>
    have hc : c = v := h c (List.mem_cons_self _ _)
    by_cases hr : rest = []
    · subst hr
      rfl
    · have hmem : c ∈ rest := by
        obtain ⟨u, hu⟩ := List.exists_mem_of_ne_nil rest hr
        have := h u (List.mem_cons_of_mem _ hu)
        rw [hc, ← this]
        exact hu
      rw [List.dedup_cons_of_mem hmem]
      exact ih hr (fun u hu => h u (List.mem_cons_of_mem _ hu))

theorem dedup_append_const (L1 L2 : List Nat) (v : Nat) (h1 : v ∉ L1)
    (h2 : ∀ u ∈ L2, u = v) (hne : L2 ≠ []) :
    (L1 ++ L2).dedup.length = L1.dedup.length + 1 := by
  induction L1 with
  | nil => simpa using dedup_const_length L2 v hne h2
  | cons c rest ih =>
    have hcv : c ≠ v := fun h => h1 (h ▸ List.mem_cons_self _ _)
    have hrest : v ∉ rest := fun h => h1 (List.mem_cons_of_mem _ h)
    have ih' := ih hrest
    rw [List.cons_append]
    by_cases hc : c ∈ rest
    · rw [List.dedup_cons_of_mem (List.mem_append_left _ hc), List.dedup_cons_of_mem hc]
      exact ih'
    · have hc' : c ∉ rest ++ L2 := by
        intro h
        rcases List.mem_append.mp h with h | h
        · exact hc h
        · exact hcv (h2 c h)
      rw [List.dedup_cons_of_not_mem hc', List.dedup_cons_of_not_mem hc, List.length_cons,
        List.length_cons, ih']

/-- Appending a complete run adds one distinct fingerprint. -/
theorem n_distinct_append_run (pre run : List mg128_t) (v0 : Nat)
    (h1 : ∀ e ∈ pre, e.x >>> 8 ≠ v0) (h2 : ∀ e ∈ run, e.x >>> 8 = v0) (hne : run ≠ []) :
    n_distinct (pre ++ run) = n_distinct pre + 1 := by
  unfold n_distinct
  rw [List.map_append]
  apply dedup_append_const _ _ v0
  · intro h
    obtain ⟨e, he, hv⟩ := List.mem_map.mp h
    exact h1 e he hv
  · intro u hu
    obtain ⟨e, he, hv⟩ := List.mem_map.mp hu
    rw [← hv]
    exact h2 e he
  · intro h
    exact hne (List.map_eq_nil_iff.mp h)

theorem run_ne_nil (a : List mg128_t) (j st n : Nat) (hjl : j ≤ a.length)
    (I : RunInv a j st n) : (a.drop st).take n ≠ [] := by
  intro h
  have := runInv_run_length a j st n hjl I
  rw [h] at this
  have := I.hn
  simp at *
  omega

theorem count_step_keys (a : List mg128_t) (j : Nat) (s : CountSt) (hjl : j ≤ a.length)
    (I : CountInv a j s) (hk : s.n_keys = n_distinct (a.take (j - s.n))) :
    (count_step a s j).n_keys = n_distinct (a.take (j + 1 - (count_step a s j).n)) := by
  unfold count_step
  have R := I.runs
  have hjn := R.hj
  cases he : run_ends a j with
  | false =>
    simp only [Bool.false_eq_true, if_false]
    have e1 : j + 1 - (s.n + 1) = j - s.n := by omega
    rw [e1]
    exact hk
  | true =>
    simp only [if_true]
    have e1 : j + 1 - 1 = j := by omega
    rw [e1, runInv_take a j _ _ R,
      n_distinct_append_run _ _ _
        (fun e he => Nat.ne_of_lt (runInv_pre_lt a j _ _ hjl R e he))
        (runInv_run_eq a j _ _ hjl R) (run_ne_nil a j _ _ hjl R), ← hk]

/-- The counting loop of `worker_post` leaves in `n_keys` the number of distinct
fingerprints. -/
theorem count_loop_n_keys (a : List mg128_t) (hs : a.Pairwise (fun e1 e2 => e1.x ≤ e2.x)) :
    (count_loop a).n_keys = n_distinct a := by
  have I := foldl_range'_inv (count_step a)
    (fun j s => CountInv a j s ∧ s.n_keys = n_distinct (a.take (j - s.n))) a.length 1
    { n := 1, n_keys := 0, bn := 0 }
    ⟨{ runs := runInv_init a, bn := rfl }, rfl⟩
    (fun j t h1 h2 hI => ⟨count_step_inv a hs j t h1 (by omega) hI.1,
      count_step_keys a j t (by omega) hI.1 hI.2⟩)
  rw [Nat.add_comm 1 a.length] at I
  have h1 := I.1.runs.fin rfl
  have h2 := I.2
  rw [h1, List.take_length] at h2
  exact h2

/-! ## The layout of the overflow array -/

theorem laid_out_append_one (rs : List (Nat × Nat)) (m n : Nat) (hn : 2 ≤ n) :
    ∀ o, laid_out o rs m → laid_out o (rs ++ [(m, n)]) (m + n) := by
  induction rs with
  | nil =>
    intro o h
    unfold laid_out at h
    subst h
    exact ⟨rfl, hn, rfl⟩
  | cons r rest ih =>
    intro o h
    obtain ⟨h1, h2, h3⟩ := h
    exact ⟨h1, h2, ih _ h3⟩

theorem laid_out_bounds (rs : List (Nat × Nat)) (stop : Nat) :
    ∀ o, laid_out o rs stop →
      o ≤ stop ∧ ∀ r ∈ rs, o ≤ r.1 ∧ 2 ≤ r.2 ∧ r.1 + r.2 ≤ stop := by
  induction rs with
  | nil =>
    intro o h
    unfold laid_out at h
    exact ⟨Nat.le_of_eq h, fun r hr => by cases hr⟩
  | cons c rest ih =>
    intro o h
    obtain ⟨h1, h2, h3⟩ := h
    obtain ⟨i1, i2⟩ := ih _ h3
    refine ⟨by omega, ?_⟩
    intro r hr
    rcases List.mem_cons.mp hr with e | e
    · subst e
      exact ⟨by omega, h2, by omega⟩
    · obtain ⟨u1, u2, u3⟩ := i2 r e
      exact ⟨by omega, u2, u3⟩

/-- Ranges that tile an interval are pairwise disjoint: each ends before a later one starts. -/
theorem laid_out_pairwise (rs : List (Nat × Nat)) (stop : Nat) :
    ∀ o, laid_out o rs stop → rs.Pairwise (fun r1 r2 => r1.1 + r1.2 ≤ r2.1) := by
  induction rs with
  | nil =>
    intro _ _
    exact List.Pairwise.nil
  | cons c rest ih =>
    intro o h
    obtain ⟨h1, _, h3⟩ := h
    refine List.Pairwise.cons ?_ (ih _ h3)
    intro r hr
    have := ((laid_out_bounds rest stop _ h3).2 r hr).1
    omega

theorem range_slots_append_tagged (h : idxhash_t) (key val : Nat) :
    range_slots (h ++ [(key ||| 1, val)]) = range_slots h := by
  unfold range_slots
  rw [List.filter_append]
  have : [(key ||| 1, val)].filter (fun kv => kv.1 &&& 1 == 0) = [] := by
    rw [List.filter_cons_of_neg (by simp [or1_and1])]
    rfl
  rw [this, List.append_nil]

theorem range_slots_append_range (h : idxhash_t) (key val : Nat) (hk : key &&& 1 = 0) :
    range_slots (h ++ [(key, val)])
      = range_slots h ++ [(range_offset val, range_count val)] := by
  unfold range_slots
  rw [List.filter_append, List.map_append]
  have : [(key, val)].filter (fun kv => kv.1 &&& 1 == 0) = [(key, val)] := by
    rw [List.filter_cons_of_pos (by simp [hk])]
    rfl
  rw [this]
  rfl

theorem put_key_untagged (b x : Nat) : put_key b x &&& 1 = 0 := shl1_and1 _

/-- One turn of the encoding loop keeps the layout. -/
theorem enc_step_layout (b : Nat) (a : List mg128_t) (P : Nat)
    (hx : ∀ e ∈ a, e.x < 2 ^ 64)
    (hinj : ∀ e1 ∈ a, ∀ e2 ∈ a, e1.x >>> 8 >>> b = e2.x >>> 8 >>> b → e1.x >>> 8 = e2.x >>> 8)
    (hP : multi_total a = P) (hP32 : P < 2 ^ 32)
    (j : Nat) (s t : EncSt) (hj1 : 1 ≤ j) (hjl : j ≤ a.length) (I : EncInv b a P j s)
    (L : EncLayout a s) (e : enc_step b a s j = .ok t) : EncLayout a t := by
  have R := I.runs
  have hn1 := R.hn
  have hnew : n_distinct (a.take j) = n_distinct (a.take s.start_a) + 1 := by
    rw [runInv_take a j _ _ R]
    exact n_distinct_append_run _ _ _
      (fun e he => Nat.ne_of_lt (runInv_pre_lt a j _ _ hjl R e he))
      (runInv_run_eq a j _ _ hjl R) (run_ne_nil a j _ _ hjl R)
  cases he : run_ends a j with
  | false =>
    rw [enc_step_cont b a s j he] at e
    rw [← Except.ok.inj e]
    exact { hlen := L.hlen, tiles := L.tiles }
  | true =>
    by_cases h1 : s.n = 1
    · rw [enc_step_single b a P hx hinj j s hj1 hjl I he h1] at e
      rw [← Except.ok.inj e]
      refine { hlen := ?_, tiles := ?_ }
      · show (s.h ++ [_]).length = n_distinct (a.take j)
        rw [List.length_append, L.hlen, hnew]
        rfl
      · show laid_out 0 (range_slots (s.h ++ [_])) s.start_p
        rw [range_slots_append_tagged]
        exact L.tiles
    · rw [enc_step_multi b a P hx hinj hP j s hj1 hjl I he h1] at e
      rw [← Except.ok.inj e]
      have hroom := (enc_room b a P hP j s hjl (by omega) I).1
      rw [I.plen] at hroom
      refine { hlen := ?_, tiles := ?_ }
      · show (s.h ++ [_]).length = n_distinct (a.take j)
        rw [List.length_append, L.hlen, hnew]
        rfl
      · show laid_out 0 (range_slots (s.h ++ [_])) (s.start_p + s.n)
        rw [range_slots_append_range _ _ _ (put_key_untagged b _)]
        have h1' : range_offset ((s.start_p <<< 32) % 2 ^ 64 ||| s.n) = s.start_p :=
          pack_hi _ _ (by omega) (by omega)
        have h2' : range_count ((s.start_p <<< 32) % 2 ^ 64 ||| s.n) = s.n :=
          pack_lo _ _ (by omega) (by omega)
        rw [h1', h2']
        exact laid_out_append_one _ _ _ (by omega) 0 L.tiles

/-- The encoding loop of `worker_post` runs to the end and leaves a table with one slot per
distinct fingerprint, whose ranges tile the overflow array. -/
theorem enc_loop_layout (b : Nat) (a : List mg128_t)
    (hs : a.Pairwise (fun e1 e2 => e1.x ≤ e2.x))
    (hx : ∀ e ∈ a, e.x < 2 ^ 64)
    (hinj : ∀ e1 ∈ a, ∀ e2 ∈ a, e1.x >>> 8 >>> b = e2.x >>> 8 >>> b → e1.x >>> 8 = e2.x >>> 8)
    (hlen : a.length < 2 ^ 31) :
    ∃ s, enc_loop b a (List.replicate (multi_total a) 0) = .ok s ∧
      s.start_a = a.length ∧ EncInv b a (multi_total a) (a.length + 1) s ∧
      s.h.length = n_distinct a ∧ laid_out 0 (range_slots s.h) s.start_p ∧
      s.start_p = multi_total a ∧ s.p.length = multi_total a := by
  have hP32 : multi_total a < 2 ^ 32 := by
    have := multi_total_le_length a
    omega
  obtain ⟨s, e, I, L⟩ := foldlM_range'_inv2 (enc_step b a) (EncInv b a (multi_total a))
    (fun _ t => EncLayout a t) a.length 1 _
    (encInv_init b a (multi_total a))
    { hlen := rfl, tiles := rfl }
    (fun j t h1 h2 hI => enc_step_inv b a _ hs hx hinj rfl j t h1 (by omega) hI)
    (fun j t t' h1 h2 hI hJ e =>
      enc_step_layout b a _ hx hinj rfl hP32 j t t' h1 (by omega) hI hJ e)
  rw [Nat.add_comm 1 a.length] at I
  have hsa := I.runs.fin rfl
  have h1 := L.hlen
  have h2 := I.sp
  rw [hsa, List.take_length] at h1 h2
  exact ⟨s, e, hsa, I, h1, L.tiles, h2, I.plen⟩

/-- In a table without two slots of one identity, `kh_get` finds each slot under every key of
its identity. -/
theorem kh_get_of_mem (h : idxhash_t) (hnd : (h.map (fun kv => kv.1 >>> 1)).Nodup)
    (kv : Nat × Nat) (hkv : kv ∈ h) (key : Nat) (hk : kv.1 >>> 1 = key >>> 1) :
    ∃ k, kh_get h key = some k ∧ h.getD k (0, 0) = kv := by
  induction h with
  | nil => cases hkv
  | cons c rest ih =>
    rw [List.map_cons, List.nodup_cons] at hnd
    rcases List.mem_cons.mp hkv with e | e
    · subst e
      refine ⟨0, ?_, rfl⟩
      unfold kh_get
      rw [List.findIdx?_cons]
      simp [idx_eq, hk]
    · obtain ⟨k, e1, e2⟩ := ih hnd.2 e
      have hc : c.1 >>> 1 ≠ key >>> 1 := by
        intro hc
        apply hnd.1
        rw [hc, ← hk]
        exact List.mem_map.mpr ⟨kv, e, rfl⟩
      refine ⟨k + 1, ?_, ?_⟩
      · unfold kh_get at e1 ⊢
        rw [List.findIdx?_cons]
        have : idx_eq c.1 key = false := by simpa [idx_eq] using hc
        rw [this]
        simp only [Bool.false_eq_true, if_false]
        rw [List.findIdx?_succ, e1]
        rfl
      · rw [List.getD_eq_getElem?_getD] at e2 ⊢
        rw [List.getElem?_cons_succ]
        exact e2

/-- Every untagged slot of a finalised bucket describes a range of two or more cells of the
overflow array, in ascending order, one for each staged entry of the slot's identity. -/
theorem range_slot_ok (b i : Nat) (st : List mg128_t) (h : idxhash_t) (p : List Nat)
    (ok : BucketOK b st h p) (hsel : ∀ e ∈ st, add_slot b e.x = i)
    (hx : ∀ e ∈ st, e.x < 2 ^ 64) (hlen : st.length < 2 ^ 31)
    (kv : Nat × Nat) (hkv : kv ∈ h) (hk : kv.1 &&& 1 = 0) :
    2 ≤ range_count kv.2 ∧ range_offset kv.2 + range_count kv.2 ≤ p.length ∧
      ((p.drop (range_offset kv.2)).take (range_count kv.2)).Sorted (fun u v => u ≤ v) ∧
      range_count kv.2 = (st.filter (fun e => e.x >>> 8 >>> b == kv.1 >>> 1)).length ∧
      ((p.drop (range_offset kv.2)).take (range_count kv.2)).Perm
        ((st.filter (fun e => e.x >>> 8 >>> b == kv.1 >>> 1)).map (fun e => e.y)) := by
  obtain ⟨e, he, hid⟩ := ok.keys kv hkv
  obtain ⟨k, hk1, hc⟩ := ok.look e he
  have hkey : kv.1 >>> 1 = get_key b (e.x >>> 8) >>> 1 := by
    rw [← put_key_eq, put_key_shr b e.x (hx e he)]
    exact hid
  obtain ⟨k', hk2, hk3⟩ := kh_get_of_mem h ok.nodup kv hkv _ hkey
  rw [hk1] at hk2
  have hkk := Option.some.inj hk2
  subst hkk
  have hinj := same_slot_inj b i st hsel
  have hfil : st.filter (fun e' => e'.x >>> 8 >>> b == kv.1 >>> 1)
      = st.filter (fun e' => e'.x >>> 8 == e.x >>> 8) := by
    apply List.filter_congr
    intro e' he'
    rw [hid]
    by_cases hv : e'.x >>> 8 = e.x >>> 8
    · simp [hv]
    · have : e'.x >>> 8 >>> b ≠ e.x >>> 8 >>> b := fun hh => hv (hinj e' he' e he hh)
      simp [hv, this]
  have hys : (st.filter (fun e' => e'.x >>> 8 == e.x >>> 8)).map (fun e => e.y)
      = ys_of st (e.x >>> 8) := rfl
  rcases hc with ⟨y, _, e2⟩ | ⟨h2, s0, e1, e2, e3⟩
  · rw [hk3] at e2
    have : kv.1 = get_key b (e.x >>> 8) ||| 1 := congrArg Prod.fst e2
    rw [this, or1_and1] at hk
    cases hk
  · rw [hk3] at e1
    have hval : kv.2 = (s0 <<< 32) % 2 ^ 64 ||| (ys_of st (e.x >>> 8)).length :=
      congrArg Prod.snd e1
    have hmt := multi_total_le_length st
    have hcnt : range_count kv.2 = (ys_of st (e.x >>> 8)).length := by
      rw [hval]
      exact pack_lo _ _ (by omega) (by omega)
    have hoff : range_offset kv.2 = s0 := by
      rw [hval]
      exact pack_hi _ _ (by omega) (by omega)
    rw [hcnt, hoff, hfil, hys, e3, ok.plen]
    refine ⟨h2, e2, radix_sort_64_sorted _, ?_, radix_sort_64_perm _⟩
    unfold ys_of
    rw [List.length_map]

/-- C11: in a bucket finalised by `worker_post` the overflow array has `b->n` cells; the ranges
of the untagged slots of the table tile it, each starting where the one before it ended, so
they are pairwise disjoint; and every range has a count of two or more, ends within `b->n`,
holds its positions in ascending order, and its count is the number of staged entries of the
slot's identity, whose positions it holds. -/
theorem overflow_layout (rs : List mg128_t → List mg128_t) (hrs : sorts_by_x rs)
    (b i : Nat) (bk : mg_idx_bucket_t) (hne : bk.a ≠ [])
    (hsel : ∀ e ∈ bk.a, add_slot b e.x = i) (hx : ∀ e ∈ bk.a, e.x < 2 ^ 64)
    (hlen : bk.a.length < 2 ^ 31) :
    ∃ h p, worker_post_bucket rs b bk = .ok { a := [], n := p.length, p := some p, h := some h } ∧
      laid_out 0 (range_slots h) p.length ∧
      (range_slots h).Pairwise (fun r1 r2 => r1.1 + r1.2 ≤ r2.1) ∧
      ∀ kv ∈ h, kv.1 &&& 1 = 0 →
        2 ≤ range_count kv.2 ∧ range_offset kv.2 + range_count kv.2 ≤ p.length ∧
        ((p.drop (range_offset kv.2)).take (range_count kv.2)).Sorted (fun u v => u ≤ v) ∧
        range_count kv.2 = (bk.a.filter (fun e => e.x >>> 8 >>> b == kv.1 >>> 1)).length ∧
        ((p.drop (range_offset kv.2)).take (range_count kv.2)).Perm
          ((bk.a.filter (fun e => e.x >>> 8 >>> b == kv.1 >>> 1)).map (fun e => e.y)) := by
  obtain ⟨hperm, hsorted⟩ := hrs bk.a
  have hmem : ∀ e, e ∈ rs bk.a ↔ e ∈ bk.a := fun e => hperm.mem_iff
  have hx' : ∀ e ∈ rs bk.a, e.x < 2 ^ 64 := fun e he => hx e ((hmem e).mp he)
  have hinj := same_slot_inj b i (rs bk.a) (fun e he => hsel e ((hmem e).mp he))
  obtain ⟨s, es, _, _, _, htiles, hsp, hpl⟩ := enc_loop_layout b (rs bk.a) hsorted hx' hinj
    (by rw [hperm.length_eq]; exact hlen)
  obtain ⟨h, p, e, ok⟩ := worker_post_bucket_ok rs hrs b i bk hne hsel hx
  have hbn := count_loop_bn (rs bk.a) hsorted
  have hlen0 : (bk.a.length == 0) = false := by
    cases hb : bk.a with
    | nil => exact absurd hb hne
    | cons _ _ => rfl
  have e' := e
  unfold worker_post_bucket at e'
  simp only [hlen0, Bool.false_eq_true, if_false, hbn, es, hsp, beq_self_eq_true,
    if_true, Except.ok.injEq, mg_idx_bucket_t.mk.injEq, true_and, Option.some.injEq] at e'
  obtain ⟨_, hp', hh'⟩ := e'
  subst hp' hh'
  have hpl' : s.p.length = multi_total bk.a := ok.plen
  rw [← hpl'] at e
  refine ⟨s.h, s.p, e, ?_, ?_, ?_⟩
  · rw [hpl, ← hsp]
    exact htiles
  · exact laid_out_pairwise _ _ 0 htiles
  · intro kv hkv hk
    exact range_slot_ok b i bk.a s.h s.p ok hsel hx hlen kv hkv hk

/-- C11 at a concrete input: bucket 1 of an index with `b = 1` holding four entries. -/
theorem overflow_layout_witness :
    ∃ h p, worker_post_bucket rs_insertion 1 sample_bucket
        = .ok { a := [], n := p.length, p := some p, h := some h } ∧
      laid_out 0 (range_slots h) p.length ∧
      (range_slots h).Pairwise (fun r1 r2 => r1.1 + r1.2 ≤ r2.1) ∧
      ∀ kv ∈ h, kv.1 &&& 1 = 0 →
        2 ≤ range_count kv.2 ∧ range_offset kv.2 + range_count kv.2 ≤ p.length ∧
        ((p.drop (range_offset kv.2)).take (range_count kv.2)).Sorted (fun u v => u ≤ v) ∧
        range_count kv.2
          = (sample_bucket.a.filter (fun e => e.x >>> 8 >>> 1 == kv.1 >>> 1)).length ∧
        ((p.drop (range_offset kv.2)).take (range_count kv.2)).Perm
          ((sample_bucket.a.filter (fun e => e.x >>> 8 >>> 1 == kv.1 >>> 1)).map
            (fun e => e.y)) :=
  overflow_layout rs_insertion rs_insertion_sorts 1 1 sample_bucket (by decide) (by decide)
    (by decide) (by decide)

/-- C15: on the sorted staging list `a` of a bucket the counting pass of `worker_post` leaves
in `n_keys` the number of distinct fingerprints and in `b->n` the number of entries in groups
of two or more; the encoding pass then runs to the end with exactly `n_keys` slots in the
table and `start_p = b->n`, the ranges of the table tiling the `b->n` cells of the overflow
array, so the final assertion holds and `worker_post` returns. -/
theorem exact_preallocation (b i : Nat) (a : List mg128_t)
    (hs : a.Pairwise (fun e1 e2 => e1.x ≤ e2.x)) (hx : ∀ e ∈ a, e.x < 2 ^ 64)
    (hsel : ∀ e ∈ a, add_slot b e.x = i) (hlen : a.length < 2 ^ 31) :
    (count_loop a).n_keys = n_distinct a ∧ (count_loop a).bn = multi_total a ∧
      ∃ s, enc_loop b a (List.replicate (count_loop a).bn 0) = .ok s ∧
        s.h.length = (count_loop a).n_keys ∧ s.start_p = (count_loop a).bn ∧
        s.p.length = (count_loop a).bn ∧
        laid_out 0 (range_slots s.h) (count_loop a).bn ∧
        ∀ (rs : List mg128_t → List mg128_t) (bk : mg_idx_bucket_t), bk.a ≠ [] →
          rs bk.a = a →
          worker_post_bucket rs b bk
            = .ok { a := [], n := (count_loop a).bn, p := some s.p, h := some s.h } := by
  have hk := count_loop_n_keys a hs
  have hbn := count_loop_bn a hs
  obtain ⟨s, es, _, _, hl, htiles, hsp, hpl⟩ :=
    enc_loop_layout b a hs hx (same_slot_inj b i a hsel) hlen
  rw [hk, hbn]
  refine ⟨rfl, rfl, s, es, hl, hsp, hpl, by rw [← hsp]; exact htiles, ?_⟩
  intro rs bk hne hrs
  have hlen0 : (bk.a.length == 0) = false := by
    cases hb : bk.a with
    | nil => exact absurd hb hne
    | cons _ _ => rfl
  unfold worker_post_bucket
  simp only [hlen0, Bool.false_eq_true, if_false, hrs, hbn, es, hsp, beq_self_eq_true, if_true]

/-- C15 at a concrete input: four sorted entries of bucket 1 of an index with `b = 1`. -/
theorem exact_preallocation_witness :
    (count_loop sample_sorted).n_keys = n_distinct sample_sorted ∧
      (count_loop sample_sorted).bn = multi_total sample_sorted ∧
      ∃ s, enc_loop 1 sample_sorted (List.replicate (count_loop sample_sorted).bn 0) = .ok s ∧
        s.h.length = (count_loop sample_sorted).n_keys ∧
        s.start_p = (count_loop sample_sorted).bn ∧
        s.p.length = (count_loop sample_sorted).bn ∧
        laid_out 0 (range_slots s.h) (count_loop sample_sorted).bn ∧
        ∀ (rs : List mg128_t → List mg128_t) (bk : mg_idx_bucket_t), bk.a ≠ [] →
          rs bk.a = sample_sorted →
          worker_post_bucket rs 1 bk
            = .ok { a := [], n := (count_loop sample_sorted).bn, p := some s.p,
                    h := some s.h } :=
  exact_preallocation 1 1 sample_sorted (by decide) (by decide) (by decide) (by decide)

/-! ## Independence from the first sort -/

theorem sorted_perm_keys (a1 a2 : List mg128_t) (hp : a1.Perm a2)
    (hs1 : a1.Pairwise (fun e1 e2 => e1.x ≤ e2.x))
    (hs2 : a2.Pairwise (fun e1 e2 => e1.x ≤ e2.x)) :
    a1.map (fun e => e.x) = a2.map (fun e => e.x) := by
  apply List.eq_of_perm_of_sorted (r := fun u v : Nat => u ≤ v) (hp.map _)
  · exact List.pairwise_map.mpr hs1
  · exact List.pairwise_map.mpr hs2

theorem getD_key (a : List mg128_t) (j : Nat) :
    (a.getD j ⟨0, 0⟩).x = (a.map (fun e => e.x)).getD j 0 := by
  rw [List.getD_eq_getElem?_getD, List.getD_eq_getElem?_getD, List.getElem?_map]
  cases a[j]? <;> rfl

theorem run_ends_congr (a1 a2 : List mg128_t)
    (hk : a1.map (fun e => e.x) = a2.map (fun e => e.x)) (j : Nat) :
    run_ends a1 j = run_ends a2 j := by
  have hl : a1.length = a2.length := by
    have := congrArg List.length hk
    simpa using this
  unfold run_ends
  rw [getD_key a1 j, getD_key a1 (j - 1), getD_key a2 j, getD_key a2 (j - 1), hk, hl]

theorem count_loop_congr (a1 a2 : List mg128_t)
    (hk : a1.map (fun e => e.x) = a2.map (fun e => e.x)) : count_loop a1 = count_loop a2 := by
  have hl : a1.length = a2.length := by
    have := congrArg List.length hk
    simpa using this
  have hstep : count_step a1 = count_step a2 := by
    funext s j
    unfold count_step
    rw [run_ends_congr a1 a2 hk j]
  unfold count_loop
  rw [hstep, hl]

theorem mem_drop_getD (a : List mg128_t) (j : Nat) (d e : mg128_t) (h : e ∈ a.drop j) :
    ∃ k, j ≤ k ∧ k < a.length ∧ e = a.getD k d := by
  have h' : e ∈ (a.drop j).take a.length := by
    rw [List.take_of_length_le (by rw [List.length_drop]; omega)]
    exact h
  obtain ⟨k, h1, _, h3, h4⟩ := mem_slice_getD a j a.length d e h'
  exact ⟨k, h1, h3, h4⟩

/-- At the end of a run of a sorted array the run holds every entry of its fingerprint. -/
theorem run_ys_complete (a : List mg128_t) (hs : a.Pairwise (fun e1 e2 => e1.x ≤ e2.x))
    (j st n : Nat) (hj1 : 1 ≤ j) (hjl : j ≤ a.length) (he : run_ends a j = true)
    (R : RunInv a j st n) :
    ys_of a ((a.getD (j - 1) ⟨0, 0⟩).x >>> 8) = ((a.drop st).take n).map (fun e => e.y) := by
  have R' := runInv_next a hs j st n hj1 hjl he R
  have hsplit : a = a.take st ++ (a.drop st).take n ++ a.drop j := by
    rw [← runInv_take a j st n R, List.take_append_drop]
  refine (congrArg (fun l => ys_of l ((a.getD (j - 1) ⟨0, 0⟩).x >>> 8)) hsplit).trans ?_
  show ys_of (a.take st ++ (a.drop st).take n ++ a.drop j) _ = _
  rw [ys_of_append, ys_of_append,
    ys_of_none _ _ (fun e he => Nat.ne_of_lt (runInv_pre_lt a j st n hjl R e he)),
    ys_of_all _ _ (runInv_run_eq a j st n hjl R), ys_of_none (a.drop j), List.nil_append,
    List.append_nil]
  intro e he'
  obtain ⟨k, hk1, hk2, rfl⟩ := mem_drop_getD a j ⟨0, 0⟩ e he'
  exact Nat.ne_of_gt (R'.sep (j - 1) k (by omega) hk1 hk2)

/-- A turn of the encoding loop does the same on two sorted arrangements of the same
entries. -/
theorem enc_step_congr (b : Nat) (a1 a2 : List mg128_t) (P : Nat) (hp : a1.Perm a2)
    (hs1 : a1.Pairwise (fun e1 e2 => e1.x ≤ e2.x))
    (hs2 : a2.Pairwise (fun e1 e2 => e1.x ≤ e2.x))
    (hx : ∀ e ∈ a1, e.x < 2 ^ 64)
    (hinj : ∀ e1 ∈ a1, ∀ e2 ∈ a1, e1.x >>> 8 >>> b = e2.x >>> 8 >>> b →
      e1.x >>> 8 = e2.x >>> 8)
    (hP : multi_total a1 = P)
    (j : Nat) (s : EncSt) (hj1 : 1 ≤ j) (hjl : j ≤ a1.length)
    (I1 : EncInv b a1 P j s) (I2 : EncInv b a2 P j s) :
    enc_step b a1 s j = enc_step b a2 s j := by
  have hk := sorted_perm_keys a1 a2 hp hs1 hs2
  have hl : a1.length = a2.length := hp.length_eq
  have hx2 : ∀ e ∈ a2, e.x < 2 ^ 64 := fun e he => hx e (hp.mem_iff.mpr he)
  have hinj2 : ∀ e1 ∈ a2, ∀ e2 ∈ a2, e1.x >>> 8 >>> b = e2.x >>> 8 >>> b →
      e1.x >>> 8 = e2.x >>> 8 :=
    fun e1 h1 e2 h2 => hinj e1 (hp.mem_iff.mpr h1) e2 (hp.mem_iff.mpr h2)
  have hP2 : multi_total a2 = P := by rw [← multi_total_perm a1 a2 hp, hP]
  have hpx : (a1.getD (j - 1) ⟨0, 0⟩).x = (a2.getD (j - 1) ⟨0, 0⟩).x := by
    rw [getD_key a1, getD_key a2, hk]
  have hre := run_ends_congr a1 a2 hk j
  cases he : run_ends a1 j with
  | false =>
    rw [enc_step_cont b a1 s j he, enc_step_cont b a2 s j (by rw [← hre]; exact he)]
  | true =>
    have he2 : run_ends a2 j = true := by rw [← hre]; exact he
    have c1 := run_ys_complete a1 hs1 j s.start_a s.n hj1 hjl he I1.runs
    have c2 := run_ys_complete a2 hs2 j s.start_a s.n hj1 (by omega) he2 I2.runs
    rw [← hpx] at c2
    have hperm := ys_of_perm a1 a2 ((a1.getD (j - 1) ⟨0, 0⟩).x >>> 8) hp
    rw [c1, c2] at hperm
    by_cases h1 : s.n = 1
    · rw [enc_step_single b a1 P hx hinj j s hj1 hjl I1 he h1,
        enc_step_single b a2 P hx2 hinj2 j s hj1 (by omega) I2 he2 h1, ← hpx]
      have hsa : s.start_a = j - 1 := by
        have := I1.runs.hj
        omega
      rw [h1, hsa, slice_one a1 (j - 1) ⟨0, 0⟩ (by omega),
        slice_one a2 (j - 1) ⟨0, 0⟩ (by omega)] at hperm
      have hy : (a1.getD (j - 1) ⟨0, 0⟩).y = (a2.getD (j - 1) ⟨0, 0⟩).y := by
        have := List.perm_singleton.mp hperm
        exact (List.cons.inj this).1
      rw [hy]
    · rw [enc_step_multi b a1 P hx hinj hP j s hj1 hjl I1 he h1,
        enc_step_multi b a2 P hx2 hinj2 hP2 j s hj1 (by omega) I2 he2 h1, ← hpx,
        radix_sort_64_congr _ _ hperm]

theorem foldlM_range'_congr {σ : Type} (step1 step2 : σ → Nat → Except Fault σ)
    (Inv : Nat → σ → Prop) :
    ∀ (n s : Nat) (s0 : σ), Inv s s0 →
      (∀ j t, s ≤ j → j < s + n → Inv j t →
        ∃ t', step1 t j = .ok t' ∧ step2 t j = .ok t' ∧ Inv (j + 1) t') →
      (List.range' s n).foldlM step1 s0 = (List.range' s n).foldlM step2 s0 := by
  intro n
  induction n with
  | zero =>
    intro s s0 _ _
    rfl
  | succ n ih =>
    intro s s0 h0 hstep
    obtain ⟨t1, e1, e2, h1⟩ := hstep s s0 (Nat.le_refl _) (by omega) h0
    rw [List.range'_succ, List.foldlM_cons, List.foldlM_cons, e1, e2, ok_bind, ok_bind]
    exact ih (s + 1) t1 h1 (fun j t hj1 hj2 hI => hstep j t (by omega) (by omega) hI)

/-- The encoding loop builds the same table and the same overflow array from two sorted
arrangements of the same entries. -/
theorem enc_loop_congr (b : Nat) (a1 a2 : List mg128_t) (hp : a1.Perm a2)
    (hs1 : a1.Pairwise (fun e1 e2 => e1.x ≤ e2.x))
    (hs2 : a2.Pairwise (fun e1 e2 => e1.x ≤ e2.x))
    (hx : ∀ e ∈ a1, e.x < 2 ^ 64)
    (hinj : ∀ e1 ∈ a1, ∀ e2 ∈ a1, e1.x >>> 8 >>> b = e2.x >>> 8 >>> b →
      e1.x >>> 8 = e2.x >>> 8) :
    enc_loop b a1 (List.replicate (multi_total a1) 0)
      = enc_loop b a2 (List.replicate (multi_total a1) 0) := by
  have hl : a1.length = a2.length := hp.length_eq
  have hx2 : ∀ e ∈ a2, e.x < 2 ^ 64 := fun e he => hx e (hp.mem_iff.mpr he)
  have hinj2 : ∀ e1 ∈ a2, ∀ e2 ∈ a2, e1.x >>> 8 >>> b = e2.x >>> 8 >>> b →
      e1.x >>> 8 = e2.x >>> 8 :=
    fun e1 h1 e2 h2 => hinj e1 (hp.mem_iff.mpr h1) e2 (hp.mem_iff.mpr h2)
  have hP2 : multi_total a2 = multi_total a1 := (multi_total_perm a1 a2 hp).symm
  unfold enc_loop
  rw [← hl]
  apply foldlM_range'_congr (enc_step b a1) (enc_step b a2)
    (fun j t => EncInv b a1 (multi_total a1) j t ∧ EncInv b a2 (multi_total a1) j t)
  · exact ⟨encInv_init b a1 _, encInv_init b a2 _⟩
  · intro j t h1 h2 hI
    obtain ⟨t1, e1, i1⟩ := enc_step_inv b a1 _ hs1 hx hinj rfl j t h1 (by omega) hI.1
    obtain ⟨t2, e2, i2⟩ := enc_step_inv b a2 _ hs2 hx2 hinj2 hP2 j t h1 (by omega) hI.2
    have hc := enc_step_congr b a1 a2 _ hp hs1 hs2 hx hinj rfl j t h1 (by omega) hI.1 hI.2
    rw [e1, e2] at hc
    have := Except.ok.inj hc
    subst this
    exact ⟨t1, e1, e2, i1, i2⟩

/-- C14: for two arrangements `a1`, `a2` of the same staged entries of a bucket, fewer than
`2^31` of them, both in ascending order of `x`, the counting loop and the encoding loop of
`worker_post` run to the end and give the same result, table and overflow array included,
with `start_p` within the range of `int`; so two implementations of `radix_sort_128x`
that produce them make `worker_post` return the same bucket and the same index, and every
`mg_idx_get` result is the same in count, values and order. -/
theorem first_sort_irrelevant (b i : Nat) (a1 a2 : List mg128_t) (hp : a1.Perm a2)
    (hs1 : a1.Pairwise (fun e1 e2 => e1.x ≤ e2.x))
    (hs2 : a2.Pairwise (fun e1 e2 => e1.x ≤ e2.x))
    (hx : ∀ e ∈ a1, e.x < 2 ^ 64) (hsel : ∀ e ∈ a1, add_slot b e.x = i)
    (hlen : a1.length < 2 ^ 31) :
    count_loop a1 = count_loop a2 ∧
      enc_loop b a1 (List.replicate (count_loop a1).bn 0)
        = enc_loop b a2 (List.replicate (count_loop a2).bn 0) ∧
      (∃ s, enc_loop b a1 (List.replicate (count_loop a1).bn 0) = .ok s ∧
        s.start_p < 2 ^ 31) ∧
      (∀ (rs1 rs2 : List mg128_t → List mg128_t) (bk : mg_idx_bucket_t),
        rs1 bk.a = a1 → rs2 bk.a = a2 →
        worker_post_bucket rs1 b bk = worker_post_bucket rs2 b bk) ∧
      ∀ (rs1 rs2 : List mg128_t → List mg128_t) (gi : mg_idx_t)
        (Bs : List mg_idx_bucket_t) (bk : mg_idx_bucket_t) (j : Nat),
        gi.b = b → gi.B = some Bs → Bs[j]? = some bk → rs1 bk.a = a1 → rs2 bk.a = a2 →
        worker_post rs1 gi j = worker_post rs2 gi j ∧
        ∀ m, (worker_post rs1 gi j).bind (fun g => mg_idx_get g m)
          = (worker_post rs2 gi j).bind (fun g => mg_idx_get g m) := by
  have hk := sorted_perm_keys a1 a2 hp hs1 hs2
  have hc := count_loop_congr a1 a2 hk
  have hbn := count_loop_bn a1 hs1
  have hinj := same_slot_inj b i a1 hsel
  have he0 : enc_loop b a1 (List.replicate (count_loop a1).bn 0)
      = enc_loop b a2 (List.replicate (count_loop a1).bn 0) := by
    rw [hbn]
    exact enc_loop_congr b a1 a2 hp hs1 hs2 hx hinj
  have he : enc_loop b a1 (List.replicate (count_loop a1).bn 0)
      = enc_loop b a2 (List.replicate (count_loop a2).bn 0) := by
    rw [← hc]
    exact he0
  have hbk : ∀ (rs1 rs2 : List mg128_t → List mg128_t) (bk : mg_idx_bucket_t),
      rs1 bk.a = a1 → rs2 bk.a = a2 →
      worker_post_bucket rs1 b bk = worker_post_bucket rs2 b bk := by
    intro rs1 rs2 bk h1 h2
    unfold worker_post_bucket
    rw [h1, h2]
    dsimp only
    rw [← hc, ← he0]
  refine ⟨hc, he, ?_, hbk, ?_⟩
  · obtain ⟨s, es, _, _, _, _, hsp, _⟩ := enc_loop_layout b a1 hs1 hx hinj hlen
    have := multi_total_le_length a1
    exact ⟨s, by rw [hbn]; exact es, by omega⟩
  · intro rs1 rs2 gi Bs bk j hb hB hj h1 h2
    have hw : worker_post rs1 gi j = worker_post rs2 gi j := by
      unfold worker_post
      rw [hB]
      simp only [hj, hb, hbk rs1 rs2 bk h1 h2]
    exact ⟨hw, fun m => by rw [hw]⟩

/-- C14 at a concrete input: two entries of key `0x100` in either order, before an entry of
key `0x301`. -/
theorem first_sort_irrelevant_witness :
    count_loop sample_tie_a = count_loop sample_tie_b ∧
      enc_loop 1 sample_tie_a (List.replicate (count_loop sample_tie_a).bn 0)
        = enc_loop 1 sample_tie_b (List.replicate (count_loop sample_tie_b).bn 0) ∧
      (∃ s, enc_loop 1 sample_tie_a (List.replicate (count_loop sample_tie_a).bn 0) = .ok s ∧
        s.start_p < 2 ^ 31) ∧
      (∀ (rs1 rs2 : List mg128_t → List mg128_t) (bk : mg_idx_bucket_t),
        rs1 bk.a = sample_tie_a → rs2 bk.a = sample_tie_b →
        worker_post_bucket rs1 1 bk = worker_post_bucket rs2 1 bk) ∧
      ∀ (rs1 rs2 : List mg128_t → List mg128_t) (gi : mg_idx_t)
        (Bs : List mg_idx_bucket_t) (bk : mg_idx_bucket_t) (j : Nat),
        gi.b = 1 → gi.B = some Bs → Bs[j]? = some bk → rs1 bk.a = sample_tie_a →
        rs2 bk.a = sample_tie_b →
        worker_post rs1 gi j = worker_post rs2 gi j ∧
        ∀ m, (worker_post rs1 gi j).bind (fun g => mg_idx_get g m)
          = (worker_post rs2 gi j).bind (fun g => mg_idx_get g m) :=
  first_sort_irrelevant 1 1 sample_tie_a sample_tie_b (by decide) (by decide) (by decide)
    (by decide) (by decide) (by decide)

end Minigraph
